import Mathlib

/-!
Verification development for the family-chart layout and reactive-tree
subsystem.  The definitions below are shallow embeddings of the JavaScript
source (bundle `part_000`): persons with relation slots, the store's
`updateMainId`, the layout engine's `setupTid`, `separation`,
`createRelsToAdd`, the edit operation `deletePerson` with its
connectivity check, the hide/show branch toggle `toggleRels`, and the
duplicate-branch group resolution.  JavaScript arrays become Lean lists,
objects become structures, `undefined` string/array slots become
`Option`/empty lists, in-place mutation becomes explicit state passing,
and numbers that carry layout coordinates become rationals (the constants
involved, such as 0.25 and 0.5, are exact in both representations).
-/

namespace FamilyChart

/-! ### Data model: persons, relations, person data -/

/-- Relation slots of a person (`rels` in the source): optional `father` and
`mother` ids plus ordered `spouses` and `children` id sequences.  A missing
array in the source is represented by the empty list. -/
structure Rels where
  father : Option String := none
  mother : Option String := none
  spouses : List String := []
  children : List String := []
deriving Repr, DecidableEq

/-- Free-form person attributes: the reserved `gender` key plus the remaining
key/value fields (which may include mangled `<field>__ref__<otherId>` keys). -/
structure PersonData where
  gender : Option String := none
  fields : List (String × String) := []
deriving Repr, DecidableEq

/-- A person record: id, data, relation slots, the hidden mirror slot `_rels`
used by the hide/show toggles, and the transient flags. -/
structure Person where
  id : String
  data : PersonData := {}
  rels : Rels := {}
  relsHidden : Rels := {}
  to_add : Bool := false
  unknown : Bool := false
  main : Bool := false
deriving Repr, DecidableEq

/-- `data_stash.find(d => d.id === pid)`: first person with the given id. -/
def findPerson (stash : List Person) (pid : String) : Option Person :=
  stash.find? (fun d => d.id = pid)

/-- Index-based variant of `findPerson`, used where the source keeps the
object reference around to mutate it in place. -/
def findPersonIdx (stash : List Person) (pid : String) : Option Nat :=
  stash.findIdx? (fun d => d.id = pid)

/-- Replace the person at index `i` by `f` applied to it (models an in-place
mutation through an object reference). -/
def modifyPerson (stash : List Person) (i : Nat) (f : Person → Person) : List Person :=
  match stash[i]? with
  | some p => stash.set i (f p)
  | none => stash

/-- All ids appearing in a person's relation slots, in source order
`[father, mother, ...spouses, ...children]` with unset slots dropped. -/
def relIds (r : Rels) : List String :=
  (r.father.toList ++ r.mother.toList) ++ r.spouses ++ r.children

/-! ### Reactive store: `updateMainId`  (claim C5) -/

/-- The slice of store state that `updateMainId` touches. -/
structure StoreState where
  main_id : Option String := none
  main_id_history : List String := []
deriving Repr, DecidableEq

/-- `array.slice(-10)`: the last (at most) ten elements. -/
def sliceLastTen (l : List String) : List String :=
  l.drop (l.length - 10)

/-- `updateMainId(id)` from `createStore`: no-op when `id` is already the
focus; otherwise remove `id` from the history, keep the last ten entries,
append `id`, and set the focus to `id`. -/
def updateMainId (id : String) (s : StoreState) : StoreState :=
  if s.main_id = some id then s
  else
    { s with
      main_id_history := sliceLastTen (s.main_id_history.filter (fun d => d ≠ id)) ++ [id],
      main_id := some id }

/-- C5 counterexample input: eleven successive focus changes with pairwise
distinct ids, starting from an empty store. -/
def c5Seq : List String := ["a", "b", "c", "d", "e", "f", "g", "h", "i", "j", "k"]

/-- The store after the eleven focus changes of `c5Seq`. -/
def c5State : StoreState := c5Seq.foldl (fun s id => updateMainId id s) {}

/-- C5, counterexample: after eleven `updateMainId` calls with distinct ids
(each differing from the current focus) the history holds eleven entries,
refuting the claim that it always holds at most ten; moreover each call
pushes the new id, not the prior one, so after the run the last history
entry is the current focus `"k"`, not the prior focus `"j"`. -/
theorem c5_counterexample :
    ¬ c5State.main_id_history.length ≤ 10 ∧
      c5State.main_id_history.getLast? = some "k" := by
  constructor
  · decide
  · decide

/-- C5, amended: `updateMainId id` on a store whose focus differs from `id`
sets the focus to `id` and appends `id` itself (not the prior focus) to the
history, after removing any earlier occurrence of `id` and keeping only the
last ten prior entries; hence the history afterwards has at most eleven
entries and, when it was duplicate-free, stays duplicate-free. -/
theorem c5_updateMainId (s : StoreState) (id : String)
    (hne : s.main_id ≠ some id) (hnd : s.main_id_history.Nodup) :
    (updateMainId id s).main_id = some id ∧
    (updateMainId id s).main_id_history.getLast? = some id ∧
    (updateMainId id s).main_id_history.length ≤ 11 ∧
    (updateMainId id s).main_id_history.Nodup := by
  unfold updateMainId
  rw [if_neg hne]
  refine ⟨rfl, List.getLast?_concat _, ?_, ?_⟩
  · simp only [List.length_append, List.length_singleton, sliceLastTen, List.length_drop]
    omega
  · rw [List.nodup_append]
    refine ⟨List.Nodup.sublist (List.drop_sublist _ _) (hnd.filter _), List.nodup_singleton id, ?_⟩
    intro a ha hb
    rw [List.mem_singleton] at hb
    subst hb
    have ha' : a ∈ s.main_id_history.filter (fun d => d ≠ a) :=
      (List.drop_sublist _ _).mem ha
    rw [List.mem_filter] at ha'
    simp at ha'

/-- C5 witness: the amended theorem applied to a concrete store. -/
theorem c5_witness :
    (updateMainId "b" { main_id := some "a", main_id_history := ["a"] }).main_id = some "b" ∧
    (updateMainId "b"
        { main_id := some "a", main_id_history := ["a"] }).main_id_history.getLast? = some "b" ∧
    (updateMainId "b" { main_id := some "a", main_id_history := ["a"] }).main_id_history.length ≤ 11 ∧
    (updateMainId "b" { main_id := some "a", main_id_history := ["a"] }).main_id_history.Nodup :=
  c5_updateMainId { main_id := some "a", main_id_history := ["a"] } "b" (by decide) (by decide)

/-! ### Layout engine: `setupTid`  (claim C1) -/

/-- The slice of a layout node that `setupTid` reads and writes: the wrapped
person id (`d.data.id`) plus the `tid` and `duplicate` outputs. -/
structure TNode where
  pid : String
  tid : Option String := none
  duplicate : Option Nat := none
deriving Repr, DecidableEq

/-- The tid assigned to the `i`-th (0-based) appearance of a duplicated id. -/
def tidDup (pid : String) (i : Nat) : String :=
  pid ++ "--x" ++ toString (i + 1)

/-- One pass of `duplicates.forEach((d0, i) => ...)`: every node with the
given pid receives `tid = pid--x(i+1)` (by appearance order) and
`duplicate = k`. -/
def assignDupesGo (pid : String) (k : Nat) : Nat → List TNode → List TNode
  | _, [] => []
  | i, n :: rest =>
    if n.pid = pid then
      { n with tid := some (tidDup pid i), duplicate := some k } :: assignDupesGo pid k (i + 1) rest
    else
      n :: assignDupesGo pid k i rest

/-- `tree.filter(d0 => d0.data.id === d.data.id)` followed by the rewrite of
every matching node. -/
def assignDupes (tree : List TNode) (pid : String) : List TNode :=
  assignDupesGo pid ((tree.filter (fun d => d.pid = pid)).length) 0 tree

/-- The `tree.forEach` loop of `setupTid`, processing position `j` with the
accumulated `ids` list; `r` is the number of positions still to visit. -/
def setupTidGo : Nat → Nat → List String → List TNode → List TNode
  | 0, _, _, tree => tree
  | r + 1, j, ids, tree =>
    match tree[j]? with
    | none => tree
    | some d =>
      if d.pid ∈ ids then
        setupTidGo r (j + 1)
          (ids ++ List.replicate ((tree.filter (fun d0 => d0.pid = d.pid)).length) d.pid)
          (assignDupes tree d.pid)
      else
        setupTidGo r (j + 1) (ids ++ [d.pid]) (tree.set j { d with tid := some d.pid })

/-- `setupTid({tree})`: assign a layout-unique `tid` to every node and the
`duplicate` multiplicity to nodes of persons appearing more than once. -/
def setupTid (tree : List TNode) : List TNode :=
  setupTidGo tree.length 0 [] tree

/-- Node state at position `m` after the `setupTid` loop has processed the
first `j` positions of an input tree whose pids are `ps` (and whose nodes
started with `tid` and `duplicate` unset). -/
def c1State (ps : List String) (j m : Nat) : TNode :=
  { pid := ps.getD m "",
    tid :=
      if ((ps.take j).filter (fun q => q = ps.getD m "")).length = 0 then none
      else if ((ps.take j).filter (fun q => q = ps.getD m "")).length = 1 then
        (if ((ps.take m).filter (fun q => q = ps.getD m "")).length = 0 then
          some (ps.getD m "") else none)
      else some (tidDup (ps.getD m "") (((ps.take m).filter (fun q => q = ps.getD m "")).length)),
    duplicate :=
      if 2 ≤ ((ps.take j).filter (fun q => q = ps.getD m "")).length then
        some ((ps.filter (fun q => q = ps.getD m "")).length)
      else none }

theorem getElem?_eq_getD {ps : List String} {n : Nat} (hn : n < ps.length) :
    ps[n]? = some (ps.getD n "") := by
  rw [List.getElem?_eq_getElem hn]
  simp [List.getD, List.getElem?_eq_getElem hn]

theorem assignDupesGo_length (pid : String) (k : Nat) :
    ∀ (t : List TNode) (i : Nat), (assignDupesGo pid k i t).length = t.length := by
  intro t
  induction t with
  | nil => intro i; simp [assignDupesGo]
  | cons d rest ih =>
    intro i
    by_cases h : d.pid = pid
    · simp [assignDupesGo, h, ih]
    · simp [assignDupesGo, h, ih]

theorem assignDupesGo_getElem? (pid : String) (k : Nat) :
    ∀ (t : List TNode) (i m : Nat),
      (assignDupesGo pid k i t)[m]? = t[m]?.map (fun d =>
        if d.pid = pid then
          { d with
            tid := some (tidDup pid (i + ((t.take m).filter (fun d0 => d0.pid = pid)).length)),
            duplicate := some k }
        else d) := by
  intro t
  induction t with
  | nil => intro i m; simp [assignDupesGo]
  | cons d rest ih =>
    intro i m
    by_cases h : d.pid = pid
    · cases m with
      | zero => simp [assignDupesGo, h]
      | succ m' =>
        simp only [assignDupesGo, h, if_pos, List.getElem?_cons_succ, List.take_succ_cons,
          List.filter_cons, ih]
        simp [h, Nat.add_assoc, Nat.add_comm 1]
    · cases m with
      | zero => simp [assignDupesGo, h]
      | succ m' =>
        have e1 : assignDupesGo pid k i (d :: rest) = d :: assignDupesGo pid k i rest := by
          simp [assignDupesGo, h]
        rw [e1, List.getElem?_cons_succ, ih i m', List.take_succ_cons, List.filter_cons]
        simp [h]

theorem assignDupes_length (t : List TNode) (pid : String) :
    (assignDupes t pid).length = t.length :=
  assignDupesGo_length pid _ t 0

/-- Transfer of filter lengths along the pid projection. -/
theorem filter_pid_transfer (q : String) :
    ∀ (t : List TNode) (ps : List String), t.map (fun d => d.pid) = ps →
      (t.filter (fun d => d.pid = q)).length = (ps.filter (fun x => x = q)).length := by
  intro t
  induction t with
  | nil => intro ps h; simp at h; subst h; rfl
  | cons d rest ih =>
    intro ps h
    cases ps with
    | nil => simp at h
    | cons x xs =>
      simp only [List.map_cons, List.cons.injEq] at h
      obtain ⟨h1, h2⟩ := h
      by_cases hq : d.pid = q
      · simp [List.filter_cons, hq, h1 ▸ hq, ih xs h2]
      · have hx : ¬ x = q := h1 ▸ hq
        simp [List.filter_cons, hq, hx, ih xs h2]

theorem setupTidGo_succ_none {tree : List TNode} {j : Nat} (r : Nat) (ids : List String)
    (h : tree[j]? = none) : setupTidGo (r + 1) j ids tree = tree := by
  simp [setupTidGo, h]

theorem setupTidGo_succ_some {tree : List TNode} {j : Nat} {d : TNode} (r : Nat)
    (ids : List String) (h : tree[j]? = some d) :
    setupTidGo (r + 1) j ids tree =
      if d.pid ∈ ids then
        setupTidGo r (j + 1)
          (ids ++ List.replicate ((tree.filter (fun d0 => d0.pid = d.pid)).length) d.pid)
          (assignDupes tree d.pid)
      else
        setupTidGo r (j + 1) (ids ++ [d.pid]) (tree.set j { d with tid := some d.pid }) := by
  simp [setupTidGo, h]

/-- The loop invariant of `setupTid`, pushed to the end of the loop. -/
theorem setupTidGo_spec (ps : List String) :
    ∀ (r j : Nat) (ids : List String) (tree : List TNode),
      ps.length ≤ j + r →
      tree.length = ps.length →
      (∀ p, p ∈ ids ↔ ((ps.take j).filter (fun q => q = p)).length ≠ 0) →
      (∀ m, m < ps.length → tree[m]? = some (c1State ps j m)) →
      ∀ m, m < ps.length → (setupTidGo r j ids tree)[m]? = some (c1State ps ps.length m) := by
  intro r
  induction r with
  | zero =>
    intro j ids tree hjr hlen _hB hC m hm
    have hj : ps.length ≤ j := by omega
    have heq : c1State ps j m = c1State ps ps.length m := by
      unfold c1State
      rw [List.take_of_length_le hj, List.take_of_length_le (le_refl _)]
    simpa [setupTidGo, heq] using hC m hm
  | succ r ih =>
    intro j ids tree hjr hlen hB hC m hm
    cases htj : tree[j]? with
    | none =>
      rw [setupTidGo_succ_none r ids htj]
      have hj : ps.length ≤ j := by
        have := List.getElem?_eq_none_iff.mp htj
        omega
      have heq : c1State ps j m = c1State ps ps.length m := by
        unfold c1State
        rw [List.take_of_length_le hj, List.take_of_length_le (le_refl _)]
      simpa [heq] using hC m hm
    | some d =>
      rw [setupTidGo_succ_some r ids htj]
      have hjlt : j < ps.length := by
        by_contra hge
        rw [List.getElem?_eq_none_iff.mpr (by omega)] at htj
        exact Option.noConfusion htj
      have hd : d = c1State ps j j := by
        have := hC j hjlt
        rw [htj] at this
        exact Option.some.inj this
      have hdpid : d.pid = ps.getD j "" := by rw [hd]; rfl
      have hpsj : ps[j]? = some (ps.getD j "") := by
        rw [List.getElem?_eq_getElem hjlt]
        simp [List.getD, List.getElem?_eq_getElem hjlt]
      have htake : ps.take (j + 1) = ps.take j ++ [ps.getD j ""] := by
        rw [List.take_succ, hpsj]; rfl
      have htreeps : tree.map (fun d0 => d0.pid) = ps := by
        apply List.ext_getElem?
        intro n
        rw [List.getElem?_map]
        by_cases hn : n < ps.length
        · rw [hC n hn, List.getElem?_eq_getElem hn]
          simp [c1State, List.getD, List.getElem?_eq_getElem hn]
        · rw [List.getElem?_eq_none_iff.mpr (by omega),
            List.getElem?_eq_none_iff.mpr (by omega)]
          rfl
      by_cases hmem : d.pid ∈ ids
      · -- duplicate step: rewrite every node of this pid
        rw [if_pos hmem]
        have hcj : ((ps.take j).filter (fun q => q = d.pid)).length ≠ 0 := (hB d.pid).mp hmem
        have hK : (tree.filter (fun d0 => d0.pid = d.pid)).length =
            (ps.filter (fun q => q = d.pid)).length :=
          filter_pid_transfer d.pid tree ps htreeps
        apply ih (j + 1)
        · omega
        · rw [assignDupes_length]; exact hlen
        · intro p
          have hkpos : (ps.filter (fun q => q = d.pid)).length ≠ 0 := by
            have hmemps : d.pid ∈ ps.filter (fun q => q = d.pid) := by
              rw [List.mem_filter]
              refine ⟨?_, by simp⟩
              rw [hdpid]
              exact List.getElem?_mem hpsj
            intro hc
            rw [List.length_eq_zero] at hc
            rw [hc] at hmemps
            exact (List.not_mem_nil _) hmemps
          rw [List.mem_append, List.mem_replicate, hK, htake, List.filter_append,
            List.length_append, hB p]
          by_cases hpq : p = d.pid
          · subst hpq
            have hsing : (List.filter (fun q => decide (q = d.pid)) [ps.getD j ""]).length = 1 := by
              rw [← hdpid]
              simp
            rw [hsing]
            constructor
            · intro _; omega
            · intro _; exact Or.inl hcj
          · have hne : ¬ (ps.getD j "" = p) := by
              rw [← hdpid]; exact fun hcon => hpq hcon.symm
            have hdp : ¬ (d.pid = p) := fun hcon => hpq hcon.symm
            have hsing : (List.filter (fun q => decide (q = p)) [ps.getD j ""]).length = 0 := by
              rw [← hdpid]
              simp [hdp]
            rw [hsing]
            constructor
            · rintro (hc | ⟨_, hpd⟩)
              · omega
              · exact absurd hpd hpq
            · intro hc
              exact Or.inl (by omega)
        · intro n hn
          rw [assignDupes, assignDupesGo_getElem?, hC n hn, Option.map_some']
          have htaken : (tree.take n).map (fun d0 => d0.pid) = ps.take n := by
            rw [List.map_take, htreeps]
          have hcnt : ((tree.take n).filter (fun d0 => d0.pid = d.pid)).length =
              ((ps.take n).filter (fun q => q = d.pid)).length :=
            filter_pid_transfer d.pid (tree.take n) (ps.take n) htaken
          congr 1
          by_cases hpn : ps.getD n "" = d.pid
          · -- a node of the processed pid: gets the duplicate values
            have hpid : (c1State ps j n).pid = d.pid := hpn
            rw [if_pos hpid]
            have heq : ps.getD j "" = ps.getD n "" := (hpn.trans hdpid).symm
            have hc0 : ((ps.take j).filter (fun q => q = ps.getD n "")).length ≠ 0 := by
              rw [hpn]; exact hcj
            have hc1 : ((ps.take (j + 1)).filter (fun q => q = ps.getD n "")).length =
                ((ps.take j).filter (fun q => q = ps.getD n "")).length + 1 := by
              rw [htake, List.filter_append, List.length_append]
              simp only [List.filter_cons, decide_eq_true_eq, List.filter_nil]
              rw [if_pos heq]
              rfl
            unfold c1State
            dsimp only
            rw [hc1, if_neg (by omega), if_neg (by omega), if_pos (by omega),
              Nat.zero_add, hcnt, hK, ← hpn]
          · -- a node of another pid: unchanged by this step
            have hpid : ¬ ((c1State ps j n).pid = d.pid) := hpn
            rw [if_neg hpid]
            have hne : ¬ (ps.getD j "" = ps.getD n "") := by
              intro hcon
              exact hpn (by rw [← hcon, ← hdpid])
            have hc1 : ((ps.take (j + 1)).filter (fun q => q = ps.getD n "")).length =
                ((ps.take j).filter (fun q => q = ps.getD n "")).length := by
              rw [htake, List.filter_append, List.length_append]
              simp only [List.filter_cons, decide_eq_true_eq, List.filter_nil]
              rw [if_neg hne]
              rfl
            unfold c1State
            rw [hc1]
        · exact hm
      · -- first-occurrence step: set tid at position j only
        rw [if_neg hmem]
        have hcj : ((ps.take j).filter (fun q => q = d.pid)).length = 0 := by
          by_contra hc
          exact hmem ((hB d.pid).mpr hc)
        apply ih (j + 1)
        · omega
        · rw [List.length_set]; exact hlen
        · intro p
          rw [List.mem_append, List.mem_singleton, htake, List.filter_append,
            List.length_append, hB p]
          by_cases hpq : p = d.pid
          · subst hpq
            have hsing : (List.filter (fun q => decide (q = d.pid)) [ps.getD j ""]).length = 1 := by
              rw [← hdpid]
              simp
            rw [hsing]
            constructor
            · intro _; omega
            · intro _; exact Or.inr rfl
          · have hne : ¬ (ps.getD j "" = p) := by
              rw [← hdpid]; exact fun hcon => hpq hcon.symm
            have hdp : ¬ (d.pid = p) := fun hcon => hpq hcon.symm
            have hsing : (List.filter (fun q => decide (q = p)) [ps.getD j ""]).length = 0 := by
              rw [← hdpid]
              simp [hdp]
            rw [hsing]
            constructor
            · rintro (hc | hpd)
              · omega
              · exact absurd hpd hpq
            · intro hc
              exact Or.inl (by omega)
        · intro n hn
          rw [List.getElem?_set]
          by_cases hjn : j = n
          · subst hjn
            rw [if_pos rfl, if_pos (by omega)]
            have hcj' : ((ps.take j).filter (fun q => q = ps.getD j "")).length = 0 := by
              rw [← hdpid]; exact hcj
            have hdval : d = { pid := ps.getD j "", tid := none, duplicate := none } := by
              rw [hd]
              unfold c1State
              rw [if_pos hcj', if_neg (by omega)]
            have hc1 : ((ps.take (j + 1)).filter (fun q => q = ps.getD j "")).length = 1 := by
              rw [htake, List.filter_append, List.length_append, hcj']
              simp
            rw [hdval]
            unfold c1State
            rw [hc1, if_neg (by omega), if_pos rfl, if_pos hcj', if_neg (by omega)]
          · rw [if_neg hjn, hC n hn]
            congr 1
            by_cases hpn : ps.getD n "" = d.pid
            · -- another position of the same pid: it must lie after j
              have hnj : j < n := by
                rcases Nat.lt_or_ge j n with h | h
                · exact h
                · exfalso
                  have hlt : n < j := by omega
                  have hmm : ps.getD n "" ∈ (ps.take j).filter (fun q => q = d.pid) := by
                    rw [List.mem_filter]
                    constructor
                    · have hx : (ps.take j)[n]? = some (ps.getD n "") := by
                        rw [List.getElem?_take, if_pos hlt]
                        exact getElem?_eq_getD hn
                      exact List.getElem?_mem hx
                    · simpa using hpn
                  rw [List.length_eq_zero] at hcj
                  rw [hcj] at hmm
                  exact (List.not_mem_nil _) hmm
              have heq : ps.getD j "" = ps.getD n "" := (hpn.trans hdpid).symm
              have hcj' : ((ps.take j).filter (fun q => q = ps.getD n "")).length = 0 := by
                rw [hpn]; exact hcj
              have hc1 : ((ps.take (j + 1)).filter (fun q => q = ps.getD n "")).length =
                  ((ps.take j).filter (fun q => q = ps.getD n "")).length + 1 := by
                rw [htake, List.filter_append, List.length_append]
                simp only [List.filter_cons, decide_eq_true_eq, List.filter_nil]
                rw [if_pos heq]
                rfl
              have hbefore : ¬ (((ps.take n).filter (fun q => q = ps.getD n "")).length = 0) := by
                intro hzero
                have hmm : ps.getD j "" ∈ (ps.take n).filter (fun q => q = ps.getD n "") := by
                  rw [List.mem_filter]
                  constructor
                  · have hx : (ps.take n)[j]? = some (ps.getD j "") := by
                      rw [List.getElem?_take, if_pos hnj, hpsj]
                    exact List.getElem?_mem hx
                  · simpa using heq
                rw [List.length_eq_zero] at hzero
                rw [hzero] at hmm
                exact (List.not_mem_nil _) hmm
              have hLHS : c1State ps j n = { pid := ps.getD n "", tid := none, duplicate := none } := by
                unfold c1State
                rw [if_pos hcj', if_neg (by omega)]
              have hRHS : c1State ps (j + 1) n =
                  { pid := ps.getD n "", tid := none, duplicate := none } := by
                unfold c1State
                rw [hc1, hcj']
                rw [if_neg (by omega), if_pos rfl, if_neg hbefore, if_neg (by omega)]
              rw [hLHS, hRHS]
            · have hne : ¬ (ps.getD j "" = ps.getD n "") := by
                intro hcon
                exact hpn (by rw [← hcon, ← hdpid])
              have hc1 : ((ps.take (j + 1)).filter (fun q => q = ps.getD n "")).length =
                  ((ps.take j).filter (fun q => q = ps.getD n "")).length := by
                rw [htake, List.filter_append, List.length_append]
                simp only [List.filter_cons, decide_eq_true_eq, List.filter_nil]
                rw [if_neg hne]
                rfl
              unfold c1State
              rw [hc1]
        · exact hm

/-- C1, amended: in the list produced by `setupTid`, a person appearing
exactly once keeps `tid = id` with `duplicate` unset, while for a person
appearing `k > 1` times every appearance — including the first — is renamed:
the occurrence with `i` earlier appearances of the same id gets
`tid = id--x(i+1)`, and all `k` appearances get `duplicate = k`. -/
theorem c1_setupTid (ps : List String) (m : Nat) (hm : m < ps.length) :
    (setupTid (ps.map (fun p => ({ pid := p } : TNode))))[m]? =
      some (if (ps.filter (fun q => q = ps.getD m "")).length = 1
        then { pid := ps.getD m "", tid := some (ps.getD m ""), duplicate := none }
        else { pid := ps.getD m "",
               tid := some (tidDup (ps.getD m "")
                 (((ps.take m).filter (fun q => q = ps.getD m "")).length)),
               duplicate := some ((ps.filter (fun q => q = ps.getD m "")).length) }) := by
  have hB0 : ∀ p : String, p ∈ ([] : List String) ↔
      ((ps.take 0).filter (fun q => q = p)).length ≠ 0 := by
    intro p; simp
  have hC0 : ∀ n, n < ps.length →
      (ps.map (fun p => ({ pid := p } : TNode)))[n]? = some (c1State ps 0 n) := by
    intro n hn
    rw [List.getElem?_map, getElem?_eq_getD hn, Option.map_some']
    unfold c1State
    simp
  have hmain := setupTidGo_spec ps ps.length 0 [] (ps.map fun p => { pid := p })
    (by omega) (by rw [List.length_map]) hB0 hC0 m hm
  have hsetup : setupTid (ps.map fun p => ({ pid := p } : TNode)) =
      setupTidGo ps.length 0 [] (ps.map fun p => ({ pid := p } : TNode)) := by
    unfold setupTid
    rw [List.length_map]
  rw [hsetup, hmain]
  congr 1
  have hsplit0 : ∀ pred : String → Bool, (ps.filter pred).length =
      ((ps.take m).filter pred).length + ((ps.drop m).filter pred).length := by
    intro pred
    conv_lhs => rw [← List.take_append_drop m ps]
    rw [List.filter_append, List.length_append]
  have hsplit := hsplit0 (fun q => q = ps.getD m "")
  have hdropmem : ps.getD m "" ∈ (ps.drop m).filter (fun q => q = ps.getD m "") := by
    rw [List.mem_filter]
    constructor
    · have hx : (ps.drop m)[0]? = some (ps.getD m "") := by
        rw [List.getElem?_drop]
        simpa using getElem?_eq_getD hm
      exact List.getElem?_mem hx
    · simp
  have hdpos : ((ps.drop m).filter (fun q => q = ps.getD m "")).length ≠ 0 := by
    intro h0
    rw [List.length_eq_zero] at h0
    rw [h0] at hdropmem
    exact List.not_mem_nil _ hdropmem
  by_cases hk : (ps.filter (fun q => q = ps.getD m "")).length = 1
  · have hb : ((ps.take m).filter (fun q => q = ps.getD m "")).length = 0 := by omega
    have hval : c1State ps ps.length m =
        { pid := ps.getD m "", tid := some (ps.getD m ""), duplicate := none } := by
      unfold c1State
      rw [List.take_of_length_le (le_refl _)]
      rw [if_neg (by omega), if_pos (by omega), if_pos (by omega), if_neg (by omega)]
    rw [hval, if_pos hk]
  · have hk0 : (ps.filter (fun q => q = ps.getD m "")).length ≠ 0 := by omega
    have hval : c1State ps ps.length m =
        { pid := ps.getD m "",
          tid := some (tidDup (ps.getD m "")
            (((ps.take m).filter (fun q => q = ps.getD m "")).length)),
          duplicate := some ((ps.filter (fun q => q = ps.getD m "")).length) } := by
      unfold c1State
      rw [List.take_of_length_le (le_refl _)]
      rw [if_neg (by omega), if_neg (by omega), if_pos (by omega)]
    rw [hval, if_neg hk]

/-- C1, counterexample: on a layout list where person `"A"` appears twice,
the FIRST occurrence does not keep `tid = "A"`: the duplicate pass renames
it to `"A--x1"` as well, refuting the claim that the first occurrence is
assigned `tid` equal to the person's id. -/
theorem c1_counterexample :
    (setupTid [({ pid := "A" } : TNode), ({ pid := "A" } : TNode)])[0]? =
      some { pid := "A", tid := some "A--x1", duplicate := some 2 } ∧
    ("A--x1" : String) ≠ "A" := by
  constructor
  · decide
  · decide

/-- C1 witness: the amended theorem applied to the list of pids
`["A", "B", "A"]` at the third position. -/
theorem c1_witness :
    (setupTid ((["A", "B", "A"] : List String).map (fun p => ({ pid := p } : TNode))))[2]? =
      some (if ((["A", "B", "A"] : List String).filter
              (fun q => q = (["A", "B", "A"] : List String).getD 2 "")).length = 1
        then { pid := (["A", "B", "A"] : List String).getD 2 "",
               tid := some ((["A", "B", "A"] : List String).getD 2 ""), duplicate := none }
        else { pid := (["A", "B", "A"] : List String).getD 2 "",
               tid := some (tidDup ((["A", "B", "A"] : List String).getD 2 "")
                 ((((["A", "B", "A"] : List String).take 2).filter
                   (fun q => q = (["A", "B", "A"] : List String).getD 2 "")).length)),
               duplicate := some (((["A", "B", "A"] : List String).filter
                 (fun q => q = (["A", "B", "A"] : List String).getD 2 "")).length) }) :=
  c1_setupTid ["A", "B", "A"] 2 (by decide)

/-! ### Layout engine: the tidy-tree separation function  (claim C3) -/

/-- The slice of a d3 hierarchy node that `separation` reads: the identity of
the tree parent (`a.parent == b.parent` is reference equality, modelled by a
node index, `none` for the root) and the wrapped person's `rels`. -/
structure SepNode where
  parentRef : Option Nat := none
  rels : Rels := {}
deriving Repr, DecidableEq

/-- `a.parent == b.parent`. -/
def sameParent (a b : SepNode) : Bool := a.parentRef = b.parentRef

/-- Same `father` and same `mother` on the wrapped persons. -/
def sameBothParents (a b : SepNode) : Bool :=
  a.rels.father = b.rels.father && a.rels.mother = b.rels.mother

/-- `d.data.rels.spouses && d.data.rels.spouses.length > 0`. -/
def hasSpouses (d : SepNode) : Bool := decide (0 < d.rels.spouses.length)

def someSpouses (a b : SepNode) : Bool := hasSpouses a || hasSpouses b

/-- `((a.spouses || []).length + (b.spouses || []).length) * 0.5`. -/
def offsetOnPartners (a b : SepNode) : ℚ :=
  ((a.rels.spouses.length : ℚ) + (b.rels.spouses.length : ℚ)) * (1 / 2)

/-- The separation closure of `calculateTreePositions`: base 1; on the
descendant side, +0.25 for different tree parents, the spouse bonus unless
`one_level_rels`, and +0.125 for same tree parent but not both biological
parents equal. -/
def separation (is_ancestry one_level_rels : Bool) (a b : SepNode) : ℚ :=
  if is_ancestry then 1
  else
    let o1 : ℚ := if !sameParent a b then 1 + 1 / 4 else 1
    let o2 : ℚ := if !one_level_rels && someSpouses a b then o1 + offsetOnPartners a b else o1
    if sameParent a b && !sameBothParents a b then o2 + 1 / 8 else o2

/-- The descendant-side separation as the claim states it: 1, plus 0.25 for
different parents, plus 0.125 for sharing only one parent, plus half the
spouse-count sum whenever at least one side has spouses — with no exception
for `one_level_rels`. -/
def claimedSeparation (a b : SepNode) : ℚ :=
  1 + (if !sameParent a b then 1 / 4 else 0)
    + (if sameParent a b && !sameBothParents a b then 1 / 8 else 0)
    + (if someSpouses a b then
        ((a.rels.spouses.length : ℚ) + (b.rels.spouses.length : ℚ)) / 2 else 0)

/-- C3 counterexample nodes: `a` has one spouse and a different tree parent
than `b`. -/
def c3NodeA : SepNode := { parentRef := some 0, rels := { spouses := ["s"] } }

def c3NodeB : SepNode := { parentRef := some 1 }

/-- C3, counterexample: with `one_level_rels` enabled the code skips the
spouse bonus, so the separation of a spoused node differs from the claimed
formula (1.25 versus 1.75). -/
theorem c3_counterexample :
    separation false true c3NodeA c3NodeB ≠ claimedSeparation c3NodeA c3NodeB := by
  unfold separation claimedSeparation c3NodeA c3NodeB sameParent sameBothParents
    someSpouses hasSpouses offsetOnPartners
  norm_num

/-- The descendant-side separation with `one_level_rels` enabled, as the
amended claim states it: only the 0.25 and 0.125 additions apply; the spouse
bonus is skipped entirely. -/
def claimedSeparationOneLevel (a b : SepNode) : ℚ :=
  1 + (if !sameParent a b then 1 / 4 else 0)
    + (if sameParent a b && !sameBothParents a b then 1 / 8 else 0)

/-- C3, amended: in the ancestor hierarchy the separation is exactly 1; in
the descendant hierarchy the claimed formula (1, +0.25 for different
parents, +0.125 for same tree parent but not both biological parents, +0.5
times the spouse-count sum when either side has spouses) holds whenever
`one_level_rels` is disabled; and when `one_level_rels` is enabled the
spouse bonus is skipped entirely, leaving only the 0.25 and 0.125
additions. -/
theorem c3_separation (is_ancestry one_level_rels : Bool) (a b : SepNode) :
    (is_ancestry = true → separation is_ancestry one_level_rels a b = 1) ∧
    (is_ancestry = false → one_level_rels = false →
      separation is_ancestry one_level_rels a b = claimedSeparation a b) ∧
    (is_ancestry = false → one_level_rels = true →
      separation is_ancestry one_level_rels a b = claimedSeparationOneLevel a b) := by
  refine ⟨?_, ?_, ?_⟩
  · intro h
    subst h
    rfl
  · intro h1 h2
    subst h1
    subst h2
    unfold separation claimedSeparation
    by_cases hp : sameParent a b <;> by_cases hb : sameBothParents a b <;>
      by_cases hs : someSpouses a b <;>
      simp [hp, hb, hs, offsetOnPartners] <;> ring
  · intro h1 h2
    subst h1
    subst h2
    unfold separation claimedSeparationOneLevel
    by_cases hp : sameParent a b <;> by_cases hb : sameBothParents a b <;>
      simp [hp, hb] <;> ring

/-- C3 witness: the amended theorem applied to the concrete nodes above, on
the ancestor side and on the descendant side both with `one_level_rels` off
and with it on. -/
theorem c3_witness :
    separation true false c3NodeA c3NodeB = 1 ∧
    separation false false c3NodeA c3NodeB = claimedSeparation c3NodeA c3NodeB ∧
    separation false true c3NodeA c3NodeB = claimedSeparationOneLevel c3NodeA c3NodeB :=
  ⟨(c3_separation true false c3NodeA c3NodeB).1 rfl,
   (c3_separation false false c3NodeA c3NodeB).2.1 rfl rfl,
   (c3_separation false true c3NodeA c3NodeB).2.2 rfl rfl⟩

/-! ### Edit operations: hide/show branch toggle `toggleRels`  (claim C7) -/

/-- The slice of a tree node that `toggleRels` reads: the ancestry flag, the
index of its person in the stash, and the person indices of its spouse
node (`tree_datum.spouse`) or spouse nodes (`tree_datum.spouses`). -/
structure ToggleNode where
  is_ancestry : Bool := false
  idx : Nat
  spouse : Option Nat := none
  spouses : List Nat := []
deriving Repr, DecidableEq

/-- `tree_datum.spouse ? [tree_datum.spouse] : tree_datum.spouses || []`. -/
def toggleSpouses (nd : ToggleNode) : List Nat :=
  match nd.spouse with
  | some s => [s]
  | none => nd.spouses

/-- The relation record named `rels` when hiding and `_rels` when showing
(the source's `rels` local). -/
def getSlot (hide : Bool) (p : Person) : Rels :=
  if hide then p.rels else p.relsHidden

/-- Writing the source-side relation record back. -/
def setSlot (hide : Bool) (r : Rels) (p : Person) : Person :=
  if hide then { p with rels := r } else { p with relsHidden := r }

/-- The destination record (the source's `rels_` local). -/
def getSlotOther (hide : Bool) (p : Person) : Rels := getSlot (!hide) p

def setSlotOther (hide : Bool) (r : Rels) (p : Person) : Person := setSlot (!hide) r p

/-- `showHideAncestry(rel_type)`: move the `father` (or `mother`) entry from
the source record to the destination record, when present. -/
def showHideAncestrySlot (hide : Bool) (isFather : Bool) (p : Person) : Person :=
  let src := getSlot hide p
  match (if isFather then src.father else src.mother) with
  | none => p
  | some x =>
    let dst := getSlotOther hide p
    let p1 := setSlotOther hide
      (if isFather then { dst with father := some x } else { dst with mother := some x }) p
    let src1 := getSlot hide p1
    setSlot hide
      (if isFather then { src1 with father := none } else { src1 with mother := none }) p1

/-- One `ch_id` step of `showHideChildren` on one co-parent: if the source
children contain the id, push it onto the destination children and splice it
out of the source children. -/
def moveChildOnce (hide : Bool) (ch : String) (sp : Person) : Person :=
  let src := getSlot hide sp
  if ch ∈ src.children then
    let dst := getSlotOther hide sp
    let sp1 := setSlotOther hide { dst with children := dst.children ++ [ch] } sp
    let src1 := getSlot hide sp1
    setSlot hide { src1 with children := src1.children.erase ch } sp1
  else sp

/-- The `children.forEach(ch_id => ...)` loop for one co-parent. -/
def moveChildren (hide : Bool) (chs : List String) (sp : Person) : Person :=
  chs.foldl (fun p ch => moveChildOnce hide ch p) sp

/-- `toggleRels(tree_datum, hide_rels)`: ancestry (or focus) nodes move both
parent slots; descendant nodes move the toggled person's children on the
person itself and on each co-parent spouse. -/
def toggleRels (stash : List Person) (nd : ToggleNode) (hide : Bool) : List Person :=
  match stash[nd.idx]? with
  | none => stash
  | some p =>
    if nd.is_ancestry || p.main then
      modifyPerson (modifyPerson stash nd.idx (showHideAncestrySlot hide true))
        nd.idx (showHideAncestrySlot hide false)
    else
      let chs := (getSlot hide p).children
      (nd.idx :: toggleSpouses nd).foldl
        (fun st i => modifyPerson st i (moveChildren hide chs)) stash

/-- C7 counterexample stash: toggled person `"t"` with child `"a"`, and a
co-parent spouse `"s"` whose children are `["a", "x"]` — `"a"` shared with
`"t"`, `"x"` from another partner. -/
def c7Stash : List Person :=
  [{ id := "t", rels := { children := ["a"] } },
   { id := "s", rels := { children := ["a", "x"] } }]

/-- The toggled tree node: person 0, with person 1 as its spouse node. -/
def c7Node : ToggleNode := { idx := 0, spouse := some 1 }

/-- C7, counterexample: hiding then showing the same descendant branch does
not restore the co-parent's children order — the shared child `"a"` is
re-appended at the end, turning `["a", "x"]` into `["x", "a"]`. -/
theorem c7_counterexample :
    (toggleRels (toggleRels c7Stash c7Node true) c7Node false).map
        (fun p => p.rels.children) = [["a"], ["x", "a"]] ∧
    c7Stash.map (fun p => p.rels.children) = [["a"], ["a", "x"]] ∧
    (["x", "a"] : List String) ≠ ["a", "x"] := by
  refine ⟨?_, ?_, ?_⟩
  · decide
  · decide
  · decide

theorem lt_of_getElem?_eq_some {α : Type} {l : List α} {j : Nat} {a : α}
    (h : l[j]? = some a) : j < l.length := by
  by_contra hge
  rw [List.getElem?_eq_none_iff.mpr (by omega)] at h
  exact Option.noConfusion h

theorem set_self {α : Type} {l : List α} {i : Nat} {a : α} (h : l[i]? = some a) :
    l.set i a = l := by
  apply List.ext_getElem?
  intro n
  rw [List.getElem?_set]
  by_cases hin : i = n
  · subst hin
    rw [if_pos rfl, if_pos (lt_of_getElem?_eq_some h)]
    exact h.symm
  · rw [if_neg hin]

theorem modifyPerson_getElem? (st : List Person) (j : Nat) (f : Person → Person) (i : Nat) :
    (modifyPerson st j f)[i]? = if j = i then (st[i]?).map f else st[i]? := by
  unfold modifyPerson
  cases hj : st[j]? with
  | none =>
    by_cases hij : j = i
    · subst hij
      rw [if_pos rfl, hj]
      rfl
    · rw [if_neg hij]
  | some p =>
    rw [List.getElem?_set]
    by_cases hij : j = i
    · subst hij
      rw [if_pos rfl, if_pos rfl, if_pos (lt_of_getElem?_eq_some hj), hj]
      rfl
    · rw [if_neg hij, if_neg hij]

/-- Effect of the `[tree_datum, ...spouses].forEach` person loop on each
stash position: processed positions receive `f`, others are untouched. -/
theorem foldModify_getElem? (f : Person → Person) :
    ∀ (L : List Nat) (st : List Person) (i : Nat), L.Nodup →
      (L.foldl (fun s j => modifyPerson s j f) st)[i]? =
        if i ∈ L then (st[i]?).map f else st[i]? := by
  intro L
  induction L with
  | nil => intro st i _; simp
  | cons j rest ih =>
    intro st i hnd
    rw [List.foldl_cons]
    obtain ⟨hjrest, hrest⟩ := List.nodup_cons.mp hnd
    rw [ih (modifyPerson st j f) i hrest, modifyPerson_getElem?]
    by_cases hij : i = j
    · subst hij
      rw [if_pos rfl, if_neg hjrest, if_pos (List.mem_cons_self _ _)]
    · rw [if_neg (show ¬ (j = i) from fun h => hij h.symm)]
      by_cases hmem : i ∈ rest
      · rw [if_pos hmem, if_pos (List.mem_cons_of_mem _ hmem)]
      · rw [if_neg hmem,
          if_neg (show ¬ (i ∈ j :: rest) from by simp [List.mem_cons, hij, hmem])]

theorem showHideAncestrySlot_main (h b : Bool) (q : Person) :
    (showHideAncestrySlot h b q).main = q.main := by
  obtain ⟨qid, qd, qr, qh, qta, qu, qm⟩ := q
  obtain ⟨rf, rm, rs, rc⟩ := qr
  obtain ⟨hf, hm2, hs, hc⟩ := qh
  cases h <;> cases b <;> cases rf <;> cases rm <;> cases hf <;> cases hm2 <;> rfl

theorem setSlot_main (h : Bool) (r : Rels) (p : Person) : (setSlot h r p).main = p.main := by
  cases h <;> rfl

theorem moveChildOnce_main (h : Bool) (ch : String) (q : Person) :
    (moveChildOnce h ch q).main = q.main := by
  unfold moveChildOnce setSlotOther
  dsimp only
  split
  · rw [setSlot_main, setSlot_main]
  · rfl

theorem moveChildren_main (h : Bool) (chs : List String) :
    ∀ q : Person, (moveChildren h chs q).main = q.main := by
  induction chs with
  | nil => intro q; rfl
  | cons ch rest ih =>
    intro q
    have hstep : moveChildren h (ch :: rest) q = moveChildren h rest (moveChildOnce h ch q) := rfl
    rw [hstep, ih, moveChildOnce_main]

/-- Characterization of the child-moving loop when hiding: the source
(`rels`) children lose exactly the ids of `chs`, and those ids are appended
to the destination (`_rels`) children in `chs` order. -/
theorem moveChildren_true_spec :
    ∀ (chs : List String) (p : Person), chs.Nodup → p.rels.children.Nodup →
      moveChildren true chs p =
        { p with
          rels := { p.rels with
            children := p.rels.children.filter (fun c => !decide (c ∈ chs)) },
          relsHidden := { p.relsHidden with children :=
            p.relsHidden.children ++ chs.filter (fun c => decide (c ∈ p.rels.children)) } } := by
  intro chs
  induction chs with
  | nil =>
    intro p _ _
    show p = _
    simp
  | cons ch rest ih =>
    intro p h1 h2
    obtain ⟨hch, hrest⟩ := List.nodup_cons.mp h1
    have hstep : moveChildren true (ch :: rest) p =
        moveChildren true rest (moveChildOnce true ch p) := rfl
    by_cases hc : ch ∈ p.rels.children
    · have hmc : moveChildOnce true ch p =
          { p with
            rels := { p.rels with children := p.rels.children.erase ch },
            relsHidden := { p.relsHidden with
              children := p.relsHidden.children ++ [ch] } } := by
        simp [moveChildOnce, getSlot, setSlot, getSlotOther, setSlotOther, hc]
      rw [hstep, hmc, ih _ hrest (h2.erase ch)]
      have ha : (p.rels.children.erase ch).filter (fun c => !decide (c ∈ rest)) =
          p.rels.children.filter (fun c => !decide (c ∈ ch :: rest)) := by
        rw [h2.erase_eq_filter ch, List.filter_filter]
        apply List.filter_congr
        intro x _
        by_cases hxc : x = ch <;> by_cases hxr : x ∈ rest <;>
          simp [hxc, hxr, List.mem_cons]
      have hb : rest.filter (fun c => decide (c ∈ p.rels.children.erase ch)) =
          rest.filter (fun c => decide (c ∈ p.rels.children)) := by
        apply List.filter_congr
        intro x hx
        have hxch : x ≠ ch := fun hcon => hch (hcon ▸ hx)
        simp [List.mem_erase_of_ne hxch]
      have hcons : (ch :: rest).filter (fun c => decide (c ∈ p.rels.children)) =
          ch :: rest.filter (fun c => decide (c ∈ p.rels.children)) := by
        simp [List.filter_cons, hc]
      rw [ha, hb, hcons, List.append_assoc]
      rfl
    · have hmc : moveChildOnce true ch p = p := by
        simp [moveChildOnce, getSlot, setSlot, getSlotOther, setSlotOther, hc]
      rw [hstep, hmc, ih p hrest h2]
      have ha : p.rels.children.filter (fun c => !decide (c ∈ rest)) =
          p.rels.children.filter (fun c => !decide (c ∈ ch :: rest)) := by
        apply List.filter_congr
        intro x hx
        have hxch : x ≠ ch := fun hcon => hc (hcon ▸ hx)
        simp [List.mem_cons, hxch]
      have hcons : (ch :: rest).filter (fun c => decide (c ∈ p.rels.children)) =
          rest.filter (fun c => decide (c ∈ p.rels.children)) := by
        simp [List.filter_cons, hc]
      rw [ha, hcons]

/-- Characterization of the child-moving loop when showing: source is
`_rels`, destination is `rels`. -/
theorem moveChildren_false_spec :
    ∀ (chs : List String) (p : Person), chs.Nodup → p.relsHidden.children.Nodup →
      moveChildren false chs p =
        { p with
          relsHidden := { p.relsHidden with
            children := p.relsHidden.children.filter (fun c => !decide (c ∈ chs)) },
          rels := { p.rels with children :=
            p.rels.children ++ chs.filter (fun c => decide (c ∈ p.relsHidden.children)) } } := by
  intro chs
  induction chs with
  | nil =>
    intro p _ _
    show p = _
    simp
  | cons ch rest ih =>
    intro p h1 h2
    obtain ⟨hch, hrest⟩ := List.nodup_cons.mp h1
    have hstep : moveChildren false (ch :: rest) p =
        moveChildren false rest (moveChildOnce false ch p) := rfl
    by_cases hc : ch ∈ p.relsHidden.children
    · have hmc : moveChildOnce false ch p =
          { p with
            relsHidden := { p.relsHidden with children := p.relsHidden.children.erase ch },
            rels := { p.rels with children := p.rels.children ++ [ch] } } := by
        simp [moveChildOnce, getSlot, setSlot, getSlotOther, setSlotOther, hc]
      rw [hstep, hmc, ih _ hrest (h2.erase ch)]
      have ha : (p.relsHidden.children.erase ch).filter (fun c => !decide (c ∈ rest)) =
          p.relsHidden.children.filter (fun c => !decide (c ∈ ch :: rest)) := by
        rw [h2.erase_eq_filter ch, List.filter_filter]
        apply List.filter_congr
        intro x _
        by_cases hxc : x = ch <;> by_cases hxr : x ∈ rest <;>
          simp [hxc, hxr, List.mem_cons]
      have hb : rest.filter (fun c => decide (c ∈ p.relsHidden.children.erase ch)) =
          rest.filter (fun c => decide (c ∈ p.relsHidden.children)) := by
        apply List.filter_congr
        intro x hx
        have hxch : x ≠ ch := fun hcon => hch (hcon ▸ hx)
        simp [List.mem_erase_of_ne hxch]
      have hcons : (ch :: rest).filter (fun c => decide (c ∈ p.relsHidden.children)) =
          ch :: rest.filter (fun c => decide (c ∈ p.relsHidden.children)) := by
        simp [List.filter_cons, hc]
      rw [ha, hb, hcons, List.append_assoc]
      rfl
    · have hmc : moveChildOnce false ch p = p := by
        simp [moveChildOnce, getSlot, setSlot, getSlotOther, setSlotOther, hc]
      rw [hstep, hmc, ih p hrest h2]
      have ha : p.relsHidden.children.filter (fun c => !decide (c ∈ rest)) =
          p.relsHidden.children.filter (fun c => !decide (c ∈ ch :: rest)) := by
        apply List.filter_congr
        intro x hx
        have hxch : x ≠ ch := fun hcon => hc (hcon ▸ hx)
        simp [List.mem_cons, hxch]
      have hcons : (ch :: rest).filter (fun c => decide (c ∈ p.relsHidden.children)) =
          rest.filter (fun c => decide (c ∈ p.relsHidden.children)) := by
        simp [List.filter_cons, hc]
      rw [ha, hcons]

/-- Hiding then showing both parent slots of a person with a clean hidden
record restores the person exactly. -/
theorem ancestryRoundtrip (p : Person) (hcl : p.relsHidden = ({} : Rels)) :
    showHideAncestrySlot false false (showHideAncestrySlot false true
      (showHideAncestrySlot true false (showHideAncestrySlot true true p))) = p := by
  obtain ⟨pid, pdata, prels, prh, pta, pu, pm⟩ := p
  obtain ⟨pf, pmo, psp, pch⟩ := prels
  simp only at hcl
  subst hcl
  cases pf <;> cases pmo <;> rfl

theorem getSlot_true (p : Person) : getSlot true p = p.rels := rfl

theorem getSlot_false (p : Person) : getSlot false p = p.relsHidden := rfl

theorem modifyPerson_eq_set {st : List Person} {j : Nat} {p : Person}
    (h : st[j]? = some p) (f : Person → Person) :
    modifyPerson st j f = st.set j (f p) := by
  unfold modifyPerson
  rw [h]

theorem toggleRels_none {stash : List Person} {nd : ToggleNode} {hide : Bool}
    (h : stash[nd.idx]? = none) : toggleRels stash nd hide = stash := by
  simp [toggleRels, h]

theorem toggleRels_ancestry {stash : List Person} {nd : ToggleNode} {hide : Bool} {p : Person}
    (h : stash[nd.idx]? = some p) (hbr : (nd.is_ancestry || p.main) = true) :
    toggleRels stash nd hide =
      stash.set nd.idx (showHideAncestrySlot hide false (showHideAncestrySlot hide true p)) := by
  have hlt := lt_of_getElem?_eq_some h
  have e1 : modifyPerson stash nd.idx (showHideAncestrySlot hide true) =
      stash.set nd.idx (showHideAncestrySlot hide true p) :=
    modifyPerson_eq_set h _
  have h2 : (stash.set nd.idx (showHideAncestrySlot hide true p))[nd.idx]? =
      some (showHideAncestrySlot hide true p) :=
    List.getElem?_set_eq hlt
  simp only [toggleRels, h]
  rw [if_pos hbr, e1, modifyPerson_eq_set h2, List.set_set]

theorem toggleRels_progeny {stash : List Person} {nd : ToggleNode} {hide : Bool} {p : Person}
    (h : stash[nd.idx]? = some p) (hbr : (nd.is_ancestry || p.main) = false) :
    toggleRels stash nd hide =
      (nd.idx :: toggleSpouses nd).foldl
        (fun st i => modifyPerson st i (moveChildren hide (getSlot hide p).children)) stash := by
  simp only [toggleRels, h]
  rw [if_neg (by simp [hbr])]

/-- Hiding then showing on a person with a clean hidden record: the parent
and spouse slots are untouched, and the children become the non-moved ones
followed by the moved ones in `chs` order. -/
theorem roundtripProgeny (chs : List String) (p : Person)
    (h1 : chs.Nodup) (h2 : p.rels.children.Nodup) (h3 : p.relsHidden = ({} : Rels)) :
    (moveChildren false chs (moveChildren true chs p)).rels.father = p.rels.father ∧
    (moveChildren false chs (moveChildren true chs p)).rels.mother = p.rels.mother ∧
    (moveChildren false chs (moveChildren true chs p)).rels.spouses = p.rels.spouses ∧
    (moveChildren false chs (moveChildren true chs p)).rels.children =
      p.rels.children.filter (fun c => !decide (c ∈ chs)) ++
        chs.filter (fun c => decide (c ∈ p.rels.children)) := by
  have hf := moveChildren_true_spec chs p h1 h2
  have hfh : (moveChildren true chs p).relsHidden.children =
      chs.filter (fun c => decide (c ∈ p.rels.children)) := by
    rw [hf]
    dsimp only
    rw [h3]
    simp
  have hfnd : (moveChildren true chs p).relsHidden.children.Nodup := by
    rw [hfh]
    exact h1.filter _
  have hg := moveChildren_false_spec chs (moveChildren true chs p) h1 hfnd
  have hinner : chs.filter
        (fun c => decide (c ∈ (moveChildren true chs p).relsHidden.children)) =
      chs.filter (fun c => decide (c ∈ p.rels.children)) := by
    rw [hfh]
    apply List.filter_congr
    intro x hx
    simp [List.mem_filter, hx]
  refine ⟨?_, ?_, ?_, ?_⟩
  · rw [hg]
    dsimp only
    rw [hf]
  · rw [hg]
    dsimp only
    rw [hf]
  · rw [hg]
    dsimp only
    rw [hf]
  · rw [hg]
    dsimp only
    rw [hinner, hf]

/-- The re-shown children list is a permutation of the original one. -/
theorem filterSplit_perm (chs A : List String) (h1 : chs.Nodup) (h2 : A.Nodup) :
    (A.filter (fun c => !decide (c ∈ chs)) ++
      chs.filter (fun c => decide (c ∈ A))).Perm A := by
  have hstep1 : (chs.filter (fun c => decide (c ∈ A))).Perm
      (A.filter (fun c => decide (c ∈ chs))) := by
    apply List.Subperm.antisymm
    · apply List.Nodup.subperm (h1.filter _)
      intro x hx
      rw [List.mem_filter] at hx ⊢
      obtain ⟨hxc, hxa⟩ := hx
      simp only [decide_eq_true_eq] at hxa
      exact ⟨hxa, by simp [hxc]⟩
    · apply List.Nodup.subperm (h2.filter _)
      intro x hx
      rw [List.mem_filter] at hx ⊢
      obtain ⟨hxa, hxc⟩ := hx
      simp only [decide_eq_true_eq] at hxc
      exact ⟨hxc, by simp [hxa]⟩
  have hstep2 : (A.filter (fun c => !decide (c ∈ chs)) ++
      A.filter (fun c => decide (c ∈ chs))).Perm A := by
    have hperm := List.filter_append_perm (fun c => !decide (c ∈ chs)) A
    simp only [Bool.not_not] at hperm
    exact hperm
  exact (List.Perm.append_left _ hstep1).trans hstep2

/-- When the moved children are exactly the person's own children the list
is restored with its original order. -/
theorem filterSplit_self (chs : List String) :
    chs.filter (fun c => !decide (c ∈ chs)) ++
      chs.filter (fun c => decide (c ∈ chs)) = chs := by
  have h1 : chs.filter (fun c => !decide (c ∈ chs)) = [] := by
    rw [List.filter_eq_nil]
    intro a ha
    simp [ha]
  have h2 : chs.filter (fun c => decide (c ∈ chs)) = chs := by
    rw [List.filter_eq_self]
    intro a ha
    simp [ha]
  rw [h1, h2, List.nil_append]

/-- C7, amended: on stashes whose hidden `_rels` records start empty and
whose children lists are duplicate-free, toggling hide then show on the same
node and branch restores every affected person's `father`, `mother` and
`spouses` exactly and its children up to permutation; the toggled node's own
children keep their exact order, but a co-parent spouse's children may be
reordered — the re-shown ones are appended at the end. -/
theorem c7_toggleRels (stash : List Person) (nd : ToggleNode) (i : Nat) (p p' : Person)
    (hclean : ∀ q ∈ stash, q.relsHidden = ({} : Rels))
    (hnodup : ∀ q ∈ stash, q.rels.children.Nodup)
    (hnd : (nd.idx :: toggleSpouses nd).Nodup)
    (hp : stash[i]? = some p)
    (hp' : (toggleRels (toggleRels stash nd true) nd false)[i]? = some p') :
    p'.rels.father = p.rels.father ∧ p'.rels.mother = p.rels.mother ∧
    p'.rels.spouses = p.rels.spouses ∧ p'.rels.children.Perm p.rels.children ∧
    (i = nd.idx → p'.rels.children = p.rels.children) := by
  cases hroot : stash[nd.idx]? with
  | none =>
    rw [toggleRels_none hroot, toggleRels_none hroot, hp] at hp'
    obtain rfl := Option.some.inj hp'
    exact ⟨rfl, rfl, rfl, List.Perm.refl _, fun _ => rfl⟩
  | some proot =>
    have hprootmem : proot ∈ stash := List.getElem?_mem hroot
    cases hbr : (nd.is_ancestry || proot.main) with
    | true =>
      have e1 : toggleRels stash nd true = stash.set nd.idx
          (showHideAncestrySlot true false (showHideAncestrySlot true true proot)) :=
        toggleRels_ancestry hroot hbr
      have hlt := lt_of_getElem?_eq_some hroot
      have hq1idx : (stash.set nd.idx
          (showHideAncestrySlot true false (showHideAncestrySlot true true proot)))[nd.idx]? =
          some (showHideAncestrySlot true false (showHideAncestrySlot true true proot)) :=
        List.getElem?_set_eq hlt
      have hbr2 : (nd.is_ancestry ||
          (showHideAncestrySlot true false
            (showHideAncestrySlot true true proot)).main) = true := by
        rw [showHideAncestrySlot_main, showHideAncestrySlot_main]
        exact hbr
      have hout : toggleRels (toggleRels stash nd true) nd false = stash := by
        rw [e1, toggleRels_ancestry hq1idx hbr2, List.set_set,
          ancestryRoundtrip proot (hclean proot hprootmem), set_self hroot]
      rw [hout, hp] at hp'
      obtain rfl := Option.some.inj hp'
      exact ⟨rfl, rfl, rfl, List.Perm.refl _, fun _ => rfl⟩
    | false =>
      have hchsnd : proot.rels.children.Nodup := hnodup proot hprootmem
      have e1 : toggleRels stash nd true =
          (nd.idx :: toggleSpouses nd).foldl
            (fun st i => modifyPerson st i (moveChildren true proot.rels.children)) stash := by
        rw [toggleRels_progeny hroot hbr, getSlot_true]
      have hst1idx : (toggleRels stash nd true)[nd.idx]? =
          some (moveChildren true proot.rels.children proot) := by
        rw [e1, foldModify_getElem? _ _ _ _ hnd, if_pos (List.mem_cons_self _ _), hroot]
        rfl
      have hhidden : (moveChildren true proot.rels.children proot).relsHidden.children =
          proot.rels.children := by
        rw [moveChildren_true_spec proot.rels.children proot hchsnd hchsnd]
        dsimp only
        rw [hclean proot hprootmem]
        simp
      have hbr2 : (nd.is_ancestry ||
          (moveChildren true proot.rels.children proot).main) = false := by
        rw [moveChildren_main]
        exact hbr
      have e2 : toggleRels (toggleRels stash nd true) nd false =
          (nd.idx :: toggleSpouses nd).foldl
            (fun st i => modifyPerson st i (moveChildren false proot.rels.children))
            (toggleRels stash nd true) := by
        rw [toggleRels_progeny hst1idx hbr2, getSlot_false, hhidden]
      rw [e2, foldModify_getElem? _ _ _ _ hnd, e1, foldModify_getElem? _ _ _ _ hnd, hp] at hp'
      by_cases hiL : i ∈ nd.idx :: toggleSpouses nd
      · rw [if_pos hiL, if_pos hiL] at hp'
        simp only [Option.map_some'] at hp'
        obtain rfl := Option.some.inj hp'
        have hpmem : p ∈ stash := List.getElem?_mem hp
        have hrt := roundtripProgeny proot.rels.children p hchsnd
          (hnodup p hpmem) (hclean p hpmem)
        refine ⟨hrt.1, hrt.2.1, hrt.2.2.1, ?_, ?_⟩
        · rw [hrt.2.2.2]
          exact filterSplit_perm proot.rels.children p.rels.children hchsnd (hnodup p hpmem)
        · intro hieq
          have hpp : p = proot := by
            rw [hieq, hroot] at hp
            exact (Option.some.inj hp).symm
          rw [hrt.2.2.2, hpp, filterSplit_self]
      · rw [if_neg hiL, if_neg hiL] at hp'
        obtain rfl := Option.some.inj hp'
        refine ⟨rfl, rfl, rfl, List.Perm.refl _, ?_⟩
        intro hieq
        exact absurd (hieq ▸ List.mem_cons_self nd.idx (toggleSpouses nd)) hiL

/-- C7 witness: the amended theorem applied to the two-person stash of the
counterexample at the co-parent spouse position. -/
theorem c7_witness :
    ({ id := "s", rels := { children := ["x", "a"] } } : Person).rels.father =
      ({ id := "s", rels := { children := ["a", "x"] } } : Person).rels.father ∧
    ({ id := "s", rels := { children := ["x", "a"] } } : Person).rels.mother =
      ({ id := "s", rels := { children := ["a", "x"] } } : Person).rels.mother ∧
    ({ id := "s", rels := { children := ["x", "a"] } } : Person).rels.spouses =
      ({ id := "s", rels := { children := ["a", "x"] } } : Person).rels.spouses ∧
    ({ id := "s", rels := { children := ["x", "a"] } } : Person).rels.children.Perm
      ({ id := "s", rels := { children := ["a", "x"] } } : Person).rels.children ∧
    ((1 : Nat) = c7Node.idx →
      ({ id := "s", rels := { children := ["x", "a"] } } : Person).rels.children =
        ({ id := "s", rels := { children := ["a", "x"] } } : Person).rels.children) :=
  c7_toggleRels c7Stash c7Node 1
    { id := "s", rels := { children := ["a", "x"] } }
    { id := "s", rels := { children := ["x", "a"] } }
    (by decide) (by decide) (by decide) (by decide) (by decide)

/-! ### Duplicate-branch resolution: one ancestry duplicate group  (claim C2) -/

/-- One member of an ancestry duplicate group: the wrapped person's id, the
`_tgdp` key of this appearance (`'main'` or the parent person's id), and the
hierarchy children (present when the group is formed). -/
structure DupMember where
  personId : String
  parentKey : String
  children : List String
deriving Repr, DecidableEq

/-- The persistent `_tgdp` maps of all persons, flattened to entries keyed by
`(person id, parent key)`. -/
abbrev TgdpStore := List ((String × String) × Int)

/-- Reading `d.data._tgdp[parent_id]` (JS object lookup). -/
def storeGet : TgdpStore → (String × String) → Option Int
  | [], _ => none
  | e :: rest, k => if e.1 = k then some e.2 else storeGet rest k

/-- Writing `d.data._tgdp[parent_id] = v` (JS object assignment). -/
def storeSet : TgdpStore → (String × String) → Int → TgdpStore
  | [], k, v => [(k, v)]
  | e :: rest, k, v => if e.1 = k then (k, v) :: rest else e :: storeSet rest k v

def memberKey (m : DupMember) : String × String := (m.personId, m.parentKey)

/-- The first `all_duplicates.forEach` of `assignDuplicateValues`: default
each member's slot to `-1` when absent, then read `_toggle` from the slot. -/
def assignDuplicateValuesPass1 : List DupMember → TgdpStore →
    TgdpStore × List (DupMember × Int)
  | [], st => (st, [])
  | m :: rest, st =>
    let st1 := if storeGet st (memberKey m) = none
      then storeSet st (memberKey m) (-1) else st
    let r := assignDuplicateValuesPass1 rest st1
    (r.1, (m, (storeGet st1 (memberKey m)).getD (-1)) :: r.2)

/-- `all_duplicates.sort((a, b) => b._toggle - a._toggle)[0]`: the stable
descending sort's head is the first element attaining the maximal value. -/
def firstMax : List (DupMember × Int) → Option (DupMember × Int)
  | [] => none
  | x :: xs => some (xs.foldl (fun b y => if b.2 < y.2 then y else b) x)

/-- The `on_toggle_one_close_others` block: if every member is collapsed,
force the sort head open (`+1`); if more than one is open, collapse every
member other than the sort head. -/
def closeOthers (pairs : List (DupMember × Int)) (st : TgdpStore) : TgdpStore :=
  let st2 := if pairs.all (fun q => q.2 < 0) then
      match firstMax pairs with
      | some w => storeSet st (memberKey w.1) 1
      | none => st
    else st
  if 1 < (pairs.filter (fun q => 0 < q.2)).length then
    match firstMax pairs with
    | some w =>
      pairs.foldl (fun acc q => if q = w then acc else storeSet acc (memberKey q.1) (-1)) st2
    | none => st2
  else st2

/-- Processing of one ancestry duplicate group: `assignDuplicateValues`
followed by `handleToggleOff`, which deletes the children of every member
whose stored toggle is negative. -/
def processAncestryGroup (otco : Bool) (members : List DupMember) (st : TgdpStore) :
    TgdpStore × List (DupMember × Option (List String)) :=
  let pass1 := assignDuplicateValuesPass1 members st
  let st2 := if otco then closeOthers pass1.2 pass1.1 else pass1.1
  (st2, members.map (fun m =>
    (m, if (storeGet st2 (memberKey m)).getD (-1) < 0 then none else some m.children)))

/-- C2 counterexample: both members collapsed, stored values `-5` and `-1`. -/
def c2Members : List DupMember :=
  [{ personId := "X", parentKey := "A", children := ["c"] },
   { personId := "X", parentKey := "B", children := ["c"] }]

def c2Store : TgdpStore := [(("X", "A"), -5), (("X", "B"), -1)]

/-- C2, counterexample: with every member collapsed the code forces open the
member with the greatest (least negative) stored value — here the SECOND
member (value `-1`), not the first (value `-5`) — refuting the claim that
the first member is forced open. -/
theorem c2_counterexample :
    (processAncestryGroup true c2Members c2Store).2 =
      [({ personId := "X", parentKey := "A", children := ["c"] }, none),
       ({ personId := "X", parentKey := "B", children := ["c"] }, some ["c"])] := by
  decide

theorem storeGet_storeSet :
    ∀ (st : TgdpStore) (k : String × String) (v : Int) (k' : String × String),
      storeGet (storeSet st k v) k' = if k = k' then some v else storeGet st k' := by
  intro st
  induction st with
  | nil =>
    intro k v k'
    by_cases h : k = k'
    · simp [storeGet, storeSet, h]
    · rw [if_neg h]
      simp only [storeSet, storeGet]
      rw [if_neg h]
  | cons e rest ih =>
    intro k v k'
    by_cases he : e.1 = k
    · simp only [storeSet, if_pos he, storeGet]
      by_cases h : k = k'
      · rw [if_pos h, if_pos h]
      · rw [if_neg h, if_neg h, if_neg (fun hc => h (he.symm.trans hc))]
    · simp only [storeSet, if_neg he, storeGet]
      by_cases h : e.1 = k'
      · have hk : ¬ (k = k') := fun hc => he (hc ▸ h)
        rw [if_pos h, if_neg hk, if_pos h]
      · rw [if_neg h, ih, if_neg h]

/-- With pairwise distinct member keys, the defaulting pass reads each
member's value from the original store (defaulting to `-1`) and the final
store answers each key with its defaulted value. -/
theorem pass1_spec :
    ∀ (members : List DupMember) (st : TgdpStore), (members.map memberKey).Nodup →
      (assignDuplicateValuesPass1 members st).2 =
        members.map (fun m => (m, (storeGet st (memberKey m)).getD (-1))) ∧
      (∀ k, storeGet (assignDuplicateValuesPass1 members st).1 k =
        if k ∈ members.map memberKey ∧ storeGet st k = none
        then some (-1) else storeGet st k) := by
  intro members
  induction members with
  | nil =>
    intro st _
    refine ⟨rfl, ?_⟩
    intro k
    simp [assignDuplicateValuesPass1]
  | cons m rest ih =>
    intro st hnd
    rw [List.map_cons, List.nodup_cons] at hnd
    obtain ⟨hmk, hrestnd⟩ := hnd
    set st1 := if storeGet st (memberKey m) = none
      then storeSet st (memberKey m) (-1) else st with hst1def
    have hst1get : ∀ k', storeGet st1 k' =
        if memberKey m = k' ∧ storeGet st (memberKey m) = none
        then some (-1) else storeGet st k' := by
      intro k'
      rw [hst1def]
      by_cases h0 : storeGet st (memberKey m) = none
      · rw [if_pos h0, storeGet_storeSet]
        by_cases hk : memberKey m = k'
        · rw [if_pos hk, if_pos ⟨hk, h0⟩]
        · rw [if_neg hk, if_neg (fun hc => hk hc.1)]
      · rw [if_neg h0, if_neg (fun hc => h0 hc.2)]
    have hself : storeGet st1 (memberKey m) =
        if storeGet st (memberKey m) = none then some (-1)
        else storeGet st (memberKey m) := by
      rw [hst1get]
      by_cases h0 : storeGet st (memberKey m) = none
      · rw [if_pos ⟨rfl, h0⟩, if_pos h0]
      · rw [if_neg (fun hc => h0 hc.2), if_neg h0]
    have hselfD : (storeGet st1 (memberKey m)).getD (-1) =
        (storeGet st (memberKey m)).getD (-1) := by
      rw [hself]
      by_cases h0 : storeGet st (memberKey m) = none
      · rw [if_pos h0, h0]
        rfl
      · rw [if_neg h0]
    obtain ⟨ih2, ih1⟩ := ih st1 hrestnd
    have hstep : assignDuplicateValuesPass1 (m :: rest) st =
        ((assignDuplicateValuesPass1 rest st1).1,
          (m, (storeGet st1 (memberKey m)).getD (-1)) ::
            (assignDuplicateValuesPass1 rest st1).2) := by
      rw [assignDuplicateValuesPass1, hst1def]
    constructor
    · rw [hstep]
      dsimp only
      rw [hselfD, ih2, List.map_cons]
      congr 1
      apply List.map_congr_left
      intro a ha
      have hka : ¬ (memberKey m = memberKey a) := by
        intro hc
        exact hmk (hc ▸ List.mem_map_of_mem memberKey ha)
      rw [hst1get, if_neg (fun hc => hka hc.1)]
    · intro k
      rw [hstep]
      dsimp only
      rw [ih1 k, List.map_cons]
      by_cases hkm : memberKey m = k
      · subst hkm
        by_cases h0 : storeGet st (memberKey m) = none
        · have hg : storeGet st1 (memberKey m) = some (-1) := by rw [hself, if_pos h0]
          rw [hg, if_neg (fun hc => Option.noConfusion hc.2),
            if_pos ⟨List.mem_cons_self _ _, h0⟩]
        · have hg : storeGet st1 (memberKey m) = storeGet st (memberKey m) := by
            rw [hself, if_neg h0]
          rw [hg, if_neg (fun hc => h0 hc.2), if_neg (fun hc => h0 hc.2)]
      · have hg : storeGet st1 k = storeGet st k := by
          rw [hst1get, if_neg (fun hc => hkm hc.1)]
        rw [hg]
        by_cases hcond : k ∈ rest.map memberKey ∧ storeGet st k = none
        · rw [if_pos hcond, if_pos ⟨List.mem_cons_of_mem _ hcond.1, hcond.2⟩]
        · rw [if_neg hcond, if_neg ?_]
          intro hc
          rcases List.mem_cons.mp hc.1 with h | h
          · exact hkm h.symm
          · exact hcond ⟨h, hc.2⟩

theorem firstMax_fold_spec :
    ∀ (xs : List (DupMember × Int)) (b : DupMember × Int),
      (xs.foldl (fun b y => if b.2 < y.2 then y else b) b = b ∨
        xs.foldl (fun b y => if b.2 < y.2 then y else b) b ∈ xs) ∧
      b.2 ≤ (xs.foldl (fun b y => if b.2 < y.2 then y else b) b).2 ∧
      (∀ q ∈ xs, q.2 ≤ (xs.foldl (fun b y => if b.2 < y.2 then y else b) b).2) := by
  intro xs
  induction xs with
  | nil =>
    intro b
    exact ⟨Or.inl rfl, le_refl _, fun q hq => absurd hq (List.not_mem_nil q)⟩
  | cons y ys ih =>
    intro b
    rw [List.foldl_cons]
    obtain ⟨ihmem, ihge, ihall⟩ := ih (if b.2 < y.2 then y else b)
    refine ⟨?_, ?_, ?_⟩
    · rcases ihmem with h | h
      · rw [h]
        by_cases hb : b.2 < y.2
        · rw [if_pos hb]
          exact Or.inr (List.mem_cons_self _ _)
        · rw [if_neg hb]
          exact Or.inl rfl
      · exact Or.inr (List.mem_cons_of_mem _ h)
    · refine le_trans ?_ ihge
      by_cases hb : b.2 < y.2
      · rw [if_pos hb]
        exact le_of_lt hb
      · rw [if_neg hb]
    · intro q hq
      rcases List.mem_cons.mp hq with h | h
      · subst h
        refine le_trans ?_ ihge
        by_cases hb : b.2 < q.2
        · rw [if_pos hb]
        · rw [if_neg hb]
          omega
      · exact ihall q h

theorem firstMax_mem {pairs : List (DupMember × Int)} {w : DupMember × Int}
    (h : firstMax pairs = some w) : w ∈ pairs := by
  cases pairs with
  | nil => exact Option.noConfusion h
  | cons x xs =>
    rw [firstMax] at h
    obtain hw := Option.some.inj h
    rcases (firstMax_fold_spec xs x).1 with h1 | h1
    · rw [← hw, h1]
      exact List.mem_cons_self _ _
    · rw [← hw]
      exact List.mem_cons_of_mem _ h1

theorem firstMax_ge {pairs : List (DupMember × Int)} {w : DupMember × Int}
    (h : firstMax pairs = some w) : ∀ q ∈ pairs, q.2 ≤ w.2 := by
  cases pairs with
  | nil => intro q hq; exact absurd hq (List.not_mem_nil q)
  | cons x xs =>
    rw [firstMax] at h
    obtain hw := Option.some.inj h
    intro q hq
    rcases List.mem_cons.mp hq with h1 | h1
    · rw [← hw, h1]
      exact (firstMax_fold_spec xs x).2.1
    · rw [← hw]
      exact (firstMax_fold_spec xs x).2.2 q h1

/-- Effect of the collapse-the-rest fold on the store: any key targeted by a
non-winner member ends at `-1`, all other keys are untouched. -/
theorem closeFold_get (w : DupMember × Int) :
    ∀ (ps : List (DupMember × Int)) (st : TgdpStore) (k : String × String),
      storeGet (ps.foldl
          (fun acc q => if q = w then acc else storeSet acc (memberKey q.1) (-1)) st) k =
        if ps.any (fun q => !decide (q = w) && decide (memberKey q.1 = k))
        then some (-1) else storeGet st k := by
  intro ps
  induction ps with
  | nil =>
    intro st k
    simp
  | cons q qs ih =>
    intro st k
    rw [List.foldl_cons, List.any_cons]
    by_cases hqw : q = w
    · rw [if_pos hqw, ih]
      have hhead : (!decide (q = w) && decide (memberKey q.1 = k)) = false := by simp [hqw]
      rw [hhead, Bool.false_or]
    · rw [if_neg hqw, ih]
      by_cases hk : memberKey q.1 = k
      · have hhead : (!decide (q = w) && decide (memberKey q.1 = k)) = true := by
          simp [hqw, hk]
        rw [hhead, Bool.true_or]
        by_cases hrest : (qs.any fun q0 => !decide (q0 = w) && decide (memberKey q0.1 = k)) = true
        · rw [if_pos hrest]
          simp
        · rw [if_neg hrest, storeGet_storeSet, if_pos hk]
          simp
      · have hhead : (!decide (q = w) && decide (memberKey q.1 = k)) = false := by
          simp [hk]
        rw [hhead, Bool.false_or, storeGet_storeSet, if_neg hk]

theorem keptCount_cons_not_mem :
    ∀ (ms : List DupMember) (w : DupMember), w ∉ ms →
      ((ms.map (fun m => (m, if w = m then some m.children else none))).filter
        (fun q => q.2.isSome)).length = 0 := by
  intro ms
  induction ms with
  | nil => intro w _; rfl
  | cons m rest ih =>
    intro w hw
    rw [List.map_cons, List.filter_cons]
    have hne : ¬ (w = m) := fun hc => hw (hc ▸ List.mem_cons_self _ _)
    simp only [hne, if_false, Option.isSome_none, Bool.false_eq_true]
    exact ih w (fun hc => hw (List.mem_cons_of_mem _ hc))

theorem keptCount_one :
    ∀ (ms : List DupMember) (w : DupMember), ms.Nodup → w ∈ ms →
      ((ms.map (fun m => (m, if w = m then some m.children else none))).filter
        (fun q => q.2.isSome)).length = 1 := by
  intro ms
  induction ms with
  | nil => intro w _ hw; exact absurd hw (List.not_mem_nil w)
  | cons m rest ih =>
    intro w hnd hw
    obtain ⟨hm, hndrest⟩ := List.nodup_cons.mp hnd
    rw [List.map_cons, List.filter_cons]
    by_cases hwm : w = m
    · subst hwm
      simp only [if_pos rfl, Option.isSome_some, if_true]
      rw [List.length_cons, keptCount_cons_not_mem rest w hm]
    · simp only [hwm, if_false, Option.isSome_none, Bool.false_eq_true]
      exact ih w hndrest (List.mem_cons.mp hw |>.resolve_left hwm)

theorem two_mem_one_lt_length {α : Type} {l : List α} {a b : α}
    (ha : a ∈ l) (hb : b ∈ l) (hab : a ≠ b) : 1 < l.length := by
  cases l with
  | nil => exact absurd ha (List.not_mem_nil a)
  | cons x xs =>
    cases xs with
    | nil =>
      rw [List.mem_singleton] at ha hb
      exact absurd (ha.trans hb.symm) hab
    | cons y ys =>
      simp only [List.length_cons]
      omega

/-- Ancestry half of claim C2: for a duplicate group whose members have
pairwise distinct `(person, parent)` keys and whose stored toggle values are
nonzero, exactly one member keeps its children after processing — the
member picked by the stable descending sort's head, i.e. the first member
attaining the maximal stored value. -/
theorem c2_processAncestryGroup (members : List DupMember) (st : TgdpStore)
    (wpair : DupMember × Int)
    (hkeys : (members.map memberKey).Nodup)
    (hnz : ∀ m ∈ members, ∀ v, storeGet st (memberKey m) = some v → v ≠ 0)
    (hw : firstMax (assignDuplicateValuesPass1 members st).2 = some wpair) :
    (processAncestryGroup true members st).2 =
      members.map (fun m => (m, if wpair.1 = m then some m.children else none)) ∧
    ((processAncestryGroup true members st).2.filter (fun q => q.2.isSome)).length = 1 := by
  obtain ⟨hp2, hp1⟩ := pass1_spec members st hkeys
  have hmemnd : members.Nodup := List.Nodup.of_map memberKey hkeys
  have hinj := List.inj_on_of_nodup_map hkeys
  have hget1 : ∀ m ∈ members,
      storeGet (assignDuplicateValuesPass1 members st).1 (memberKey m) =
        some ((storeGet st (memberKey m)).getD (-1)) := by
    intro m hm
    rw [hp1]
    cases h0 : storeGet st (memberKey m) with
    | none => rw [if_pos ⟨List.mem_map_of_mem _ hm, rfl⟩]; rfl
    | some v =>
      rw [if_neg ?_]
      · rfl
      · intro hc
        exact Option.noConfusion hc.2
  have heff : ∀ m ∈ members, ((storeGet st (memberKey m)).getD (-1)) ≠ 0 := by
    intro m hm
    cases h0 : storeGet st (memberKey m) with
    | none => simp
    | some v => simpa using hnz m hm v h0
  have hwmemOrig := firstMax_mem hw
  have hwmem := hwmemOrig
  rw [hp2] at hwmem
  obtain ⟨w1, hw1mem, hw1eq⟩ := List.mem_map.mp hwmem
  have hwp1 : wpair.1 = w1 := by rw [← hw1eq]
  have hwp2 : wpair.2 = (storeGet st (memberKey w1)).getD (-1) := by rw [← hw1eq]
  have hge := firstMax_ge hw
  have hgeM : ∀ m ∈ members, (storeGet st (memberKey m)).getD (-1) ≤ wpair.2 := by
    intro m hm
    exact hge (m, (storeGet st (memberKey m)).getD (-1))
      (by rw [hp2]; exact List.mem_map_of_mem _ hm)
  have hpairw : ∀ m ∈ members,
      ((m, (storeGet st (memberKey m)).getD (-1)) = wpair ↔ m = wpair.1) := by
    intro m hm
    constructor
    · intro h
      rw [← h]
    · intro h
      have hmw1 : m = w1 := by rw [h, hwp1]
      rw [← hw1eq, hmw1]
  have hwnz : wpair.2 ≠ 0 := by
    rw [hwp2]
    exact heff w1 hw1mem
  -- the final toggle value of each member decides whether its children stay
  have hkeptiff : ∀ m ∈ members,
      ((storeGet (closeOthers (assignDuplicateValuesPass1 members st).2
          (assignDuplicateValuesPass1 members st).1) (memberKey m)).getD (-1) < 0) ↔
        ¬ (wpair.1 = m) := by
    intro m hm
    by_cases hneg : wpair.2 < 0
    · -- every member is collapsed: the sort head is forced open
      have hall : (assignDuplicateValuesPass1 members st).2.all (fun q => q.2 < 0) = true := by
        rw [hp2, List.all_eq_true]
        intro q hq
        obtain ⟨a, ha, haeq⟩ := List.mem_map.mp hq
        rw [← haeq]
        exact decide_eq_true (lt_of_le_of_lt (hgeM a ha) hneg)
      have hfilnil : (assignDuplicateValuesPass1 members st).2.filter
          (fun q => 0 < q.2) = [] := by
        rw [List.filter_eq_nil_iff]
        intro q hq
        obtain ⟨a, ha, haeq⟩ := List.mem_map.mp (hp2 ▸ hq)
        rw [← haeq]
        simp only [decide_eq_true_eq, not_lt]
        exact le_of_lt (lt_of_le_of_lt (hgeM a ha) hneg)
      have hcnt : ¬ (1 < ((assignDuplicateValuesPass1 members st).2.filter
          (fun q => 0 < q.2)).length) := by
        rw [hfilnil]
        simp
      have hst3 : closeOthers (assignDuplicateValuesPass1 members st).2
          (assignDuplicateValuesPass1 members st).1 =
          storeSet (assignDuplicateValuesPass1 members st).1 (memberKey wpair.1) 1 := by
        unfold closeOthers
        simp only [hw]
        rw [if_pos hall, if_neg hcnt]
      rw [hst3, storeGet_storeSet]
      by_cases hmw : wpair.1 = m
      · rw [if_pos (by rw [hmw]), Option.getD_some]
        constructor
        · intro hcon
          omega
        · intro hcon
          exact absurd hmw hcon
      · rw [if_neg (fun hc => hmw (hinj (hwp1 ▸ hw1mem) hm hc))]
        rw [hget1 m hm, Option.getD_some]
        constructor
        · intro _
          exact hmw
        · intro _
          have h1 := hgeM m hm
          have h2 := heff m hm
          omega
    · -- the sort head is open
      have hpos : 0 < wpair.2 := by omega
      have hallneg : ¬ ((assignDuplicateValuesPass1 members st).2.all
          (fun q => q.2 < 0) = true) := by
        rw [List.all_eq_true]
        intro hcon
        have := hcon wpair hwmemOrig
        simp only [decide_eq_true_eq] at this
        omega
      by_cases hcnt : 1 < ((assignDuplicateValuesPass1 members st).2.filter
          (fun q => 0 < q.2)).length
      · -- more than one open: collapse all but the sort head
        have hst3 : closeOthers (assignDuplicateValuesPass1 members st).2
            (assignDuplicateValuesPass1 members st).1 =
            (assignDuplicateValuesPass1 members st).2.foldl
              (fun acc q => if q = wpair then acc
                else storeSet acc (memberKey q.1) (-1))
              (assignDuplicateValuesPass1 members st).1 := by
          unfold closeOthers
          simp only [hw]
          rw [if_neg hallneg, if_pos hcnt]
        rw [hst3, closeFold_get]
        by_cases hmw : wpair.1 = m
        · rw [if_neg ?hany, hget1 m hm, Option.getD_some]
          case hany =>
            intro hany
            rw [List.any_eq_true] at hany
            obtain ⟨q, hq, hqprop⟩ := hany
            obtain ⟨a, ha, haeq⟩ := List.mem_map.mp (hp2 ▸ hq)
            simp only [Bool.and_eq_true, Bool.not_eq_true', decide_eq_false_iff_not,
              decide_eq_true_eq] at hqprop
            have haw : a = wpair.1 := hinj ha (hwp1 ▸ hw1mem) (by
              rw [hmw]
              have hqa : q.1 = a := by rw [← haeq]
              rw [← hqa]
              exact hqprop.2)
            exact hqprop.1 (by rw [← haeq, (hpairw a ha).mpr haw])
          constructor
          · intro hcon
            have : (storeGet st (memberKey m)).getD (-1) = wpair.2 := by
              rw [hwp2]
              congr 1
              rw [← hmw, hwp1]
            omega
          · intro hcon
            exact absurd hmw hcon
        · rw [if_pos ?hany, Option.getD_some]
          case hany =>
            rw [List.any_eq_true]
            refine ⟨(m, (storeGet st (memberKey m)).getD (-1)), ?_, ?_⟩
            · rw [hp2]
              exact List.mem_map_of_mem _ hm
            · simp only [Bool.and_eq_true, Bool.not_eq_true', decide_eq_false_iff_not,
                decide_eq_true_eq]
              exact ⟨fun hc => hmw ((hpairw m hm).mp hc).symm, trivial⟩
          constructor
          · intro _
            exact hmw
          · intro _
            omega
      · -- exactly one open: nothing changes, only that one stays
        have hst3 : closeOthers (assignDuplicateValuesPass1 members st).2
            (assignDuplicateValuesPass1 members st).1 =
            (assignDuplicateValuesPass1 members st).1 := by
          unfold closeOthers
          simp only [hw]
          rw [if_neg hallneg, if_neg hcnt]
        rw [hst3, hget1 m hm, Option.getD_some]
        constructor
        · intro hlt
          intro hmw
          have : (storeGet st (memberKey m)).getD (-1) = wpair.2 := by
            rw [hwp2]
            congr 1
            rw [← hmw, hwp1]
          omega
        · intro hmw
          by_contra hnlt
          have hmpos : 0 < (storeGet st (memberKey m)).getD (-1) := by
            have := heff m hm
            omega
          have hmfil : (m, (storeGet st (memberKey m)).getD (-1)) ∈
              (assignDuplicateValuesPass1 members st).2.filter (fun q => 0 < q.2) := by
            rw [List.mem_filter]
            exact ⟨by rw [hp2]; exact List.mem_map_of_mem _ hm, decide_eq_true hmpos⟩
          have hwfil : wpair ∈
              (assignDuplicateValuesPass1 members st).2.filter (fun q => 0 < q.2) := by
            rw [List.mem_filter]
            exact ⟨hwmemOrig, decide_eq_true hpos⟩
          have hnepair : (m, (storeGet st (memberKey m)).getD (-1)) ≠ wpair :=
            fun hc => hmw (((hpairw m hm).mp hc).symm ▸ rfl)
          exact hcnt (two_mem_one_lt_length hmfil hwfil hnepair)
  -- assemble the two conclusions
  have houtput : (processAncestryGroup true members st).2 =
      members.map (fun m => (m, if wpair.1 = m then some m.children else none)) := by
    unfold processAncestryGroup
    dsimp only
    rw [if_pos rfl]
    apply List.map_congr_left
    intro m hm
    by_cases hmw : wpair.1 = m
    · rw [if_pos hmw, if_neg (fun hlt => ((hkeptiff m hm).mp hlt) hmw)]
    · rw [if_neg hmw, if_pos ((hkeptiff m hm).mpr hmw)]
  exact ⟨houtput, by
    rw [houtput]
    exact keptCount_one members wpair.1 hmemnd (hwp1 ▸ hw1mem)⟩

/-! #### The progeny half of claim C2: `handleDuplicateHierarchyProgeny` -/

/-- One member of a progeny duplicate group: the wrapped person's id, the
`_tgdp_sp` parent key of this appearance (`'main'` or the parent person's
id), the partner (`p2`) id the slot is keyed by, and that partner's
children in the hierarchy. -/
structure DupMemberP where
  personId : String
  parentKey : String
  spouseId : String
  children : List String
deriving Repr, DecidableEq

/-- The persistent `_tgdp_sp` maps of all persons, flattened to entries keyed
by `(person id, parent key, partner id)`. -/
abbrev TgdpSpStore := List ((String × String × String) × Int)

/-- Reading `d.data._tgdp_sp[parent_id][p2.id]` (JS object lookup). -/
def storeGetP : TgdpSpStore → (String × String × String) → Option Int
  | [], _ => none
  | e :: rest, k => if e.1 = k then some e.2 else storeGetP rest k

/-- Writing `d.data._tgdp_sp[parent_id][p2.id] = v` (JS object assignment). -/
def storeSetP : TgdpSpStore → (String × String × String) → Int → TgdpSpStore
  | [], k, v => [(k, v)]
  | e :: rest, k, v => if e.1 = k then (k, v) :: rest else e :: storeSetP rest k v

def memberKeyP (m : DupMemberP) : String × String × String :=
  (m.personId, m.parentKey, m.spouseId)

/-- The first `all_duplicates.forEach` of the progeny `assignDuplicateValues`:
`let val = 1; if (!hasOwnProperty) slot = val; else val = slot` — default
each member's slot to `+1` when absent, then read `val` from the slot. -/
def assignDuplicateValuesPass1P : List DupMemberP → TgdpSpStore →
    TgdpSpStore × List (DupMemberP × Int)
  | [], st => (st, [])
  | m :: rest, st =>
    let st1 := if storeGetP st (memberKeyP m) = none
      then storeSetP st (memberKeyP m) 1 else st
    let r := assignDuplicateValuesPass1P rest st1
    (r.1, (m, (storeGetP st1 (memberKeyP m)).getD 1) :: r.2)

/-- `all_duplicates.sort((a, b) => b.val - a.val)[0]`: the stable descending
sort's head is the first element attaining the maximal value. -/
def firstMaxP : List (DupMemberP × Int) → Option (DupMemberP × Int)
  | [] => none
  | x :: xs => some (xs.foldl (fun b y => if b.2 < y.2 then y else b) x)

/-- The progeny `on_toggle_one_close_others` block: if every member is
collapsed, force the sort head open (`+1`); if more than one is open,
collapse every member other than the sort head. -/
def closeOthersP (pairs : List (DupMemberP × Int)) (st : TgdpSpStore) : TgdpSpStore :=
  let st2 := if pairs.all (fun q => q.2 < 0) then
      match firstMaxP pairs with
      | some w => storeSetP st (memberKeyP w.1) 1
      | none => st
    else st
  if 1 < (pairs.filter (fun q => 0 < q.2)).length then
    match firstMaxP pairs with
    | some w =>
      pairs.foldl (fun acc q => if q = w then acc else storeSetP acc (memberKeyP q.1) (-1)) st2
    | none => st2
  else st2

/-- Processing of one progeny duplicate group: the progeny
`assignDuplicateValues` followed by `handleToggleOff`, which removes the
partner's children from every member whose stored toggle is negative. -/
def processProgenyGroup (otco : Bool) (members : List DupMemberP) (st : TgdpSpStore) :
    TgdpSpStore × List (DupMemberP × Option (List String)) :=
  let pass1 := assignDuplicateValuesPass1P members st
  let st2 := if otco then closeOthersP pass1.2 pass1.1 else pass1.1
  (st2, members.map (fun m =>
    (m, if (storeGetP st2 (memberKeyP m)).getD 1 < 0 then none else some m.children)))

theorem storeGetP_storeSetP :
    ∀ (st : TgdpSpStore) (k : String × String × String) (v : Int)
      (k' : String × String × String),
      storeGetP (storeSetP st k v) k' = if k = k' then some v else storeGetP st k' := by
  intro st
  induction st with
  | nil =>
    intro k v k'
    by_cases h : k = k'
    · simp [storeGetP, storeSetP, h]
    · rw [if_neg h]
      simp only [storeSetP, storeGetP]
      rw [if_neg h]
  | cons e rest ih =>
    intro k v k'
    by_cases he : e.1 = k
    · simp only [storeSetP, if_pos he, storeGetP]
      by_cases h : k = k'
      · rw [if_pos h, if_pos h]
      · rw [if_neg h, if_neg h, if_neg (fun hc => h (he.symm.trans hc))]
    · simp only [storeSetP, if_neg he, storeGetP]
      by_cases h : e.1 = k'
      · have hk : ¬ (k = k') := fun hc => he (hc ▸ h)
        rw [if_pos h, if_neg hk, if_pos h]
      · rw [if_neg h, ih, if_neg h]

/-- With pairwise distinct member keys, the progeny defaulting pass reads
each member's value from the original store (defaulting to `+1`) and the
final store answers each key with its defaulted value. -/
theorem pass1P_spec :
    ∀ (members : List DupMemberP) (st : TgdpSpStore), (members.map memberKeyP).Nodup →
      (assignDuplicateValuesPass1P members st).2 =
        members.map (fun m => (m, (storeGetP st (memberKeyP m)).getD 1)) ∧
      (∀ k, storeGetP (assignDuplicateValuesPass1P members st).1 k =
        if k ∈ members.map memberKeyP ∧ storeGetP st k = none
        then some 1 else storeGetP st k) := by
  intro members
  induction members with
  | nil =>
    intro st _
    refine ⟨rfl, ?_⟩
    intro k
    simp [assignDuplicateValuesPass1P]
  | cons m rest ih =>
    intro st hnd
    rw [List.map_cons, List.nodup_cons] at hnd
    obtain ⟨hmk, hrestnd⟩ := hnd
    set st1 := if storeGetP st (memberKeyP m) = none
      then storeSetP st (memberKeyP m) 1 else st with hst1def
    have hst1get : ∀ k', storeGetP st1 k' =
        if memberKeyP m = k' ∧ storeGetP st (memberKeyP m) = none
        then some 1 else storeGetP st k' := by
      intro k'
      rw [hst1def]
      by_cases h0 : storeGetP st (memberKeyP m) = none
      · rw [if_pos h0, storeGetP_storeSetP]
        by_cases hk : memberKeyP m = k'
        · rw [if_pos hk, if_pos ⟨hk, h0⟩]
        · rw [if_neg hk, if_neg (fun hc => hk hc.1)]
      · rw [if_neg h0, if_neg (fun hc => h0 hc.2)]
    have hself : storeGetP st1 (memberKeyP m) =
        if storeGetP st (memberKeyP m) = none then some 1
        else storeGetP st (memberKeyP m) := by
      rw [hst1get]
      by_cases h0 : storeGetP st (memberKeyP m) = none
      · rw [if_pos ⟨rfl, h0⟩, if_pos h0]
      · rw [if_neg (fun hc => h0 hc.2), if_neg h0]
    have hselfD : (storeGetP st1 (memberKeyP m)).getD 1 =
        (storeGetP st (memberKeyP m)).getD 1 := by
      rw [hself]
      by_cases h0 : storeGetP st (memberKeyP m) = none
      · rw [if_pos h0, h0]
        rfl
      · rw [if_neg h0]
    obtain ⟨ih2, ih1⟩ := ih st1 hrestnd
    have hstep : assignDuplicateValuesPass1P (m :: rest) st =
        ((assignDuplicateValuesPass1P rest st1).1,
          (m, (storeGetP st1 (memberKeyP m)).getD 1) ::
            (assignDuplicateValuesPass1P rest st1).2) := by
      rw [assignDuplicateValuesPass1P, hst1def]
    constructor
    · rw [hstep]
      dsimp only
      rw [hselfD, ih2, List.map_cons]
      congr 1
      apply List.map_congr_left
      intro a ha
      have hka : ¬ (memberKeyP m = memberKeyP a) := by
        intro hc
        exact hmk (hc ▸ List.mem_map_of_mem memberKeyP ha)
      rw [hst1get, if_neg (fun hc => hka hc.1)]
    · intro k
      rw [hstep]
      dsimp only
      rw [ih1 k, List.map_cons]
      by_cases hkm : memberKeyP m = k
      · subst hkm
        by_cases h0 : storeGetP st (memberKeyP m) = none
        · have hg : storeGetP st1 (memberKeyP m) = some 1 := by rw [hself, if_pos h0]
          rw [hg, if_neg (fun hc => Option.noConfusion hc.2),
            if_pos ⟨List.mem_cons_self _ _, h0⟩]
        · have hg : storeGetP st1 (memberKeyP m) = storeGetP st (memberKeyP m) := by
            rw [hself, if_neg h0]
          rw [hg, if_neg (fun hc => h0 hc.2), if_neg (fun hc => h0 hc.2)]
      · have hg : storeGetP st1 k = storeGetP st k := by
          rw [hst1get, if_neg (fun hc => hkm hc.1)]
        rw [hg]
        by_cases hcond : k ∈ rest.map memberKeyP ∧ storeGetP st k = none
        · rw [if_pos hcond, if_pos ⟨List.mem_cons_of_mem _ hcond.1, hcond.2⟩]
        · rw [if_neg hcond, if_neg ?_]
          intro hc
          rcases List.mem_cons.mp hc.1 with h | h
          · exact hkm h.symm
          · exact hcond ⟨h, hc.2⟩

theorem firstMaxP_fold_spec :
    ∀ (xs : List (DupMemberP × Int)) (b : DupMemberP × Int),
      (xs.foldl (fun b y => if b.2 < y.2 then y else b) b = b ∨
        xs.foldl (fun b y => if b.2 < y.2 then y else b) b ∈ xs) ∧
      b.2 ≤ (xs.foldl (fun b y => if b.2 < y.2 then y else b) b).2 ∧
      (∀ q ∈ xs, q.2 ≤ (xs.foldl (fun b y => if b.2 < y.2 then y else b) b).2) := by
  intro xs
  induction xs with
  | nil =>
    intro b
    exact ⟨Or.inl rfl, le_refl _, fun q hq => absurd hq (List.not_mem_nil q)⟩
  | cons y ys ih =>
    intro b
    rw [List.foldl_cons]
    obtain ⟨ihmem, ihge, ihall⟩ := ih (if b.2 < y.2 then y else b)
    refine ⟨?_, ?_, ?_⟩
    · rcases ihmem with h | h
      · rw [h]
        by_cases hb : b.2 < y.2
        · rw [if_pos hb]
          exact Or.inr (List.mem_cons_self _ _)
        · rw [if_neg hb]
          exact Or.inl rfl
      · exact Or.inr (List.mem_cons_of_mem _ h)
    · refine le_trans ?_ ihge
      by_cases hb : b.2 < y.2
      · rw [if_pos hb]
        exact le_of_lt hb
      · rw [if_neg hb]
    · intro q hq
      rcases List.mem_cons.mp hq with h | h
      · subst h
        refine le_trans ?_ ihge
        by_cases hb : b.2 < q.2
        · rw [if_pos hb]
        · rw [if_neg hb]
          omega
      · exact ihall q h

theorem firstMaxP_mem {pairs : List (DupMemberP × Int)} {w : DupMemberP × Int}
    (h : firstMaxP pairs = some w) : w ∈ pairs := by
  cases pairs with
  | nil => exact Option.noConfusion h
  | cons x xs =>
    rw [firstMaxP] at h
    obtain hw := Option.some.inj h
    rcases (firstMaxP_fold_spec xs x).1 with h1 | h1
    · rw [← hw, h1]
      exact List.mem_cons_self _ _
    · rw [← hw]
      exact List.mem_cons_of_mem _ h1

theorem firstMaxP_ge {pairs : List (DupMemberP × Int)} {w : DupMemberP × Int}
    (h : firstMaxP pairs = some w) : ∀ q ∈ pairs, q.2 ≤ w.2 := by
  cases pairs with
  | nil => intro q hq; exact absurd hq (List.not_mem_nil q)
  | cons x xs =>
    rw [firstMaxP] at h
    obtain hw := Option.some.inj h
    intro q hq
    rcases List.mem_cons.mp hq with h1 | h1
    · rw [← hw, h1]
      exact (firstMaxP_fold_spec xs x).2.1
    · rw [← hw]
      exact (firstMaxP_fold_spec xs x).2.2 q h1

/-- Effect of the progeny collapse-the-rest fold on the store: any key
targeted by a non-winner member ends at `-1`, all other keys untouched. -/
theorem closeFoldP_get (w : DupMemberP × Int) :
    ∀ (ps : List (DupMemberP × Int)) (st : TgdpSpStore) (k : String × String × String),
      storeGetP (ps.foldl
          (fun acc q => if q = w then acc else storeSetP acc (memberKeyP q.1) (-1)) st) k =
        if ps.any (fun q => !decide (q = w) && decide (memberKeyP q.1 = k))
        then some (-1) else storeGetP st k := by
  intro ps
  induction ps with
  | nil =>
    intro st k
    simp
  | cons q qs ih =>
    intro st k
    rw [List.foldl_cons, List.any_cons]
    by_cases hqw : q = w
    · rw [if_pos hqw, ih]
      have hhead : (!decide (q = w) && decide (memberKeyP q.1 = k)) = false := by simp [hqw]
      rw [hhead, Bool.false_or]
    · rw [if_neg hqw, ih]
      by_cases hk : memberKeyP q.1 = k
      · have hhead : (!decide (q = w) && decide (memberKeyP q.1 = k)) = true := by
          simp [hqw, hk]
        rw [hhead, Bool.true_or]
        by_cases hrest : (qs.any fun q0 => !decide (q0 = w) && decide (memberKeyP q0.1 = k)) = true
        · rw [if_pos hrest]
          simp
        · rw [if_neg hrest, storeGetP_storeSetP, if_pos hk]
          simp
      · have hhead : (!decide (q = w) && decide (memberKeyP q.1 = k)) = false := by
          simp [hk]
        rw [hhead, Bool.false_or, storeGetP_storeSetP, if_neg hk]

theorem keptCountP_cons_not_mem :
    ∀ (ms : List DupMemberP) (w : DupMemberP), w ∉ ms →
      ((ms.map (fun m => (m, if w = m then some m.children else none))).filter
        (fun q => q.2.isSome)).length = 0 := by
  intro ms
  induction ms with
  | nil => intro w _; rfl
  | cons m rest ih =>
    intro w hw
    rw [List.map_cons, List.filter_cons]
    have hne : ¬ (w = m) := fun hc => hw (hc ▸ List.mem_cons_self _ _)
    simp only [hne, if_false, Option.isSome_none, Bool.false_eq_true]
    exact ih w (fun hc => hw (List.mem_cons_of_mem _ hc))

theorem keptCountP_one :
    ∀ (ms : List DupMemberP) (w : DupMemberP), ms.Nodup → w ∈ ms →
      ((ms.map (fun m => (m, if w = m then some m.children else none))).filter
        (fun q => q.2.isSome)).length = 1 := by
  intro ms
  induction ms with
  | nil => intro w _ hw; exact absurd hw (List.not_mem_nil w)
  | cons m rest ih =>
    intro w hnd hw
    obtain ⟨hm, hndrest⟩ := List.nodup_cons.mp hnd
    rw [List.map_cons, List.filter_cons]
    by_cases hwm : w = m
    · subst hwm
      simp only [if_pos rfl, Option.isSome_some, if_true]
      rw [List.length_cons, keptCountP_cons_not_mem rest w hm]
    · simp only [hwm, if_false, Option.isSome_none, Bool.false_eq_true]
      exact ih w hndrest (List.mem_cons.mp hw |>.resolve_left hwm)

/-- Progeny half of claim C2: for a duplicate group whose members have
pairwise distinct `(person, parent, partner)` keys and whose stored toggle
values are nonzero, exactly one member keeps the partner's children after
processing — the member picked by the stable descending sort's head, i.e.
the first member attaining the maximal stored value. -/
theorem processProgenyGroup_spec (members : List DupMemberP) (st : TgdpSpStore)
    (wpair : DupMemberP × Int)
    (hkeys : (members.map memberKeyP).Nodup)
    (hnz : ∀ m ∈ members, ∀ v, storeGetP st (memberKeyP m) = some v → v ≠ 0)
    (hw : firstMaxP (assignDuplicateValuesPass1P members st).2 = some wpair) :
    (processProgenyGroup true members st).2 =
      members.map (fun m => (m, if wpair.1 = m then some m.children else none)) ∧
    ((processProgenyGroup true members st).2.filter (fun q => q.2.isSome)).length = 1 := by
  obtain ⟨hp2, hp1⟩ := pass1P_spec members st hkeys
  have hmemnd : members.Nodup := List.Nodup.of_map memberKeyP hkeys
  have hinj := List.inj_on_of_nodup_map hkeys
  have hget1 : ∀ m ∈ members,
      storeGetP (assignDuplicateValuesPass1P members st).1 (memberKeyP m) =
        some ((storeGetP st (memberKeyP m)).getD 1) := by
    intro m hm
    rw [hp1]
    cases h0 : storeGetP st (memberKeyP m) with
    | none => rw [if_pos ⟨List.mem_map_of_mem _ hm, rfl⟩]; rfl
    | some v =>
      rw [if_neg ?_]
      · rfl
      · intro hc
        exact Option.noConfusion hc.2
  have heff : ∀ m ∈ members, ((storeGetP st (memberKeyP m)).getD 1) ≠ 0 := by
    intro m hm
    cases h0 : storeGetP st (memberKeyP m) with
    | none => simp
    | some v => simpa using hnz m hm v h0
  have hwmemOrig := firstMaxP_mem hw
  have hwmem := hwmemOrig
  rw [hp2] at hwmem
  obtain ⟨w1, hw1mem, hw1eq⟩ := List.mem_map.mp hwmem
  have hwp1 : wpair.1 = w1 := by rw [← hw1eq]
  have hwp2 : wpair.2 = (storeGetP st (memberKeyP w1)).getD 1 := by rw [← hw1eq]
  have hge := firstMaxP_ge hw
  have hgeM : ∀ m ∈ members, (storeGetP st (memberKeyP m)).getD 1 ≤ wpair.2 := by
    intro m hm
    exact hge (m, (storeGetP st (memberKeyP m)).getD 1)
      (by rw [hp2]; exact List.mem_map_of_mem _ hm)
  have hpairw : ∀ m ∈ members,
      ((m, (storeGetP st (memberKeyP m)).getD 1) = wpair ↔ m = wpair.1) := by
    intro m hm
    constructor
    · intro h
      rw [← h]
    · intro h
      have hmw1 : m = w1 := by rw [h, hwp1]
      rw [← hw1eq, hmw1]
  have hwnz : wpair.2 ≠ 0 := by
    rw [hwp2]
    exact heff w1 hw1mem
  -- the final toggle value of each member decides whether its children stay
  have hkeptiff : ∀ m ∈ members,
      ((storeGetP (closeOthersP (assignDuplicateValuesPass1P members st).2
          (assignDuplicateValuesPass1P members st).1) (memberKeyP m)).getD 1 < 0) ↔
        ¬ (wpair.1 = m) := by
    intro m hm
    by_cases hneg : wpair.2 < 0
    · -- every member is collapsed: the sort head is forced open
      have hall : (assignDuplicateValuesPass1P members st).2.all (fun q => q.2 < 0) = true := by
        rw [hp2, List.all_eq_true]
        intro q hq
        obtain ⟨a, ha, haeq⟩ := List.mem_map.mp hq
        rw [← haeq]
        exact decide_eq_true (lt_of_le_of_lt (hgeM a ha) hneg)
      have hfilnil : (assignDuplicateValuesPass1P members st).2.filter
          (fun q => 0 < q.2) = [] := by
        rw [List.filter_eq_nil_iff]
        intro q hq
        obtain ⟨a, ha, haeq⟩ := List.mem_map.mp (hp2 ▸ hq)
        rw [← haeq]
        simp only [decide_eq_true_eq, not_lt]
        exact le_of_lt (lt_of_le_of_lt (hgeM a ha) hneg)
      have hcnt : ¬ (1 < ((assignDuplicateValuesPass1P members st).2.filter
          (fun q => 0 < q.2)).length) := by
        rw [hfilnil]
        simp
      have hst3 : closeOthersP (assignDuplicateValuesPass1P members st).2
          (assignDuplicateValuesPass1P members st).1 =
          storeSetP (assignDuplicateValuesPass1P members st).1 (memberKeyP wpair.1) 1 := by
        unfold closeOthersP
        simp only [hw]
        rw [if_pos hall, if_neg hcnt]
      rw [hst3, storeGetP_storeSetP]
      by_cases hmw : wpair.1 = m
      · rw [if_pos (by rw [hmw]), Option.getD_some]
        constructor
        · intro hcon
          omega
        · intro hcon
          exact absurd hmw hcon
      · rw [if_neg (fun hc => hmw (hinj (hwp1 ▸ hw1mem) hm hc))]
        rw [hget1 m hm, Option.getD_some]
        constructor
        · intro _
          exact hmw
        · intro _
          have h1 := hgeM m hm
          have h2 := heff m hm
          omega
    · -- the sort head is open
      have hpos : 0 < wpair.2 := by omega
      have hallneg : ¬ ((assignDuplicateValuesPass1P members st).2.all
          (fun q => q.2 < 0) = true) := by
        rw [List.all_eq_true]
        intro hcon
        have := hcon wpair hwmemOrig
        simp only [decide_eq_true_eq] at this
        omega
      by_cases hcnt : 1 < ((assignDuplicateValuesPass1P members st).2.filter
          (fun q => 0 < q.2)).length
      · -- more than one open: collapse all but the sort head
        have hst3 : closeOthersP (assignDuplicateValuesPass1P members st).2
            (assignDuplicateValuesPass1P members st).1 =
            (assignDuplicateValuesPass1P members st).2.foldl
              (fun acc q => if q = wpair then acc
                else storeSetP acc (memberKeyP q.1) (-1))
              (assignDuplicateValuesPass1P members st).1 := by
          unfold closeOthersP
          simp only [hw]
          rw [if_neg hallneg, if_pos hcnt]
        rw [hst3, closeFoldP_get]
        by_cases hmw : wpair.1 = m
        · rw [if_neg ?hany, hget1 m hm, Option.getD_some]
          case hany =>
            intro hany
            rw [List.any_eq_true] at hany
            obtain ⟨q, hq, hqprop⟩ := hany
            obtain ⟨a, ha, haeq⟩ := List.mem_map.mp (hp2 ▸ hq)
            simp only [Bool.and_eq_true, Bool.not_eq_true', decide_eq_false_iff_not,
              decide_eq_true_eq] at hqprop
            have haw : a = wpair.1 := hinj ha (hwp1 ▸ hw1mem) (by
              rw [hmw]
              have hqa : q.1 = a := by rw [← haeq]
              rw [← hqa]
              exact hqprop.2)
            exact hqprop.1 (by rw [← haeq, (hpairw a ha).mpr haw])
          constructor
          · intro hcon
            have : (storeGetP st (memberKeyP m)).getD 1 = wpair.2 := by
              rw [hwp2]
              congr 1
              rw [← hmw, hwp1]
            omega
          · intro hcon
            exact absurd hmw hcon
        · rw [if_pos ?hany, Option.getD_some]
          case hany =>
            rw [List.any_eq_true]
            refine ⟨(m, (storeGetP st (memberKeyP m)).getD 1), ?_, ?_⟩
            · rw [hp2]
              exact List.mem_map_of_mem _ hm
            · simp only [Bool.and_eq_true, Bool.not_eq_true', decide_eq_false_iff_not,
                decide_eq_true_eq]
              exact ⟨fun hc => hmw ((hpairw m hm).mp hc).symm, trivial⟩
          constructor
          · intro _
            exact hmw
          · intro _
            omega
      · -- exactly one open: nothing changes, only that one stays
        have hst3 : closeOthersP (assignDuplicateValuesPass1P members st).2
            (assignDuplicateValuesPass1P members st).1 =
            (assignDuplicateValuesPass1P members st).1 := by
          unfold closeOthersP
          simp only [hw]
          rw [if_neg hallneg, if_neg hcnt]
        rw [hst3, hget1 m hm, Option.getD_some]
        constructor
        · intro hlt
          intro hmw
          have : (storeGetP st (memberKeyP m)).getD 1 = wpair.2 := by
            rw [hwp2]
            congr 1
            rw [← hmw, hwp1]
          omega
        · intro hmw
          by_contra hnlt
          have hmpos : 0 < (storeGetP st (memberKeyP m)).getD 1 := by
            have := heff m hm
            omega
          have hmfil : (m, (storeGetP st (memberKeyP m)).getD 1) ∈
              (assignDuplicateValuesPass1P members st).2.filter (fun q => 0 < q.2) := by
            rw [List.mem_filter]
            exact ⟨by rw [hp2]; exact List.mem_map_of_mem _ hm, decide_eq_true hmpos⟩
          have hwfil : wpair ∈
              (assignDuplicateValuesPass1P members st).2.filter (fun q => 0 < q.2) := by
            rw [List.mem_filter]
            exact ⟨hwmemOrig, decide_eq_true hpos⟩
          have hnepair : (m, (storeGetP st (memberKeyP m)).getD 1) ≠ wpair :=
            fun hc => hmw (((hpairw m hm).mp hc).symm ▸ rfl)
          exact hcnt (two_mem_one_lt_length hmfil hwfil hnepair)
  -- assemble the two conclusions
  have houtput : (processProgenyGroup true members st).2 =
      members.map (fun m => (m, if wpair.1 = m then some m.children else none)) := by
    unfold processProgenyGroup
    dsimp only
    rw [if_pos rfl]
    apply List.map_congr_left
    intro m hm
    by_cases hmw : wpair.1 = m
    · rw [if_pos hmw, if_neg (fun hlt => ((hkeptiff m hm).mp hlt) hmw)]
    · rw [if_neg hmw, if_pos ((hkeptiff m hm).mpr hmw)]
  exact ⟨houtput, by
    rw [houtput]
    exact keptCountP_one members wpair.1 hmemnd (hwp1 ▸ hw1mem)⟩

/-- C2, amended: for every duplicate group keyed by (person, parent-context)
— ancestry groups keyed by `(person, parent)` and progeny groups keyed by
`(person, parent, partner)` — whose members have pairwise distinct store
keys and nonzero stored toggle values, exactly one member of the group keeps
its children after processing: the member picked by the stable descending
sort's head, i.e. the first member attaining the maximal stored value (so
when every member is collapsed the forced-open member is the one with the
greatest, least negative, value — the first member only on ties — and when
several are open the most recently opened one stays). -/
theorem c2_duplicateGroups
    (membersA : List DupMember) (stA : TgdpStore) (wA : DupMember × Int)
    (membersP : List DupMemberP) (stP : TgdpSpStore) (wP : DupMemberP × Int)
    (hkA : (membersA.map memberKey).Nodup)
    (hnzA : ∀ m ∈ membersA, ∀ v, storeGet stA (memberKey m) = some v → v ≠ 0)
    (hwA : firstMax (assignDuplicateValuesPass1 membersA stA).2 = some wA)
    (hkP : (membersP.map memberKeyP).Nodup)
    (hnzP : ∀ m ∈ membersP, ∀ v, storeGetP stP (memberKeyP m) = some v → v ≠ 0)
    (hwP : firstMaxP (assignDuplicateValuesPass1P membersP stP).2 = some wP) :
    ((processAncestryGroup true membersA stA).2 =
        membersA.map (fun m => (m, if wA.1 = m then some m.children else none)) ∧
      ((processAncestryGroup true membersA stA).2.filter (fun q => q.2.isSome)).length = 1) ∧
    ((processProgenyGroup true membersP stP).2 =
        membersP.map (fun m => (m, if wP.1 = m then some m.children else none)) ∧
      ((processProgenyGroup true membersP stP).2.filter (fun q => q.2.isSome)).length = 1) :=
  ⟨c2_processAncestryGroup membersA stA wA hkA hnzA hwA,
   processProgenyGroup_spec membersP stP wP hkP hnzP hwP⟩

/-- A concrete progeny group for the witness: two appearances of person `X`,
under parents `A` and `B` with partners `S1` and `S2`, both collapsed. -/
def c2MembersP : List DupMemberP :=
  [{ personId := "X", parentKey := "A", spouseId := "S1", children := ["c"] },
   { personId := "X", parentKey := "B", spouseId := "S2", children := ["c"] }]

def c2StoreP : TgdpSpStore := [(("X", "A", "S1"), -5), (("X", "B", "S2"), -1)]

theorem c2_witness :
    ((processAncestryGroup true c2Members c2Store).2 =
        c2Members.map (fun m =>
          (m, if ({ personId := "X", parentKey := "B", children := ["c"] } : DupMember) = m
            then some m.children else none)) ∧
      ((processAncestryGroup true c2Members c2Store).2.filter
        (fun q => q.2.isSome)).length = 1) ∧
    ((processProgenyGroup true c2MembersP c2StoreP).2 =
        c2MembersP.map (fun m =>
          (m, if ({ personId := "X", parentKey := "B", spouseId := "S2", children := ["c"] } : DupMemberP) = m
            then some m.children else none)) ∧
      ((processProgenyGroup true c2MembersP c2StoreP).2.filter
        (fun q => q.2.isSome)).length = 1) :=
  c2_duplicateGroups c2Members c2Store
    ({ personId := "X", parentKey := "B", children := ["c"] }, -1)
    c2MembersP c2StoreP
    ({ personId := "X", parentKey := "B", spouseId := "S2", children := ["c"] }, -1)
    (by decide)
    (by
      intro m hm v hv
      fin_cases hm <;> (simp [c2Store, storeGet, memberKey] at hv; omega))
    (by decide)
    (by decide)
    (by
      intro m hm v hv
      fin_cases hm <;> (simp [c2StoreP, storeGetP, memberKeyP] at hv; omega))
    (by decide)

/-! ### Deletion: `deletePerson` and its connectivity check  (claims C4, C10) -/

/-- `[r.father, r.mother, ...spouses, ...children].filter(r_id => !!r_id)`:
the truthy relation ids (unset slots and empty strings dropped). -/
def truthyIds (r : Rels) : List String :=
  (relIds r).filter (fun s => s ≠ "")

/-- `isM` from `checkIfRelativesConnectedWithoutPerson`: whether an id is the
id of the first person of the stash. -/
def isMainId (stash : List Person) (id : String) : Bool :=
  match stash.head? with
  | some m => id = m.id
  | none => false

/-- `checkIfAnyRelIsMain`: depth-first search along relation ids, skipping
ids of the avoided persons and of the path so far; first every direct rel is
checked against the main id (`check`), then the search recurses through the
remaining rels (`checkRels`).  The JS recursion is bounded by the path
history, which grows by one fresh id per level; `fuel` makes that bound
explicit. -/
def anyRelIsMain (stash : List Person) (avoid : List String) :
    Nat → List String → Option Person → Bool
  | 0, _, _ => false
  | _ + 1, _, none => false
  | fuel + 1, history, some d0 =>
    let history := history ++ [d0.id]
    let ids := (truthyIds d0.rels).filter
      (fun i => !(avoid.contains i) && !(history.contains i))
    if ids.any (fun i => isMainId stash i) then true
    else ids.any (fun i => anyRelIsMain stash avoid fuel history (findPerson stash i))

/-- `findPersonLineToMain(datum, without_persons)` as a boolean: the person
is the main person, or some rel path from it reaches the main person while
avoiding `avoid`. -/
def findPersonLineToMain (stash : List Person) (avoid : List String) (fuel : Nat)
    (d0 : Option Person) : Bool :=
  (match d0 with
   | some p => isMainId stash p.id
   | none => false) ||
    anyRelIsMain stash avoid fuel
      (match d0 with | some p => [p.id] | none => []) d0

/-- `checkIfRelativesConnectedWithoutPerson(datum, data_stash)`: every truthy
relative id of `datum` can still reach the first person of the stash without
passing through `datum`.  (The JS loop breaks at the first failure; the
boolean result is the same.)  The fuel `stash.length + 2` covers the longest
possible simple path. -/
def checkIfRelativesConnectedWithoutPerson (datum : Person) (stash : List Person) : Bool :=
  (truthyIds datum.rels).all
    (fun rid => findPersonLineToMain stash [datum.id] (stash.length + 2) (findPerson stash rid))

/-- One person's rels after `executeDelete`'s reference sweep: a `father` or
`mother` slot equal to the deleted id is removed, and the first occurrence of
the id is spliced out of the `spouses` and `children` arrays. -/
def removeRefs (pid : String) (r : Rels) : Rels :=
  { father := if r.father = some pid then none else r.father,
    mother := if r.mother = some pid then none else r.mother,
    spouses := r.spouses.erase pid,
    children := r.children.erase pid }

/-- `delete rel.data[ref_field_id]` on the field map. -/
def stripRefField (refKey : String) (d : PersonData) : PersonData :=
  { d with fields := d.fields.filter (fun f => f.1 ≠ refKey) }

/-- One key of the `onDeleteSyncRelReference` loop: when the key contains
`__ref__`, look up the referenced person and remove the mirrored
`<field>__ref__<deletedId>` key from its data. -/
def syncRefStep (did : String) (st : List Person) (kv : String × String) : List Person :=
  let parts := kv.1.splitOn "__ref__"
  if 2 ≤ parts.length then
    match findPersonIdx st (parts.getD 1 "") with
    | some j =>
      modifyPerson st j (fun rel =>
        { rel with data :=
            stripRefField (parts.getD 0 "" ++ "__ref__" ++ did) rel.data })
    | none => st
  else st

/-- `onDeleteSyncRelReference(datum, data_stash)`: for every
`<field>__ref__<relId>` key of the deleted person's data, remove the mirrored
`<field>__ref__<datum.id>` key from the related person's data. -/
def onDeleteSyncRelReference (datum : Person) (stash : List Person) : List Person :=
  datum.data.fields.foldl (syncRefStep datum.id) stash

/-- `data_stash.splice(data_stash.findIndex(d => d.id === datum.id), 1)`:
remove the first person with the given id; a `findIndex` result of `-1`
makes `splice(-1, 1)` drop the last element. -/
def spliceById (pid : String) (st : List Person) : List Person :=
  match st.findIdx? (fun d => d.id = pid) with
  | some j => st.eraseIdx j
  | none => st.dropLast

/-- `createTreeDataWithMainNode({}).data[0]`: a blank person with a freshly
generated id and empty data and rels. -/
def blankMain (freshId : String) : Person :=
  { id := freshId }

/-- The cascading `data_stash.forEach(d => {if (d.to_add) deletePerson(d, ...)})`:
the element count is cached before the loop (`n`), each step re-reads the
current element at index `k` (indices past the shrunken array are skipped)
and deletes it when it is a placeholder. -/
def cascadeGo (del : String → List Person → List Person) :
    Nat → Nat → List Person → List Person
  | 0, _, st => st
  | n + 1, k, st =>
    cascadeGo del n (k + 1)
      (match st[k]? with
       | some d => if d.to_add then del d.id st else st
       | none => st)

/-- `executeDelete` of `deletePerson`: sweep the id out of every person's
rels, strip mirrored `__ref__` fields, splice the person out, cascade-delete
placeholder spouses, and re-seed the stash with a blank main person if it
became empty. -/
def executeDelete (del : String → List Person → List Person) (freshId : String)
    (datum : Person) (st : List Person) : List Person :=
  let st1 := st.map (fun d => { d with rels := removeRefs datum.id d.rels })
  let st2 := onDeleteSyncRelReference datum st1
  let st3 := spliceById datum.id st2
  let st4 := cascadeGo del st3.length 0 st3
  if st4.length = 0 then st4 ++ [blankMain freshId] else st4

/-- `changeToUnknown` of `deletePerson`: strip mirrored `__ref__` fields,
then reduce the person's data to its gender and mark it unknown (the JS
mutates the object in place; here the person is updated at its index). -/
def changeToUnknown (datum : Person) (st : List Person) : List Person :=
  let st1 := onDeleteSyncRelReference datum st
  match findPersonIdx st1 datum.id with
  | some j =>
    modifyPerson st1 j (fun d =>
      { d with data := { gender := d.data.gender }, unknown := true })
  | none => st1

/-- `deletePerson` keyed by id (as the cascade invokes it); `fuel` bounds the
cascade recursion depth, and exhausted fuel leaves the stash unchanged. -/
def deletePersonF (freshId : String) : Nat → String → List Person → List Person
  | 0, _, st => st
  | fuel + 1, did, st =>
    match findPerson st did with
    | none => st
    | some datum =>
      if checkIfRelativesConnectedWithoutPerson datum st then
        executeDelete (deletePersonF freshId fuel) freshId datum st
      else
        changeToUnknown datum st

/-- Top-level `deletePerson(datum, data_stash)`: the resulting stash together
with the `success` flag of the returned object — `true` in both branches. -/
def deletePersonJS (freshId : String) (fuel : Nat) (datum : Person)
    (st : List Person) : List Person × Bool :=
  if checkIfRelativesConnectedWithoutPerson datum st then
    (executeDelete (deletePersonF freshId fuel) freshId datum st, true)
  else
    (changeToUnknown datum st, true)

/-- No relation slot of `r` mentions `pid`. -/
def relsClean (pid : String) (r : Rels) : Prop :=
  r.father ≠ some pid ∧ r.mother ≠ some pid ∧ pid ∉ r.spouses ∧ pid ∉ r.children

/-- The stash neither contains a person with id `pid` nor any reference to
`pid` in a relation slot. -/
def noPid (pid : String) (st : List Person) : Prop :=
  ∀ q ∈ st, q.id ≠ pid ∧ relsClean pid q.rels

/-- Every person field except the free-form data fields: the parts of a
person untouched by the `__ref__` cleanup. -/
def personShape (q : Person) :
    String × Rels × Option String × Rels × Bool × Bool × Bool :=
  (q.id, q.rels, q.data.gender, q.relsHidden, q.to_add, q.unknown, q.main)

/-- A person's id and relation slots. -/
def personIdRels (q : Person) : String × Rels :=
  (q.id, q.rels)

theorem modifyPerson_map {β : Type} (g : Person → β) (st : List Person) (j : Nat)
    (f : Person → Person) (hf : ∀ q, g (f q) = g q) :
    (modifyPerson st j f).map g = st.map g := by
  apply List.ext_getElem?
  intro n
  rw [List.getElem?_map, List.getElem?_map, modifyPerson_getElem?]
  by_cases hj : j = n
  · rw [if_pos hj]
    cases st[n]? with
    | none => rfl
    | some p => simp [hf]
  · rw [if_neg hj]

theorem syncRefStep_shape (did : String) (st : List Person) (kv : String × String) :
    (syncRefStep did st kv).map personShape = st.map personShape := by
  unfold syncRefStep
  dsimp only
  by_cases hlen : 2 ≤ (kv.1.splitOn "__ref__").length
  · rw [if_pos hlen]
    cases hfi : findPersonIdx st ((kv.1.splitOn "__ref__").getD 1 "") with
    | none => rfl
    | some j => exact modifyPerson_map personShape st j _ (fun q => rfl)
  · rw [if_neg hlen]

theorem onDeleteSyncRelReference_shape (datum : Person) (st : List Person) :
    (onDeleteSyncRelReference datum st).map personShape = st.map personShape := by
  unfold onDeleteSyncRelReference
  generalize datum.data.fields = fs
  induction fs generalizing st with
  | nil => rfl
  | cons kv rest ih =>
    rw [List.foldl_cons, ih, syncRefStep_shape]

theorem idRels_of_shape {st st' : List Person}
    (h : st.map personShape = st'.map personShape) :
    st.map personIdRels = st'.map personIdRels := by
  have hsplit : ∀ (l : List Person), l.map personIdRels =
      (l.map personShape).map (fun x => (x.1, x.2.1)) := by
    intro l
    rw [List.map_map]
    rfl
  rw [hsplit, hsplit, h]

theorem ids_of_idRels {st st' : List Person}
    (h : st.map personIdRels = st'.map personIdRels) :
    st.map Person.id = st'.map Person.id := by
  have hsplit : ∀ (l : List Person), l.map Person.id =
      (l.map personIdRels).map (fun x => x.1) := by
    intro l
    rw [List.map_map]
    rfl
  rw [hsplit, hsplit, h]

theorem noPid_of_idRels {pid : String} {st st' : List Person}
    (h : st.map personIdRels = st'.map personIdRels)
    (hn : noPid pid st') : noPid pid st := by
  intro q hq
  have hmem : personIdRels q ∈ st'.map personIdRels := by
    rw [← h]
    exact List.mem_map_of_mem _ hq
  obtain ⟨q', hq', hqe⟩ := List.mem_map.mp hmem
  have hid : q'.id = q.id := congrArg Prod.fst hqe
  have hrels : q'.rels = q.rels := congrArg Prod.snd hqe
  obtain ⟨ha, hb⟩ := hn q' hq'
  exact ⟨hid ▸ ha, hrels ▸ hb⟩

/-- `relsClean` for every person of the stash (the deleted person may still
be present, so the id part of `noPid` is tracked separately). -/
def relsCleanAll (pid : String) (st : List Person) : Prop :=
  ∀ q ∈ st, relsClean pid q.rels

theorem relsCleanAll_of_idRels {pid : String} {st st' : List Person}
    (h : st.map personIdRels = st'.map personIdRels)
    (hn : relsCleanAll pid st') : relsCleanAll pid st := by
  intro q hq
  have hmem : personIdRels q ∈ st'.map personIdRels := by
    rw [← h]
    exact List.mem_map_of_mem _ hq
  obtain ⟨q', hq', hqe⟩ := List.mem_map.mp hmem
  have hrels : q'.rels = q.rels := congrArg Prod.snd hqe
  exact hrels ▸ hn q' hq'

theorem relsClean_removeRefs {pid did : String} {r : Rels} (h : relsClean pid r) :
    relsClean pid (removeRefs did r) := by
  obtain ⟨h1, h2, h3, h4⟩ := h
  refine ⟨?_, ?_, ?_, ?_⟩
  · unfold removeRefs
    dsimp only
    split
    · exact fun hc => Option.noConfusion hc
    · exact h1
  · unfold removeRefs
    dsimp only
    split
    · exact fun hc => Option.noConfusion hc
    · exact h2
  · exact fun hc => h3 (List.mem_of_mem_erase hc)
  · exact fun hc => h4 (List.mem_of_mem_erase hc)

theorem removeRefs_self_clean (pid : String) (r : Rels)
    (hs : r.spouses.count pid ≤ 1) (hc : r.children.count pid ≤ 1) :
    relsClean pid (removeRefs pid r) := by
  refine ⟨?_, ?_, ?_, ?_⟩
  · unfold removeRefs
    dsimp only
    split
    · exact fun h => Option.noConfusion h
    · assumption
  · unfold removeRefs
    dsimp only
    split
    · exact fun h => Option.noConfusion h
    · assumption
  · intro hmem
    have := List.count_pos_iff.mpr hmem
    rw [show (removeRefs pid r).spouses = r.spouses.erase pid from rfl,
      List.count_erase_self] at this
    omega
  · intro hmem
    have := List.count_pos_iff.mpr hmem
    rw [show (removeRefs pid r).children = r.children.erase pid from rfl,
      List.count_erase_self] at this
    omega

theorem nodup_not_mem_eraseIdx {α : Type} :
    ∀ (l : List α) (j : Nat) (a : α), l.Nodup → l[j]? = some a → a ∉ l.eraseIdx j := by
  intro l
  induction l with
  | nil =>
    intro j a _ h
    rw [List.getElem?_nil] at h
    exact absurd h (by simp)
  | cons x xs ih =>
    intro j a hnd h
    obtain ⟨hx, hxs⟩ := List.nodup_cons.mp hnd
    cases j with
    | zero =>
      rw [List.getElem?_cons_zero] at h
      obtain rfl := Option.some.inj h
      rw [List.eraseIdx_cons_zero]
      exact hx
    | succ n =>
      rw [List.getElem?_cons_succ] at h
      rw [List.eraseIdx_cons_succ]
      intro hmem
      rcases List.mem_cons.mp hmem with h1 | h1
      · exact hx (h1 ▸ List.getElem?_mem h)
      · exact ih n a hxs h h1

theorem map_eraseIdx {α β : Type} (f : α → β) :
    ∀ (l : List α) (j : Nat), (l.eraseIdx j).map f = (l.map f).eraseIdx j := by
  intro l
  induction l with
  | nil => intro j; rfl
  | cons x xs ih =>
    intro j
    cases j with
    | zero => rfl
    | succ n =>
      rw [List.eraseIdx_cons_succ, List.map_cons, List.map_cons,
        List.eraseIdx_cons_succ, ih]

theorem findIdx?_some_pred {α : Type} (p : α → Bool) :
    ∀ (l : List α) (j : Nat), l.findIdx? p = some j →
      ∃ a, l[j]? = some a ∧ p a = true := by
  intro l
  induction l with
  | nil =>
    intro j h
    exact absurd h (by simp)
  | cons x xs ih =>
    intro j h
    rw [List.findIdx?_cons] at h
    by_cases hx : p x
    · rw [if_pos hx] at h
      obtain rfl := Option.some.inj h
      exact ⟨x, List.getElem?_cons_zero, hx⟩
    · rw [if_neg hx, List.findIdx?_succ] at h
      cases hxs : xs.findIdx? p with
      | none =>
        rw [hxs] at h
        exact absurd h (by simp)
      | some n =>
        rw [hxs] at h
        obtain hj := Option.some.inj h
        obtain ⟨a, ha, hpa⟩ := ih n hxs
        refine ⟨a, ?_, hpa⟩
        rw [← hj, List.getElem?_cons_succ]
        exact ha

theorem spliceById_sublist (pid : String) (st : List Person) :
    List.Sublist (spliceById pid st) st := by
  unfold spliceById
  cases st.findIdx? (fun d => d.id = pid) with
  | some j => exact List.eraseIdx_sublist st j
  | none => exact List.dropLast_sublist st

theorem spliceById_not_id {pid : String} {st : List Person}
    (hnd : (st.map Person.id).Nodup) :
    ∀ q ∈ spliceById pid st, q.id ≠ pid := by
  intro q hq
  unfold spliceById at hq
  cases hfi : st.findIdx? (fun d => d.id = pid) with
  | none =>
    rw [hfi] at hq
    have hall := List.findIdx?_eq_none_iff.mp hfi
    have hqst : q ∈ st := (List.dropLast_sublist st).subset hq
    have := hall q hqst
    simpa using this
  | some j =>
    rw [hfi] at hq
    obtain ⟨d, hd, hdp⟩ := findIdx?_some_pred _ st j hfi
    rw [decide_eq_true_eq] at hdp
    intro hcq
    have hidj : (st.map Person.id)[j]? = some pid := by
      rw [List.getElem?_map, hd, Option.map_some', hdp]
    have hnotin := nodup_not_mem_eraseIdx (st.map Person.id) j pid hnd hidj
    apply hnotin
    rw [← map_eraseIdx]
    rw [← hcq]
    exact List.mem_map_of_mem _ hq

theorem findPersonIdx_nodup :
    ∀ (st : List Person) (i : Nat) (p : Person),
      (st.map Person.id).Nodup → st[i]? = some p →
      findPersonIdx st p.id = some i := by
  intro st
  induction st with
  | nil =>
    intro i p _ hp
    rw [List.getElem?_nil] at hp
    exact absurd hp (by simp)
  | cons d rest ih =>
    intro i p hnd hp
    rw [List.map_cons, List.nodup_cons] at hnd
    obtain ⟨hdn, hrestnd⟩ := hnd
    unfold findPersonIdx at ih ⊢
    rw [List.findIdx?_cons]
    cases i with
    | zero =>
      rw [List.getElem?_cons_zero] at hp
      obtain rfl := Option.some.inj hp
      rw [if_pos (by simp)]
    | succ n =>
      rw [List.getElem?_cons_succ] at hp
      have hdneq : ¬ (d.id = p.id) := by
        intro hc
        apply hdn
        rw [hc]
        exact List.mem_map_of_mem _ (List.getElem?_mem hp)
      rw [if_neg (by simpa using hdneq), List.findIdx?_succ, ih n p hrestnd hp]
      rfl

theorem cascadeGo_noPid (pid : String) (del : String → List Person → List Person)
    (hdel : ∀ did st, noPid pid st → noPid pid (del did st)) :
    ∀ (n k : Nat) (st : List Person), noPid pid st → noPid pid (cascadeGo del n k st) := by
  intro n
  induction n with
  | zero =>
    intro k st h
    exact h
  | succ m ih =>
    intro k st h
    rw [cascadeGo]
    apply ih
    cases hk : st[k]? with
    | none => exact h
    | some d =>
      show noPid pid (if d.to_add = true then del d.id st else st)
      by_cases hta : d.to_add
      · rw [if_pos hta]
        exact hdel d.id st h
      · rw [if_neg hta]
        exact h

theorem blankMain_clean {pid freshId : String} (hfresh : freshId ≠ pid) :
    (blankMain freshId).id ≠ pid ∧ relsClean pid (blankMain freshId).rels := by
  refine ⟨hfresh, ?_, ?_, ?_, ?_⟩
  · exact fun h => Option.noConfusion h
  · exact fun h => Option.noConfusion h
  · exact List.not_mem_nil pid
  · exact List.not_mem_nil pid

theorem executeDelete_noPid {pid freshId : String}
    (del : String → List Person → List Person) (datum : Person) (st : List Person)
    (hdel : ∀ did s, noPid pid s → noPid pid (del did s))
    (hfresh : freshId ≠ pid)
    (h : noPid pid st) :
    noPid pid (executeDelete del freshId datum st) := by
  unfold executeDelete
  dsimp only
  have h1 : noPid pid (st.map fun d => { d with rels := removeRefs datum.id d.rels }) := by
    intro q hq
    obtain ⟨q0, hq0, hqeq⟩ := List.mem_map.mp hq
    obtain ⟨ha, hb⟩ := h q0 hq0
    rw [← hqeq]
    exact ⟨ha, relsClean_removeRefs hb⟩
  have h2 : noPid pid (onDeleteSyncRelReference datum
      (st.map fun d => { d with rels := removeRefs datum.id d.rels })) :=
    noPid_of_idRels (idRels_of_shape (onDeleteSyncRelReference_shape datum _)) h1
  have h3 : noPid pid (spliceById datum.id (onDeleteSyncRelReference datum
      (st.map fun d => { d with rels := removeRefs datum.id d.rels }))) :=
    fun q hq => h2 q ((spliceById_sublist datum.id _).subset hq)
  have h4 := cascadeGo_noPid pid del hdel
    (spliceById datum.id (onDeleteSyncRelReference datum
      (st.map fun d => { d with rels := removeRefs datum.id d.rels }))).length 0 _ h3
  split
  · intro q hq
    rcases List.mem_append.mp hq with h5 | h5
    · exact h4 q h5
    · rw [List.mem_singleton] at h5
      rw [h5]
      exact blankMain_clean hfresh
  · exact h4

theorem changeToUnknown_noPid {pid : String} (datum : Person) (st : List Person)
    (h : noPid pid st) : noPid pid (changeToUnknown datum st) := by
  unfold changeToUnknown
  dsimp only
  have h1 : noPid pid (onDeleteSyncRelReference datum st) :=
    noPid_of_idRels (idRels_of_shape (onDeleteSyncRelReference_shape datum st)) h
  cases hfi : findPersonIdx (onDeleteSyncRelReference datum st) datum.id with
  | none => exact h1
  | some j =>
    exact noPid_of_idRels
      (modifyPerson_map personIdRels _ j _ (fun q => rfl)) h1

theorem deletePersonF_noPid {pid freshId : String} (hfresh : freshId ≠ pid) :
    ∀ (fuel : Nat) (did : String) (st : List Person),
      noPid pid st → noPid pid (deletePersonF freshId fuel did st) := by
  intro fuel
  induction fuel with
  | zero =>
    intro did st h
    exact h
  | succ m ih =>
    intro did st h
    rw [deletePersonF]
    cases hfp : findPerson st did with
    | none => exact h
    | some datum =>
      show noPid pid (if checkIfRelativesConnectedWithoutPerson datum st = true then
        executeDelete (deletePersonF freshId m) freshId datum st
        else changeToUnknown datum st)
      by_cases hchk : checkIfRelativesConnectedWithoutPerson datum st
      · rw [if_pos hchk]
        exact executeDelete_noPid _ datum st ih hfresh h
      · rw [if_neg hchk]
        exact changeToUnknown_noPid datum st h

theorem executeDelete_noPid_self (freshId : String)
    (del : String → List Person → List Person) (datum : Person) (st : List Person)
    (hdel : ∀ did s, noPid datum.id s → noPid datum.id (del did s))
    (hfresh : freshId ≠ datum.id)
    (hnd : (st.map Person.id).Nodup)
    (hcnt : ∀ q ∈ st, q.rels.spouses.count datum.id ≤ 1 ∧
      q.rels.children.count datum.id ≤ 1) :
    noPid datum.id (executeDelete del freshId datum st) := by
  unfold executeDelete
  dsimp only
  have h1 : relsCleanAll datum.id
      (st.map fun d => { d with rels := removeRefs datum.id d.rels }) := by
    intro q hq
    obtain ⟨q0, hq0, hqeq⟩ := List.mem_map.mp hq
    obtain ⟨hs, hc⟩ := hcnt q0 hq0
    rw [← hqeq]
    exact removeRefs_self_clean datum.id q0.rels hs hc
  have hids1 : (st.map fun d => { d with rels := removeRefs datum.id d.rels }).map Person.id
      = st.map Person.id := by
    rw [List.map_map]
    rfl
  have hidr2 := idRels_of_shape (onDeleteSyncRelReference_shape datum
    (st.map fun d => { d with rels := removeRefs datum.id d.rels }))
  have h2 := relsCleanAll_of_idRels hidr2 h1
  have hnd2 : ((onDeleteSyncRelReference datum
      (st.map fun d => { d with rels := removeRefs datum.id d.rels })).map
        Person.id).Nodup := by
    rw [ids_of_idRels hidr2, hids1]
    exact hnd
  have h3 : noPid datum.id (spliceById datum.id (onDeleteSyncRelReference datum
      (st.map fun d => { d with rels := removeRefs datum.id d.rels }))) := by
    intro q hq
    exact ⟨spliceById_not_id hnd2 q hq, h2 q ((spliceById_sublist _ _).subset hq)⟩
  have h4 := cascadeGo_noPid datum.id del hdel
    (spliceById datum.id (onDeleteSyncRelReference datum
      (st.map fun d => { d with rels := removeRefs datum.id d.rels }))).length 0 _ h3
  split
  · intro q hq
    rcases List.mem_append.mp hq with h5 | h5
    · exact h4 q h5
    · rw [List.mem_singleton] at h5
      rw [h5]
      exact blankMain_clean hfresh
  · exact h4

theorem changeToUnknown_getElem (st : List Person) (i : Nat) (p : Person)
    (hnd : (st.map Person.id).Nodup) (hp : st[i]? = some p) :
    (changeToUnknown p st)[i]? =
      some { p with data := { gender := p.data.gender, fields := [] },
                    unknown := true } := by
  unfold changeToUnknown
  dsimp only
  have hshape := onDeleteSyncRelReference_shape p st
  have hps : ((onDeleteSyncRelReference p st).map personShape)[i]? =
      some (personShape p) := by
    rw [hshape, List.getElem?_map, hp, Option.map_some']
  rw [List.getElem?_map] at hps
  cases hp' : (onDeleteSyncRelReference p st)[i]? with
  | none =>
    rw [hp'] at hps
    exact absurd hps (by simp)
  | some p' =>
    rw [hp'] at hps
    have hpe : personShape p' = personShape p := Option.some.inj hps
    have hnd1 : ((onDeleteSyncRelReference p st).map Person.id).Nodup := by
      rw [ids_of_idRels (idRels_of_shape hshape)]
      exact hnd
    have hpid : p'.id = p.id := congrArg Prod.fst hpe
    have hfi : findPersonIdx (onDeleteSyncRelReference p st) p.id = some i := by
      rw [← hpid]
      exact findPersonIdx_nodup _ i p' hnd1 hp'
    rw [hfi, modifyPerson_getElem?, if_pos rfl, hp', Option.map_some']
    congr 1
    obtain ⟨pid0, pdata0, prels0, ph0, pta0, pu0, pm0⟩ := p
    obtain ⟨pid1, pdata1, prels1, ph1, pta1, pu1, pm1⟩ := p'
    obtain ⟨pg0, pf0⟩ := pdata0
    obtain ⟨pg1, pf1⟩ := pdata1
    simp only [personShape, Prod.mk.injEq] at hpe
    obtain ⟨e1, e2, e3, e4, e5, e6, e7⟩ := hpe
    subst e1
    subst e2
    subst e3
    subst e4
    subst e5
    subst e6
    subst e7
    rfl

/-- C4: for a person stored at index `i` of a stash with pairwise distinct
ids whose relation arrays mention her id at most once each, `deletePerson`
leaves the stash in one of exactly two shapes.  If her relatives stay
connected to the first person without her, she is removed: no person with
her id remains and no remaining person's father/mother/spouses/children
mention her id (the freshly generated re-seed id is assumed distinct from
hers).  Otherwise she stays at her index, demoted to `unknown = true` with
her data reduced to exactly her gender. -/
theorem c4_deletePerson (freshId : String) (fuel : Nat) (st : List Person)
    (i : Nat) (p : Person)
    (hnd : (st.map Person.id).Nodup)
    (hcnt : ∀ q ∈ st, q.rels.spouses.count p.id ≤ 1 ∧ q.rels.children.count p.id ≤ 1)
    (hfresh : freshId ≠ p.id)
    (hp : st[i]? = some p) :
    (checkIfRelativesConnectedWithoutPerson p st = true →
      ∀ q ∈ (deletePersonJS freshId fuel p st).1, q.id ≠ p.id ∧ relsClean p.id q.rels) ∧
    (checkIfRelativesConnectedWithoutPerson p st = false →
      (deletePersonJS freshId fuel p st).1[i]? =
        some { p with data := { gender := p.data.gender, fields := [] },
                      unknown := true }) := by
  constructor
  · intro hchk
    show noPid p.id (deletePersonJS freshId fuel p st).1
    unfold deletePersonJS
    rw [if_pos hchk]
    exact executeDelete_noPid_self freshId (deletePersonF freshId fuel) p st
      (fun did s hs => deletePersonF_noPid hfresh fuel did s hs) hfresh hnd hcnt
  · intro hchk
    unfold deletePersonJS
    rw [if_neg (by rw [hchk]; exact Bool.false_ne_true)]
    exact changeToUnknown_getElem st i p hnd hp

/-- C4 witness graph: main person `A` with child `B`. -/
def c4A : Person :=
  { id := "A", data := { gender := some "M" }, rels := { children := ["B"] } }

def c4B : Person :=
  { id := "B", data := { gender := some "F" }, rels := { father := some "A" } }

def c4Stash : List Person := [c4A, c4B]

theorem c4_witness :
    (checkIfRelativesConnectedWithoutPerson c4B c4Stash = true →
      ∀ q ∈ (deletePersonJS "F1" 1 c4B c4Stash).1,
        q.id ≠ c4B.id ∧ relsClean c4B.id q.rels) ∧
    (checkIfRelativesConnectedWithoutPerson c4B c4Stash = false →
      (deletePersonJS "F1" 1 c4B c4Stash).1[1]? =
        some { c4B with data := { gender := c4B.data.gender, fields := [] },
                        unknown := true }) :=
  c4_deletePerson "F1" 1 c4Stash 1 c4B (by decide) (by decide) (by decide) (by decide)

/-- C10: `deletePerson` returns `{success: true}` from both of its branches
— demotion to unknown and removal alike — so its return value can never
signal a refused or failed delete. -/
theorem c10_deletePersonSuccess (freshId : String) (fuel : Nat) (datum : Person)
    (st : List Person) : (deletePersonJS freshId fuel datum st).2 = true := by
  unfold deletePersonJS
  split
  · rfl
  · rfl

/-! ### Synthetic augmentor: `createRelsToAdd`  (claim C6) -/

/-- JavaScript truthiness of an optional id: set and non-empty. -/
def truthy (o : Option String) : Prop :=
  o.getD "" ≠ ""

instance (o : Option String) : Decidable (truthy o) := by
  unfold truthy
  infer_instance

/-- `child.rels[b ? 'father' : 'mother']`. -/
def getPSlot (father : Bool) (r : Rels) : Option String :=
  if father then r.father else r.mother

/-- `child.rels[b ? 'father' : 'mother'] = v`. -/
def setPSlot (father : Bool) (v : Option String) (r : Rels) : Rels :=
  if father then { r with father := v } else { r with mother := v }

/-- `d.data.gender === "M" ? "F" : "M"` for the created spouse. -/
def genderFlip (g : Option String) : Option String :=
  if g = some "M" then some "F" else some "M"

/-- `data.find(d0 => d0.id === pid)` as an index, where `data` is the first
`n0` entries of the working list (spouses created in this run are appended
past `n0` and are not visible to `find` until the run ends). -/
def findIdxIn (n0 : Nat) (lst : List Person) (pid : String) : Option Nat :=
  findPersonIdx (lst.take n0) pid

/-- `spouses.find(sp => sp.to_add)` over the resolved spouse ids: walk the
ids in order; an id that does not resolve crashes (`sp.to_add` on
`undefined`), a resolved placeholder stops the walk, and an exhausted list
means a spouse must be created. -/
def findToAdd (n0 : Nat) (lst : List Person) : List String → Option (Option Nat)
  | [] => some none
  | sp :: rest =>
    match findIdxIn n0 lst sp with
    | none => none
    | some j =>
      match lst[j]? with
      | none => none
      | some q => if q.to_add then some (some j) else findToAdd n0 lst rest

/-- One child visit of the `d.rels.children.forEach` body.  State:
working list, fresh-id counter, and the cached `to_add_spouse` (index and
id).  `none` models a crash (an unresolvable child or spouse id). -/
def processChild (n0 : Nat) (gen : Nat → String) (di : Nat) (is_father : Bool)
    (st : List Person × Nat × Option (Nat × String)) (cid : String) :
    Option (List Person × Nat × Option (Nat × String)) :=
  match st with
  | (lst, cnt, sp?) =>
    match lst[di]? with
    | none => none
    | some d =>
      match findIdxIn n0 lst cid with
      | none => none
      | some ci =>
        match lst[ci]? with
        | none => none
        | some child =>
          if getPSlot is_father child.rels ≠ some d.id then some (lst, cnt, sp?)
          else if truthy (getPSlot (!is_father) child.rels) then some (lst, cnt, sp?)
          else
            match (match sp? with
                   | some sc => some (lst, cnt, sc)
                   | none =>
                     match findToAdd n0 lst d.rels.spouses with
                     | none => none
                     | some (some j) =>
                       match lst[j]? with
                       | none => none
                       | some spq => some (lst, cnt, (j, spq.id))
                     | some none =>
                       let spouse : Person :=
                         { id := gen cnt,
                           data := { gender := genderFlip d.data.gender },
                           rels := { spouses := [d.id], children := [] },
                           to_add := true }
                       some (modifyPerson (lst ++ [spouse]) di
                           (fun q => { q with rels :=
                             { q.rels with spouses := q.rels.spouses ++ [spouse.id] } }),
                         cnt + 1, (lst.length, spouse.id))) with
            | none => none
            | some (lst1, cnt1, si, sid) =>
              let lst2 := modifyPerson lst1 si (fun q =>
                { q with rels :=
                    { q.rels with children := q.rels.children ++ [child.id] } })
              let lst3 := modifyPerson lst2 ci (fun q =>
                { q with rels := setPSlot (!is_father) (some sid) q.rels })
              some (lst3, cnt1, some (si, sid))

/-- The `forEach` over one parent's children (snapshot of the array; pushes
during the loop land past the cached length and are not visited). -/
def childrenLoop (n0 : Nat) (gen : Nat → String) (di : Nat) (is_father : Bool) :
    List String → List Person × Nat × Option (Nat × String) →
      Option (List Person × Nat × Option (Nat × String))
  | [], st => some st
  | cid :: rest, st =>
    match processChild n0 gen di is_father st cid with
    | none => none
    | some st' => childrenLoop n0 gen di is_father rest st'

/-- The outer `for (let i = 0; i < data.length; i++)` loop: `n` iterations
remain, `i` is the current index. -/
def parentLoop (n0 : Nat) (gen : Nat → String) :
    Nat → Nat → List Person × Nat → Option (List Person × Nat)
  | 0, _, st => some st
  | n + 1, i, (lst, cnt) =>
    match lst[i]? with
    | none => none
    | some d =>
      if d.rels.children.isEmpty then parentLoop n0 gen n (i + 1) (lst, cnt)
      else
        match childrenLoop n0 gen i (decide (d.data.gender = some "M"))
            d.rels.children (lst, cnt, none) with
        | none => none
        | some (lst', cnt', _) => parentLoop n0 gen n (i + 1) (lst', cnt')

/-- `createRelsToAdd(data)`: give every child reached from a same-gender
parent slot a placeholder other parent.  Fresh spouse ids come from
`gen` starting at counter `c`; the result is the extended list and the new
counter, or `none` when the JS would crash on an unresolvable id. -/
def createRelsToAdd (gen : Nat → String) (c : Nat) (data : List Person) :
    Option (List Person × Nat) :=
  parentLoop data.length gen data.length 0 (data, c)

/-- The pair `(parent, childId)` is settled: the child id resolves, and if
the parent still occupies the child's same-gender slot then the other slot
is already truthy — so a later `createRelsToAdd` visit skips the pair. -/
def satP (lst : List Person) (pid : String) (g : Option String) (cid : String) : Prop :=
  ∃ ci c, findPersonIdx lst cid = some ci ∧ lst[ci]? = some c ∧
    (getPSlot (decide (g = some "M")) c.rels = some pid →
      truthy (getPSlot (!decide (g = some "M")) c.rels))

/-- Every `(parent, childId)` pair of the list is settled. -/
def saturated (lst : List Person) : Prop :=
  ∀ d ∈ lst, ∀ cid ∈ d.rels.children, satP lst d.id d.data.gender cid

theorem findIdxIn_full (lst : List Person) (cid : String) :
    findIdxIn lst.length lst cid = findPersonIdx lst cid := by
  unfold findIdxIn
  rw [List.take_length lst]

theorem processChild_saturated (lst : List Person) (cnt : Nat)
    (sp? : Option (Nat × String)) (di : Nat) (d : Person) (cid : String)
    (gen : Nat → String)
    (hd : lst[di]? = some d)
    (hsat : satP lst d.id d.data.gender cid) :
    processChild lst.length gen di (decide (d.data.gender = some "M"))
      (lst, cnt, sp?) cid = some (lst, cnt, sp?) := by
  obtain ⟨ci, c, hfind, hget, himp⟩ := hsat
  unfold processChild
  simp only [hd, findIdxIn_full, hfind, hget]
  by_cases h1 : getPSlot (decide (d.data.gender = some "M")) c.rels = some d.id
  · rw [if_neg (not_not_intro h1), if_pos (himp h1)]
  · rw [if_pos h1]

theorem childrenLoop_saturated (lst : List Person) (gen : Nat → String)
    (di : Nat) (d : Person) (hd : lst[di]? = some d) :
    ∀ (cids : List String) (cnt : Nat) (sp? : Option (Nat × String)),
      (∀ cid ∈ cids, satP lst d.id d.data.gender cid) →
      childrenLoop lst.length gen di (decide (d.data.gender = some "M")) cids
        (lst, cnt, sp?) = some (lst, cnt, sp?) := by
  intro cids
  induction cids with
  | nil =>
    intro cnt sp? _
    rfl
  | cons cid rest ih =>
    intro cnt sp? hall
    rw [childrenLoop,
      processChild_saturated lst cnt sp? di d cid gen hd (hall cid (List.mem_cons_self _ _))]
    exact ih cnt sp? (fun c0 hc => hall c0 (List.mem_cons_of_mem _ hc))

theorem parentLoop_saturated (lst : List Person) (gen : Nat → String)
    (hsat : saturated lst) :
    ∀ (n i cnt : Nat), i + n ≤ lst.length →
      parentLoop lst.length gen n i (lst, cnt) = some (lst, cnt) := by
  intro n
  induction n with
  | zero =>
    intro i cnt _
    rfl
  | succ m ih =>
    intro i cnt hle
    rw [parentLoop]
    have hi : i < lst.length := by omega
    have hd : lst[i]? = some lst[i] := List.getElem?_eq_getElem hi
    simp only [hd]
    by_cases hemp : lst[i].rels.children.isEmpty
    · rw [if_pos hemp]
      exact ih (i + 1) cnt (by omega)
    · rw [if_neg hemp,
        childrenLoop_saturated lst gen i lst[i] hd lst[i].rels.children cnt none
          (fun cid hc => hsat lst[i] (List.getElem?_mem hd) cid hc)]
      exact ih (i + 1) cnt (by omega)

theorem createRelsToAdd_saturated (lst : List Person) (hsat : saturated lst)
    (gen : Nat → String) (c : Nat) : createRelsToAdd gen c lst = some (lst, c) := by
  unfold createRelsToAdd
  exact parentLoop_saturated lst gen hsat lst.length 0 c (by omega)

theorem findIdx?_append_left {α : Type} (p : α → Bool) :
    ∀ (xs ys : List α) (j : Nat), xs.findIdx? p = some j → (xs ++ ys).findIdx? p = some j := by
  intro xs
  induction xs with
  | nil =>
    intro ys j h
    exact absurd h (by simp)
  | cons x rest ih =>
    intro ys j h
    rw [List.findIdx?_cons] at h
    rw [List.cons_append, List.findIdx?_cons]
    by_cases hx : p x
    · rw [if_pos hx] at h ⊢
      exact h
    · rw [if_neg hx, List.findIdx?_succ] at h ⊢
      cases hr : rest.findIdx? p with
      | none =>
        rw [hr] at h
        exact absurd h (by simp)
      | some m =>
        rw [hr] at h
        rw [ih ys m hr]
        exact h

theorem findPersonIdx_of_prefix {n0 : Nat} {lst : List Person} {cid : String} {ci : Nat}
    (h : findIdxIn n0 lst cid = some ci) : findPersonIdx lst cid = some ci := by
  unfold findIdxIn at h
  unfold findPersonIdx at h ⊢
  rw [← List.take_append_drop n0 lst]
  exact findIdx?_append_left _ _ _ _ h

theorem findPersonIdx_eq_ids (lst : List Person) (pid : String) :
    findPersonIdx lst pid = (lst.map Person.id).findIdx? (fun s => s = pid) := by
  unfold findPersonIdx
  rw [List.findIdx?_map]
  rfl

theorem findPersonIdx_modify (lst : List Person) (m : Nat) (f : Person → Person)
    (pid : String) (hid : ∀ q, (f q).id = q.id) :
    findPersonIdx (modifyPerson lst m f) pid = findPersonIdx lst pid := by
  rw [findPersonIdx_eq_ids, findPersonIdx_eq_ids,
    modifyPerson_map Person.id lst m f hid]

theorem getPSlot_set_same (s : Bool) (v : Option String) (r : Rels) :
    getPSlot s (setPSlot s v r) = v := by
  cases s <;> rfl

theorem getPSlot_set_other (s : Bool) (v : Option String) (r : Rels) :
    getPSlot s (setPSlot (!s) v r) = getPSlot s r := by
  cases s <;> rfl

theorem satP_append {lst : List Person} {pid : String} {g : Option String} {cid : String}
    (x : Person) (h : satP lst pid g cid) : satP (lst ++ [x]) pid g cid := by
  obtain ⟨ci, c, hf, hg, hi⟩ := h
  refine ⟨ci, c, ?_, ?_, hi⟩
  · unfold findPersonIdx at hf ⊢
    exact findIdx?_append_left _ _ _ _ hf
  · rw [List.getElem?_append, if_pos (lt_of_getElem?_eq_some hg)]
    exact hg

theorem satP_modify_keepSlots {lst : List Person} {m : Nat} {f : Person → Person}
    {pid : String} {g : Option String} {cid : String}
    (hid : ∀ q, (f q).id = q.id)
    (hfm : ∀ q b, getPSlot b (f q).rels = getPSlot b q.rels)
    (h : satP lst pid g cid) : satP (modifyPerson lst m f) pid g cid := by
  obtain ⟨ci, c, hf, hg, hi⟩ := h
  by_cases hm : m = ci
  · refine ⟨ci, f c, ?_, ?_, ?_⟩
    · rw [findPersonIdx_modify lst m f cid hid]
      exact hf
    · rw [modifyPerson_getElem?, if_pos hm, hg, Option.map_some']
    · rw [hfm c, hfm c]
      exact hi
  · refine ⟨ci, c, ?_, ?_, hi⟩
    · rw [findPersonIdx_modify lst m f cid hid]
      exact hf
    · rw [modifyPerson_getElem?, if_neg hm]
      exact hg

theorem satP_modify_set {lst : List Person} {ci : Nat} {child : Person} {b : Bool}
    {v : String} {pid : String} {g : Option String} {cid : String}
    (hchild : lst[ci]? = some child)
    (hw : truthy (getPSlot b child.rels))
    (hv : v ≠ "")
    (h : satP lst pid g cid) :
    satP (modifyPerson lst ci (fun q => { q with rels := setPSlot (!b) (some v) q.rels }))
      pid g cid := by
  obtain ⟨cj, c, hf, hg, hi⟩ := h
  have hfind : findPersonIdx (modifyPerson lst ci
      (fun q => { q with rels := setPSlot (!b) (some v) q.rels })) cid = some cj := by
    rw [findPersonIdx_modify]
    · exact hf
    · intro q
      rfl
  by_cases hm : ci = cj
  · subst hm
    have hcc : c = child := by
      rw [hchild] at hg
      exact (Option.some.inj hg).symm
    subst hcc
    refine ⟨ci, { c with rels := setPSlot (!b) (some v) c.rels }, hfind, ?_, ?_⟩
    · rw [modifyPerson_getElem?, if_pos rfl, hg, Option.map_some']
    · intro hprem
      by_cases ht : decide (g = some "M") = b
      · show truthy (getPSlot (!decide (g = some "M")) (setPSlot (!b) (some v) c.rels))
        rw [ht, getPSlot_set_same]
        unfold truthy
        simpa using hv
      · have ht' : decide (g = some "M") = !b := by
          cases hb : b <;> cases hgm : decide (g = some "M") <;> simp_all
        show truthy (getPSlot (!decide (g = some "M")) (setPSlot (!b) (some v) c.rels))
        rw [ht', Bool.not_not, getPSlot_set_other]
        exact hw
  · refine ⟨cj, c, hfind, ?_, hi⟩
    rw [modifyPerson_getElem?, if_neg hm]
    exact hg

theorem satP_of_both {lst : List Person} {ci : Nat} {c : Person}
    (hnd : (lst.map Person.id).Nodup)
    (hc : lst[ci]? = some c)
    (h1 : truthy c.rels.father) (h2 : truthy c.rels.mother) :
    ∀ (pid : String) (g : Option String), satP lst pid g c.id := by
  intro pid g
  refine ⟨ci, c, findPersonIdx_nodup lst ci c hnd hc, hc, ?_⟩
  intro _
  cases hgm : decide (g = some "M")
  · exact h1
  · exact h2

theorem setPSlot_children (b : Bool) (v : Option String) (r : Rels) :
    (setPSlot b v r).children = r.children := by
  cases b <;> rfl

theorem modifyPerson_length (st : List Person) (i : Nat) (f : Person → Person) :
    (modifyPerson st i f).length = st.length := by
  unfold modifyPerson
  cases st[i]? with
  | none => rfl
  | some p => exact List.length_set st i (f p)

/-- Side conditions on the fresh-id generator: non-empty, injective, and
avoiding every pre-existing id. -/
def GenOk (dataIds : List String) (gen : Nat → String) : Prop :=
  (∀ n, gen n ≠ "") ∧ (∀ n m, gen n = gen m → n = m) ∧ (∀ n, gen n ∉ dataIds)

/-- Bookkeeping invariant of the augmentor run: ids are non-empty and
pairwise distinct, and every id is either an input id or a generated id
below the current counter. -/
def Inv (dataIds : List String) (gen : Nat → String) (c : Nat)
    (lst : List Person) (cnt : Nat) : Prop :=
  (∀ q ∈ lst, q.id ≠ "") ∧
  (lst.map Person.id).Nodup ∧
  (∀ q ∈ lst, q.id ∈ dataIds ∨ ∃ k, c ≤ k ∧ k < cnt ∧ q.id = gen k) ∧
  c ≤ cnt

/-- The cached `to_add_spouse` resolves to a person carrying its id. -/
def SpOk (lst : List Person) : Option (Nat × String) → Prop
  | none => True
  | some (si, sid) => ∃ spq, lst[si]? = some spq ∧ spq.id = sid ∧ sid ≠ ""

theorem Inv_of_ids {dataIds : List String} {gen : Nat → String} {c : Nat}
    {lst lst' : List Person} {cnt : Nat}
    (h : lst'.map Person.id = lst.map Person.id) (hI : Inv dataIds gen c lst cnt) :
    Inv dataIds gen c lst' cnt := by
  obtain ⟨hne, hnd, hsub, hc⟩ := hI
  refine ⟨?_, ?_, ?_, hc⟩
  · intro q hq
    have hm : q.id ∈ lst.map Person.id := h ▸ List.mem_map_of_mem Person.id hq
    obtain ⟨q0, hq0, he⟩ := List.mem_map.mp hm
    exact he ▸ hne q0 hq0
  · rw [h]
    exact hnd
  · intro q hq
    have hm : q.id ∈ lst.map Person.id := h ▸ List.mem_map_of_mem Person.id hq
    obtain ⟨q0, hq0, he⟩ := List.mem_map.mp hm
    exact he ▸ hsub q0 hq0

/-- The state after the two shared mutations of a `createRelsToAdd` fill:
push the child onto the spouse's children and point the child's open parent
slot at the spouse. -/
def fillState (lst1 : List Person) (si ci : Nat) (sid cid : String)
    (is_father : Bool) : List Person :=
  modifyPerson (modifyPerson lst1 si (fun q =>
      { q with rels := { q.rels with children := q.rels.children ++ [cid] } })) ci
    (fun q => { q with rels := setPSlot (!is_father) (some sid) q.rels })

theorem fillTail_establish
    (dataIds : List String) (gen : Nat → String) (c : Nat)
    (lst lst1 : List Person) (cnt1 : Nat) (si ci : Nat) (sid : String)
    (child1 d : Person) (is_father : Bool) (cid : String)
    (hInv1 : Inv dataIds gen c lst1 cnt1)
    (hsp1 : ∃ spq, lst1[si]? = some spq ∧ spq.id = sid ∧ sid ≠ "")
    (hchild1 : lst1[ci]? = some child1)
    (hslot : getPSlot is_father child1.rels = some d.id)
    (hdid : d.id ≠ "")
    (hsid : sid ≠ "")
    (hcid : child1.id = cid)
    (hisf : is_father = decide (d.data.gender = some "M"))
    (hfind1 : findPersonIdx lst1 cid = some ci)
    (hmono1 : ∀ pid g cid0, satP lst pid g cid0 → satP lst1 pid g cid0)
    (hj1 : ∀ j d0', lst1[j]? = some d0' →
      (∃ d0, lst[j]? = some d0 ∧ d0'.id = d0.id ∧ d0'.data.gender = d0.data.gender ∧
        d0'.rels.children = d0.rels.children) ∨
      (lst.length ≤ j ∧ d0'.rels.children = []))
    (hlen1 : lst.length ≤ lst1.length) :
    Inv dataIds gen c (fillState lst1 si ci sid cid is_father) cnt1 ∧
    SpOk (fillState lst1 si ci sid cid is_father) (some (si, sid)) ∧
    (∀ pid g cid0, satP lst pid g cid0 →
      satP (fillState lst1 si ci sid cid is_father) pid g cid0) ∧
    satP (fillState lst1 si ci sid cid is_father) d.id d.data.gender cid ∧
    (∀ j d0', (fillState lst1 si ci sid cid is_father)[j]? = some d0' →
      (∃ d0, lst[j]? = some d0 ∧ d0'.id = d0.id ∧ d0'.data.gender = d0.data.gender ∧
        ∀ cid0 ∈ d0'.rels.children, cid0 ∈ d0.rels.children ∨
          satP (fillState lst1 si ci sid cid is_father) d0'.id d0'.data.gender cid0) ∨
      (lst.length ≤ j ∧ ∀ cid0 ∈ d0'.rels.children,
        satP (fillState lst1 si ci sid cid is_father) d0'.id d0'.data.gender cid0)) ∧
    lst.length ≤ (fillState lst1 si ci sid cid is_father).length := by
  have hids3 : (fillState lst1 si ci sid cid is_father).map Person.id =
      lst1.map Person.id := by
    unfold fillState
    rw [modifyPerson_map Person.id _ ci
        (fun q => { q with rels := setPSlot (!is_father) (some sid) q.rels })
        (fun q => rfl),
      modifyPerson_map Person.id lst1 si
        (fun q => { q with rels := { q.rels with children := q.rels.children ++ [cid] } })
        (fun q => rfl)]
  have hInv3 : Inv dataIds gen c (fillState lst1 si ci sid cid is_father) cnt1 :=
    Inv_of_ids hids3 hInv1
  have hchild2 : ∃ c2, (modifyPerson lst1 si (fun q =>
      { q with rels := { q.rels with children := q.rels.children ++ [cid] } }))[ci]? =
        some c2 ∧ (∀ b, getPSlot b c2.rels = getPSlot b child1.rels) ∧
        c2.id = child1.id := by
    rw [modifyPerson_getElem?]
    by_cases h : si = ci
    · rw [if_pos h, hchild1, Option.map_some']
      exact ⟨_, rfl, fun b => by cases b <;> rfl, rfl⟩
    · rw [if_neg h]
      exact ⟨child1, hchild1, fun b => rfl, rfl⟩
  obtain ⟨c2, hc2, hc2slots, hc2id⟩ := hchild2
  have hchild3 : (fillState lst1 si ci sid cid is_father)[ci]? =
      some { c2 with rels := setPSlot (!is_father) (some sid) c2.rels } := by
    unfold fillState
    rw [modifyPerson_getElem?, if_pos rfl, hc2, Option.map_some']
  have hslot3a : getPSlot (!is_father)
      ({ c2 with rels := setPSlot (!is_father) (some sid) c2.rels } : Person).rels =
        some sid := getPSlot_set_same (!is_father) (some sid) c2.rels
  have hslot3b : getPSlot is_father
      ({ c2 with rels := setPSlot (!is_father) (some sid) c2.rels } : Person).rels =
        some d.id := by
    show getPSlot is_father (setPSlot (!is_father) (some sid) c2.rels) = some d.id
    rw [getPSlot_set_other, hc2slots, hslot]
  have hboth : truthy ({ c2 with rels := setPSlot (!is_father) (some sid) c2.rels } :
      Person).rels.father ∧
      truthy ({ c2 with rels := setPSlot (!is_father) (some sid) c2.rels } :
        Person).rels.mother := by
    cases hif : is_father
    · rw [hif] at hslot3a hslot3b
      constructor
      · show truthy (getPSlot true (setPSlot (!false) (some sid) c2.rels))
        rw [show (!false) = true from rfl] at hslot3a ⊢
        rw [show getPSlot true (setPSlot true (some sid) c2.rels) = some sid from hslot3a]
        unfold truthy
        simpa using hsid
      · show truthy (getPSlot false (setPSlot (!false) (some sid) c2.rels))
        rw [show getPSlot false (setPSlot (!false) (some sid) c2.rels) = some d.id from
          hslot3b]
        unfold truthy
        simpa using hdid
    · rw [hif] at hslot3a hslot3b
      constructor
      · show truthy (getPSlot true (setPSlot (!true) (some sid) c2.rels))
        rw [show getPSlot true (setPSlot (!true) (some sid) c2.rels) = some d.id from
          hslot3b]
        unfold truthy
        simpa using hdid
      · show truthy (getPSlot false (setPSlot (!true) (some sid) c2.rels))
        rw [show getPSlot false (setPSlot (!true) (some sid) c2.rels) = some sid from
          hslot3a]
        unfold truthy
        simpa using hsid
  have hsatAll : ∀ (pid : String) (g : Option String),
      satP (fillState lst1 si ci sid cid is_father) pid g cid := by
    intro pid g
    have h := satP_of_both hInv3.2.1 hchild3 hboth.1 hboth.2 pid g
    rw [show ({ c2 with rels := setPSlot (!is_father) (some sid) c2.rels } :
      Person).id = cid from hc2id.trans hcid] at h
    exact h
  have hmono3 : ∀ pid g cid0, satP lst1 pid g cid0 →
      satP (fillState lst1 si ci sid cid is_father) pid g cid0 := by
    intro pid g cid0 h
    unfold fillState
    refine satP_modify_set hc2 ?_ hsid ?_
    · rw [hc2slots, hslot]
      unfold truthy
      simpa using hdid
    · exact satP_modify_keepSlots (fun q => rfl) (fun q b => by cases b <;> rfl) h
  refine ⟨hInv3, ?_, ?_, ?_, ?_, ?_⟩
  · -- SpOk
    obtain ⟨spq, hspq, hspqid, _⟩ := hsp1
    unfold fillState
    rw [show SpOk (modifyPerson (modifyPerson lst1 si _) ci _) (some (si, sid)) =
      ∃ spq2, (modifyPerson (modifyPerson lst1 si _) ci _)[si]? = some spq2 ∧
        spq2.id = sid ∧ sid ≠ "" from rfl]
    rw [modifyPerson_getElem?, modifyPerson_getElem?, if_pos rfl, hspq, Option.map_some']
    by_cases h : ci = si
    · rw [if_pos h, Option.map_some']
      exact ⟨_, rfl, hspqid, hsid⟩
    · rw [if_neg h]
      exact ⟨_, rfl, hspqid, hsid⟩
  · exact fun pid g cid0 h => hmono3 pid g cid0 (hmono1 pid g cid0 h)
  · exact hsatAll d.id d.data.gender
  · -- the per-index children clause
    intro j d0' hj
    have hstep : ∃ d1, lst1[j]? = some d1 ∧ d0'.id = d1.id ∧
        d0'.data.gender = d1.data.gender ∧
        (d0'.rels.children = d1.rels.children ∨
          d0'.rels.children = d1.rels.children ++ [cid]) := by
      unfold fillState at hj
      rw [modifyPerson_getElem?, modifyPerson_getElem?] at hj
      by_cases hcij : ci = j
      · rw [if_pos hcij] at hj
        by_cases hsij : si = j
        · rw [if_pos hsij] at hj
          cases h1 : lst1[j]? with
          | none =>
            rw [h1] at hj
            exact absurd hj (by simp)
          | some d1 =>
            rw [h1] at hj
            simp only [Option.map_some'] at hj
            obtain rfl := (Option.some.inj hj).symm
            exact ⟨d1, rfl, rfl, rfl, Or.inr (by rw [setPSlot_children])⟩
        · rw [if_neg hsij] at hj
          cases h1 : lst1[j]? with
          | none =>
            rw [h1] at hj
            exact absurd hj (by simp)
          | some d1 =>
            rw [h1] at hj
            simp only [Option.map_some'] at hj
            obtain rfl := (Option.some.inj hj).symm
            exact ⟨d1, rfl, rfl, rfl, Or.inl (by rw [setPSlot_children])⟩
      · rw [if_neg hcij] at hj
        by_cases hsij : si = j
        · rw [if_pos hsij] at hj
          cases h1 : lst1[j]? with
          | none =>
            rw [h1] at hj
            exact absurd hj (by simp)
          | some d1 =>
            rw [h1] at hj
            simp only [Option.map_some'] at hj
            obtain rfl := (Option.some.inj hj).symm
            exact ⟨d1, rfl, rfl, rfl, Or.inr rfl⟩
        · rw [if_neg hsij] at hj
          exact ⟨d0', hj, rfl, rfl, Or.inl rfl⟩
    obtain ⟨d1, hd1, hid1, hg1, hch1⟩ := hstep
    rcases hj1 j d1 hd1 with ⟨d0, hd0, hid0, hg0, hch0⟩ | ⟨hjlen, hch0⟩
    · left
      refine ⟨d0, hd0, hid1.trans hid0, hg1.trans hg0, ?_⟩
      intro cid0 hcid0
      rcases hch1 with he | he
      · left
        rw [he, hch0] at hcid0
        exact hcid0
      · rw [he] at hcid0
        rcases List.mem_append.mp hcid0 with hm | hm
        · left
          rw [hch0] at hm
          exact hm
        · right
          rw [List.mem_singleton] at hm
          rw [hm]
          exact hsatAll d0'.id d0'.data.gender
    · right
      refine ⟨hjlen, ?_⟩
      intro cid0 hcid0
      rcases hch1 with he | he
      · rw [he, hch0] at hcid0
        exact absurd hcid0 (List.not_mem_nil cid0)
      · rw [he, hch0, List.nil_append, List.mem_singleton] at hcid0
        rw [hcid0]
        exact hsatAll d0'.id d0'.data.gender
  · unfold fillState
    rw [modifyPerson_length, modifyPerson_length]
    exact hlen1

theorem processChild_establish
    (dataIds : List String) (gen : Nat → String) (c n0 di : Nat) (is_father : Bool)
    (lst : List Person) (cnt : Nat) (sp? : Option (Nat × String)) (cid : String)
    (lst' : List Person) (cnt' : Nat) (sp?' : Option (Nat × String))
    (d : Person)
    (hGen : GenOk dataIds gen)
    (hInv : Inv dataIds gen c lst cnt)
    (hSp : SpOk lst sp?)
    (hd : lst[di]? = some d)
    (hisf : is_father = decide (d.data.gender = some "M"))
    (hn0 : n0 ≤ lst.length)
    (hpc : processChild n0 gen di is_father (lst, cnt, sp?) cid =
      some (lst', cnt', sp?')) :
    Inv dataIds gen c lst' cnt' ∧ SpOk lst' sp?' ∧
    (∀ pid g cid0, satP lst pid g cid0 → satP lst' pid g cid0) ∧
    satP lst' d.id d.data.gender cid ∧
    (∀ j d0', lst'[j]? = some d0' →
      (∃ d0, lst[j]? = some d0 ∧ d0'.id = d0.id ∧ d0'.data.gender = d0.data.gender ∧
        ∀ cid0 ∈ d0'.rels.children,
          cid0 ∈ d0.rels.children ∨ satP lst' d0'.id d0'.data.gender cid0) ∨
      (lst.length ≤ j ∧ ∀ cid0 ∈ d0'.rels.children,
        satP lst' d0'.id d0'.data.gender cid0)) ∧
    lst.length ≤ lst'.length := by
  have hdid : d.id ≠ "" := hInv.1 d (List.getElem?_mem hd)
  unfold processChild at hpc
  simp only [hd] at hpc
  cases hfi : findIdxIn n0 lst cid with
  | none =>
    rw [hfi] at hpc
    exact absurd hpc (by simp)
  | some ci =>
    rw [hfi] at hpc
    simp only [] at hpc
    cases hci : lst[ci]? with
    | none =>
      rw [hci] at hpc
      exact absurd hpc (by simp)
    | some child =>
      rw [hci] at hpc
      simp only [] at hpc
      have hfull : findPersonIdx lst cid = some ci := findPersonIdx_of_prefix hfi
      have hchid : child.id = cid := by
        obtain ⟨a, ha, hpa⟩ := findIdx?_some_pred _ (lst.take n0) ci hfi
        have hlt : ci < n0 := by
          have := lt_of_getElem?_eq_some ha
          have := List.length_take_le n0 lst
          omega
        rw [List.getElem?_take, if_pos hlt, hci] at ha
        obtain rfl := Option.some.inj ha
        exact of_decide_eq_true hpa
      by_cases hg1 : getPSlot is_father child.rels ≠ some d.id
      · rw [if_pos hg1] at hpc
        obtain ⟨rfl, rfl, rfl⟩ : lst = lst' ∧ cnt = cnt' ∧ sp? = sp?' := by
          have h := Option.some.inj hpc
          exact ⟨congrArg Prod.fst h, congrArg (fun x => x.2.1) h,
            congrArg (fun x => x.2.2) h⟩
        refine ⟨hInv, hSp, fun _ _ _ h => h, ?_, ?_, le_refl _⟩
        · refine ⟨ci, child, hfull, hci, ?_⟩
          intro hprem
          rw [← hisf] at hprem
          exact absurd hprem hg1
        · intro j d0' hj
          exact Or.inl ⟨d0', hj, rfl, rfl, fun cid0 hc => Or.inl hc⟩
      · rw [if_neg hg1] at hpc
        have heq : getPSlot is_father child.rels = some d.id := not_not.mp hg1
        by_cases hg2 : truthy (getPSlot (!is_father) child.rels)
        · rw [if_pos hg2] at hpc
          obtain ⟨rfl, rfl, rfl⟩ : lst = lst' ∧ cnt = cnt' ∧ sp? = sp?' := by
            have h := Option.some.inj hpc
            exact ⟨congrArg Prod.fst h, congrArg (fun x => x.2.1) h,
              congrArg (fun x => x.2.2) h⟩
          refine ⟨hInv, hSp, fun _ _ _ h => h, ?_, ?_, le_refl _⟩
          · refine ⟨ci, child, hfull, hci, ?_⟩
            intro _
            rw [← hisf]
            exact hg2
          · intro j d0' hj
            exact Or.inl ⟨d0', hj, rfl, rfl, fun cid0 hc => Or.inl hc⟩
        · rw [if_neg hg2] at hpc
          -- the fill path; three ways to acquire the spouse
          have htail : ∀ (si : Nat) (sid : String) (lst1 : List Person) (cnt1 : Nat),
              Inv dataIds gen c lst1 cnt1 →
              (∃ spq, lst1[si]? = some spq ∧ spq.id = sid ∧ sid ≠ "") →
              (∃ child1, lst1[ci]? = some child1 ∧
                (∀ b, getPSlot b child1.rels = getPSlot b child.rels) ∧
                child1.id = child.id) →
              (∀ pid g cid0, satP lst pid g cid0 → satP lst1 pid g cid0) →
              (∀ j d0', lst1[j]? = some d0' →
                (∃ d0, lst[j]? = some d0 ∧ d0'.id = d0.id ∧
                  d0'.data.gender = d0.data.gender ∧
                  d0'.rels.children = d0.rels.children) ∨
                (lst.length ≤ j ∧ d0'.rels.children = [])) →
              lst.length ≤ lst1.length →
              findPersonIdx lst1 cid = some ci →
              Inv dataIds gen c (fillState lst1 si ci sid child.id is_father) cnt1 ∧
              SpOk (fillState lst1 si ci sid child.id is_father) (some (si, sid)) ∧
              (∀ pid g cid0, satP lst pid g cid0 →
                satP (fillState lst1 si ci sid child.id is_father) pid g cid0) ∧
              satP (fillState lst1 si ci sid child.id is_father) d.id d.data.gender cid ∧
              (∀ j d0', (fillState lst1 si ci sid child.id is_father)[j]? = some d0' →
                (∃ d0, lst[j]? = some d0 ∧ d0'.id = d0.id ∧
                  d0'.data.gender = d0.data.gender ∧
                  ∀ cid0 ∈ d0'.rels.children, cid0 ∈ d0.rels.children ∨
                    satP (fillState lst1 si ci sid child.id is_father)
                      d0'.id d0'.data.gender cid0) ∨
                (lst.length ≤ j ∧ ∀ cid0 ∈ d0'.rels.children,
                  satP (fillState lst1 si ci sid child.id is_father)
                    d0'.id d0'.data.gender cid0)) ∧
              lst.length ≤ (fillState lst1 si ci sid child.id is_father).length := by
            intro si sid lst1 cnt1 hInv1 hsp1 hch1 hmono1 hj1 hlen1 hfind1
            obtain ⟨child1, hchild1, hslots1, hid1⟩ := hch1
            have hres := fillTail_establish dataIds gen c lst lst1 cnt1 si ci sid
              child1 d is_father child.id hInv1 hsp1 hchild1
              (by rw [hslots1 is_father]; exact heq) hdid hsp1.choose_spec.2.2
              hid1 hisf (by rw [hchid]; exact hfind1)
              hmono1 hj1 hlen1
            rw [show child.id = cid from hchid] at hres ⊢
            exact hres
          cases hsp0 : sp? with
          | some sc =>
            obtain ⟨si, sid⟩ := sc
            rw [hsp0] at hSp hpc
            simp only [] at hpc
            obtain ⟨spq, hspq, hspqid, hsidne⟩ := hSp
            have h := Option.some.inj hpc
            have h1 : fillState lst si ci sid child.id is_father = lst' :=
              congrArg Prod.fst h
            have h2 : cnt = cnt' := congrArg (fun x => x.2.1) h
            have h3 : (some (si, sid) : Option (Nat × String)) = sp?' :=
              congrArg (fun x => x.2.2) h
            rw [← h1, ← h2, ← h3]
            exact htail si sid lst cnt hInv ⟨spq, hspq, hspqid, hsidne⟩
              ⟨child, hci, fun b => rfl, rfl⟩ (fun _ _ _ hh => hh)
              (fun j d0' hj => Or.inl ⟨d0', hj, rfl, rfl, rfl⟩) (le_refl _) hfull
          | none =>
            rw [hsp0] at hSp hpc
            simp only [] at hpc
            cases hft : findToAdd n0 lst d.rels.spouses with
            | none =>
              rw [hft] at hpc
              exact absurd hpc (by simp)
            | some os =>
              rw [hft] at hpc
              cases os with
              | some j =>
                simp only [] at hpc
                cases hj : lst[j]? with
                | none =>
                  rw [hj] at hpc
                  exact absurd hpc (by simp)
                | some spq =>
                  rw [hj] at hpc
                  simp only [] at hpc
                  have h := Option.some.inj hpc
                  have h1 : fillState lst j ci spq.id child.id is_father = lst' :=
                    congrArg Prod.fst h
                  have h2 : cnt = cnt' := congrArg (fun x => x.2.1) h
                  have h3 : (some (j, spq.id) : Option (Nat × String)) = sp?' :=
                    congrArg (fun x => x.2.2) h
                  rw [← h1, ← h2, ← h3]
                  exact htail j spq.id lst cnt hInv
                    ⟨spq, hj, rfl, hInv.1 spq (List.getElem?_mem hj)⟩
                    ⟨child, hci, fun b => rfl, rfl⟩ (fun _ _ _ hh => hh)
                    (fun j0 d0' hj0 => Or.inl ⟨d0', hj0, rfl, rfl, rfl⟩)
                    (le_refl _) hfull
              | none =>
                simp only [] at hpc
                have h := Option.some.inj hpc
                have h1 : fillState
                    (modifyPerson (lst ++ [({ id := gen cnt, data := { gender := genderFlip d.data.gender }, rels := { spouses := [d.id], children := [] }, to_add := true } : Person)]) di
                      (fun q => { q with rels :=
                        { q.rels with spouses := q.rels.spouses ++ [gen cnt] } }))
                    lst.length ci (gen cnt) child.id is_father = lst' :=
                  congrArg Prod.fst h
                have h2 : cnt + 1 = cnt' := congrArg (fun x => x.2.1) h
                have h3 : (some (lst.length, gen cnt) : Option (Nat × String)) = sp?' :=
                  congrArg (fun x => x.2.2) h
                rw [← h1, ← h2, ← h3]
                -- facts about the appended-and-linked state
                have hdi : di < lst.length := lt_of_getElem?_eq_some hd
                have hcilt : ci < lst.length := lt_of_getElem?_eq_some hci
                have hfreshid : gen cnt ∉ lst.map Person.id := by
                  intro hmem
                  obtain ⟨q, hq, he⟩ := List.mem_map.mp hmem
                  rcases hInv.2.2.1 q hq with hq1 | ⟨k, hk1, hk2, hk3⟩
                  · exact hGen.2.2 cnt (he ▸ hq1)
                  · have : cnt = k := hGen.2.1 cnt k (he ▸ hk3.symm ▸ rfl)
                    omega
                have hids1 : (modifyPerson (lst ++ [({ id := gen cnt, data := { gender := genderFlip d.data.gender }, rels := { spouses := [d.id], children := [] }, to_add := true } : Person)]) di
                      (fun q => { q with rels :=
                        { q.rels with spouses := q.rels.spouses ++ [gen cnt] } })).map
                      Person.id = lst.map Person.id ++ [gen cnt] := by
                  rw [modifyPerson_map Person.id _ di
                    (fun q => { q with rels :=
                      { q.rels with spouses := q.rels.spouses ++ [gen cnt] } })
                    (fun q => rfl), List.map_append]
                  rfl
                have hInv1 : Inv dataIds gen c (modifyPerson (lst ++ [({ id := gen cnt, data := { gender := genderFlip d.data.gender }, rels := { spouses := [d.id], children := [] }, to_add := true } : Person)]) di
                      (fun q => { q with rels :=
                        { q.rels with spouses := q.rels.spouses ++ [gen cnt] } }))
                    (cnt + 1) := by
                  refine ⟨?_, ?_, ?_, by have hcc := hInv.2.2.2; omega⟩
                  · intro q hq
                    have : q.id ∈ lst.map Person.id ++ [gen cnt] := by
                      rw [← hids1]
                      exact List.mem_map_of_mem Person.id hq
                    rcases List.mem_append.mp this with hm | hm
                    · obtain ⟨q0, hq0, he⟩ := List.mem_map.mp hm
                      exact he ▸ hInv.1 q0 hq0
                    · rw [List.mem_singleton] at hm
                      rw [hm]
                      exact hGen.1 cnt
                  · rw [hids1]
                    rw [List.nodup_append]
                    exact ⟨hInv.2.1, List.nodup_singleton _,
                      fun a ha hb => hfreshid ((List.mem_singleton.mp hb) ▸ ha)⟩
                  · intro q hq
                    have : q.id ∈ lst.map Person.id ++ [gen cnt] := by
                      rw [← hids1]
                      exact List.mem_map_of_mem Person.id hq
                    rcases List.mem_append.mp this with hm | hm
                    · obtain ⟨q0, hq0, he⟩ := List.mem_map.mp hm
                      rcases hInv.2.2.1 q0 hq0 with hs | ⟨k, hk1, hk2, hk3⟩
                      · exact Or.inl (he ▸ hs)
                      · exact Or.inr ⟨k, hk1, by omega, he ▸ hk3⟩
                    · rw [List.mem_singleton] at hm
                      exact Or.inr ⟨cnt, hInv.2.2.2, by omega, hm⟩
                apply htail lst.length (gen cnt) _ (cnt + 1) hInv1
                · -- the appended spouse sits at index lst.length and owns its id
                  refine ⟨({ id := gen cnt, data := { gender := genderFlip d.data.gender }, rels := { spouses := [d.id], children := [] }, to_add := true } : Person), ?_, rfl, hGen.1 cnt⟩
                  rw [modifyPerson_getElem?, if_neg (by omega)]
                  rw [List.getElem?_append_right (le_refl _), Nat.sub_self]
                  rfl
                · -- the child is still at `ci` with its slots intact
                  rw [modifyPerson_getElem?]
                  by_cases hdici : di = ci
                  · rw [if_pos hdici, List.getElem?_append, if_pos hcilt, hci,
                      Option.map_some']
                    exact ⟨_, rfl, fun b => by cases b <;> rfl, rfl⟩
                  · rw [if_neg hdici, List.getElem?_append, if_pos hcilt, hci]
                    exact ⟨child, rfl, fun b => rfl, rfl⟩
                · -- satP is preserved by append + spouses push
                  intro pid g cid0 hh
                  exact satP_modify_keepSlots (fun q => rfl)
                    (fun q b => by cases b <;> rfl) (satP_append _ hh)
                · -- children lists are unchanged; the new index is empty
                  intro j0 d0' hj0
                  rw [modifyPerson_getElem?] at hj0
                  by_cases hdij : di = j0
                  · rw [if_pos hdij, List.getElem?_append, if_pos (hdij ▸ hdi)] at hj0
                    cases hl : lst[j0]? with
                    | none =>
                      rw [hl] at hj0
                      exact absurd hj0 (by simp)
                    | some d0 =>
                      rw [hl] at hj0
                      simp only [Option.map_some'] at hj0
                      obtain rfl := (Option.some.inj hj0).symm
                      exact Or.inl ⟨d0, rfl, rfl, rfl, rfl⟩
                  · rw [if_neg hdij, List.getElem?_append] at hj0
                    by_cases hjlt : j0 < lst.length
                    · rw [if_pos hjlt] at hj0
                      exact Or.inl ⟨d0', hj0, rfl, rfl, rfl⟩
                    · rw [if_neg hjlt] at hj0
                      right
                      refine ⟨by omega, ?_⟩
                      have : d0'.rels.children = [] := by
                        rcases Nat.lt_or_ge (j0 - lst.length) 1 with hlt | hge
                        · have hz : j0 - lst.length = 0 := by omega
                          rw [hz] at hj0
                          obtain rfl := (Option.some.inj hj0).symm
                          rfl
                        · rw [List.getElem?_eq_none_iff.mpr (by simp; omega)] at hj0
                          exact absurd hj0 (by simp)
                      rw [this]
                · rw [modifyPerson_length, List.length_append]
                  simp
                · -- the child id still resolves to `ci`
                  rw [findPersonIdx_modify _ di
                    (fun q => { q with rels :=
                      { q.rels with spouses := q.rels.spouses ++ [gen cnt] } })
                    cid (fun q => rfl)]
                  unfold findPersonIdx
                  exact findIdx?_append_left _ _ _ _ hfull

theorem childrenLoop_establish
    (dataIds : List String) (gen : Nat → String) (c n0 di : Nat) (is_father : Bool)
    (hGen : GenOk dataIds gen) :
    ∀ (cids : List String) (lst : List Person) (cnt : Nat) (sp? : Option (Nat × String))
      (out : List Person) (cnt' : Nat) (sp?' : Option (Nat × String))
      (dId : String) (dG : Option String),
      Inv dataIds gen c lst cnt →
      SpOk lst sp? →
      (∃ d, lst[di]? = some d ∧ d.id = dId ∧ d.data.gender = dG ∧
        is_father = decide (dG = some "M")) →
      n0 ≤ lst.length →
      childrenLoop n0 gen di is_father cids (lst, cnt, sp?) = some (out, cnt', sp?') →
      Inv dataIds gen c out cnt' ∧
      (∀ pid g cid0, satP lst pid g cid0 → satP out pid g cid0) ∧
      (∀ cid ∈ cids, satP out dId dG cid) ∧
      (∀ j d0', out[j]? = some d0' →
        (∃ d0, lst[j]? = some d0 ∧ d0'.id = d0.id ∧ d0'.data.gender = d0.data.gender ∧
          ∀ cid0 ∈ d0'.rels.children, cid0 ∈ d0.rels.children ∨
            satP out d0'.id d0'.data.gender cid0) ∨
        (lst.length ≤ j ∧ ∀ cid0 ∈ d0'.rels.children,
          satP out d0'.id d0'.data.gender cid0)) ∧
      lst.length ≤ out.length := by
  intro cids
  induction cids with
  | nil =>
    intro lst cnt sp? out cnt' sp?' dId dG hInv hSp hdfact hn0 hcl
    rw [childrenLoop] at hcl
    have h := Option.some.inj hcl
    obtain ⟨rfl, rfl, rfl⟩ : lst = out ∧ cnt = cnt' ∧ sp? = sp?' :=
      ⟨congrArg Prod.fst h, congrArg (fun x => x.2.1) h, congrArg (fun x => x.2.2) h⟩
    refine ⟨hInv, fun _ _ _ hh => hh, fun cid hc => absurd hc (List.not_mem_nil cid),
      ?_, le_refl _⟩
    intro j d0' hj
    exact Or.inl ⟨d0', hj, rfl, rfl, fun cid0 hc => Or.inl hc⟩
  | cons cid rest ih =>
    intro lst cnt sp? out cnt' sp?' dId dG hInv hSp hdfact hn0 hcl
    rw [childrenLoop] at hcl
    cases hpc : processChild n0 gen di is_father (lst, cnt, sp?) cid with
    | none =>
      rw [hpc] at hcl
      exact absurd hcl (by simp)
    | some st1 =>
      rw [hpc] at hcl
      obtain ⟨lst1, cnt1, sp1⟩ := st1
      obtain ⟨d, hd, hdid, hdg, hisf⟩ := hdfact
      have hpce := processChild_establish dataIds gen c n0 di is_father lst cnt sp? cid
        lst1 cnt1 sp1 d hGen hInv hSp hd (by rw [hdg]; exact hisf) hn0 hpc
      obtain ⟨hInv1, hSp1, hmono1, hsat1, hjcl1, hlen1⟩ := hpce
      -- the parent is still at `di` with the same id and gender
      have hd1 : ∃ d1, lst1[di]? = some d1 ∧ d1.id = dId ∧ d1.data.gender = dG := by
        have hdi : di < lst1.length := by
          have := lt_of_getElem?_eq_some hd
          omega
        have hsome : lst1[di]? = some lst1[di] := List.getElem?_eq_getElem hdi
        rcases hjcl1 di lst1[di] hsome with ⟨d0, hd0, hid, hg, _⟩ | ⟨hge, _⟩
        · rw [hd] at hd0
          obtain rfl := Option.some.inj hd0
          exact ⟨lst1[di], hsome, hid.trans hdid, hg.trans hdg⟩
        · have := lt_of_getElem?_eq_some hd
          omega
      obtain ⟨d1, hd1some, hd1id, hd1g⟩ := hd1
      have hres := ih lst1 cnt1 sp1 out cnt' sp?' dId dG hInv1 hSp1
        ⟨d1, hd1some, hd1id, hd1g, hisf⟩ (by omega) hcl
      obtain ⟨hInvO, hmonoO, hsatO, hjclO, hlenO⟩ := hres
      refine ⟨hInvO, ?_, ?_, ?_, by omega⟩
      · exact fun pid g cid0 hh => hmonoO pid g cid0 (hmono1 pid g cid0 hh)
      · intro cid0 hc
        rcases List.mem_cons.mp hc with hc0 | hc0
        · rw [hc0]
          have := hmonoO d.id d.data.gender cid (hsat1)
          rw [hdid, hdg] at this
          exact this
        · exact hsatO cid0 hc0
      · intro j d0' hj
        rcases hjclO j d0' hj with ⟨d1j, hd1j, hid1, hg1, hch1⟩ | ⟨hge1, hch1⟩
        · rcases hjcl1 j d1j hd1j with ⟨d0, hd0, hid0, hg0, hch0⟩ | ⟨hge0, hch0⟩
          · left
            refine ⟨d0, hd0, hid1.trans hid0, hg1.trans hg0, ?_⟩
            intro cid0 hcid0
            rcases hch1 cid0 hcid0 with hm | hm
            · rcases hch0 cid0 hm with hm0 | hm0
              · exact Or.inl hm0
              · right
                have := hmonoO d1j.id d1j.data.gender cid0 hm0
                rw [← hid1, ← hg1] at this
                exact this
            · exact Or.inr hm
          · right
            refine ⟨hge0, ?_⟩
            intro cid0 hcid0
            rcases hch1 cid0 hcid0 with hm | hm
            · have := hmonoO d1j.id d1j.data.gender cid0 (hch0 cid0 hm)
              rw [← hid1, ← hg1] at this
              exact this
            · exact hm
        · right
          refine ⟨by omega, hch1⟩

theorem parentLoop_establish
    (dataIds : List String) (gen : Nat → String) (c n0 : Nat)
    (hGen : GenOk dataIds gen) :
    ∀ (n i : Nat) (lst : List Person) (cnt : Nat) (out : List Person) (cnt' : Nat),
      Inv dataIds gen c lst cnt →
      n0 ≤ lst.length →
      i + n = n0 →
      (∀ j d0, (j < i ∨ n0 ≤ j) → lst[j]? = some d0 →
        ∀ cid ∈ d0.rels.children, satP lst d0.id d0.data.gender cid) →
      parentLoop n0 gen n i (lst, cnt) = some (out, cnt') →
      saturated out := by
  intro n
  induction n with
  | zero =>
    intro i lst cnt out cnt' hInv hn0 hi hSAT hpl
    rw [parentLoop] at hpl
    have h := Option.some.inj hpl
    obtain ⟨rfl, rfl⟩ : lst = out ∧ cnt = cnt' :=
      ⟨congrArg Prod.fst h, congrArg Prod.snd h⟩
    intro d0 hd0 cid hcid
    obtain ⟨j, hj⟩ := List.getElem?_of_mem hd0
    exact hSAT j d0 (by omega) hj cid hcid
  | succ m ih =>
    intro i lst cnt out cnt' hInv hn0 hi hSAT hpl
    rw [parentLoop] at hpl
    have hilt : i < lst.length := by omega
    have hd : lst[i]? = some lst[i] := List.getElem?_eq_getElem hilt
    rw [hd] at hpl
    simp only [] at hpl
    by_cases hemp : lst[i].rels.children.isEmpty
    · rw [if_pos hemp] at hpl
      refine ih (i + 1) lst cnt out cnt' hInv hn0 (by omega) ?_ hpl
      intro j d0 hj hd0 cid hcid
      rcases hj with hj | hj
      · rcases Nat.lt_or_ge j i with hji | hji
        · exact hSAT j d0 (Or.inl hji) hd0 cid hcid
        · have hji2 : j = i := by omega
          rw [hji2, hd] at hd0
          obtain rfl := Option.some.inj hd0
          rw [List.isEmpty_iff] at hemp
          rw [hemp] at hcid
          exact absurd hcid (List.not_mem_nil cid)
      · exact hSAT j d0 (Or.inr hj) hd0 cid hcid
    · rw [if_neg hemp] at hpl
      cases hcl : childrenLoop n0 gen i (decide (lst[i].data.gender = some "M"))
          lst[i].rels.children (lst, cnt, none) with
      | none =>
        rw [hcl] at hpl
        exact absurd hpl (by simp)
      | some st1 =>
        rw [hcl] at hpl
        obtain ⟨lst1, cnt1, sp1⟩ := st1
        have hce := childrenLoop_establish dataIds gen c n0 i
          (decide (lst[i].data.gender = some "M")) hGen lst[i].rels.children
          lst cnt none lst1 cnt1 sp1 lst[i].id lst[i].data.gender hInv trivial
          ⟨lst[i], hd, rfl, rfl, rfl⟩ hn0 hcl
        obtain ⟨hInv1, hmono1, hsat1, hjcl1, hlen1⟩ := hce
        refine ih (i + 1) lst1 cnt1 out cnt' hInv1 (by omega) (by omega) ?_ hpl
        intro j d0 hj hd0 cid hcid
        rcases hjcl1 j d0 hd0 with ⟨dOld, hdOld, hid0, hg0, hch0⟩ | ⟨hge0, hch0⟩
        · rcases hch0 cid hcid with hm | hm
          · rcases hj with hj | hj
            · rcases Nat.lt_or_ge j i with hji | hji
              · have := hmono1 dOld.id dOld.data.gender cid
                  (hSAT j dOld (Or.inl hji) hdOld cid hm)
                rw [← hid0, ← hg0] at this
                exact this
              · have hji2 : j = i := by omega
                rw [hji2, hd] at hdOld
                obtain rfl := Option.some.inj hdOld
                have := hsat1 cid hm
                rw [← hid0, ← hg0] at this
                exact this
            · have := hmono1 dOld.id dOld.data.gender cid
                (hSAT j dOld (Or.inr hj) hdOld cid hm)
              rw [← hid0, ← hg0] at this
              exact this
          · exact hm
        · exact hch0 cid hcid

/-- C6: the synthetic augmentor is idempotent: when one run succeeds on a
well-formed graph (non-empty, pairwise distinct ids; fresh generated ids),
a second run — with any generator and counter — returns the resulting graph
unchanged, because after the first run every `(parent, child)` pair is
either skipped (the parent no longer owns the child's matching slot) or
complete (both parent slots of the child are filled). -/
theorem c6_createRelsToAdd (gen : Nat → String) (c : Nat) (data out : List Person)
    (c' : Nat)
    (hne : ∀ q ∈ data, q.id ≠ "")
    (hnd : (data.map Person.id).Nodup)
    (hg1 : ∀ n, gen n ≠ "")
    (hg2 : ∀ n m, gen n = gen m → n = m)
    (hg3 : ∀ n, gen n ∉ data.map Person.id)
    (hrun : createRelsToAdd gen c data = some (out, c'))
    (gen2 : Nat → String) (c2 : Nat) :
    createRelsToAdd gen2 c2 out = some (out, c2) := by
  have hsat : saturated out := by
    unfold createRelsToAdd at hrun
    refine parentLoop_establish (data.map Person.id) gen c data.length
      ⟨hg1, hg2, hg3⟩ data.length 0 data c out c'
      ⟨hne, hnd, fun q hq => Or.inl (List.mem_map_of_mem Person.id hq), le_refl c⟩
      (le_refl _) (by omega) ?_ hrun
    intro j d0 hj hd0 cid hcid
    rcases hj with hj | hj
    · omega
    · have := lt_of_getElem?_eq_some hd0
      omega
  exact createRelsToAdd_saturated out hsat gen2 c2

/-- C6 witness graph and generator: father `A` with child `B` lacking a
mother, fresh ids as runs of `x`. -/
def c6Gen : Nat → String := fun n => String.mk (List.replicate (n + 1) 'x')

def c6A : Person := { id := "A", data := { gender := some "M" }, rels := { children := ["B"] } }

def c6B : Person := { id := "B", rels := { father := some "A" } }

def c6Out : List Person :=
  [{ id := "A", data := { gender := some "M" },
     rels := { spouses := ["x"], children := ["B"] } },
   { id := "B", rels := { father := some "A", mother := some "x" } },
   { id := "x", data := { gender := some "F" },
     rels := { spouses := ["A"], children := ["B"] }, to_add := true }]

theorem c6_witness :
    createRelsToAdd (fun _ => "y") 7 c6Out = some (c6Out, 7) :=
  c6_createRelsToAdd c6Gen 0 [c6A, c6B] c6Out 1
    (by decide) (by decide)
    (by
      intro n h
      have h2 : List.replicate (n + 1) 'x' = ([] : List Char) := congrArg String.data h
      have h3 := congrArg List.length h2
      rw [List.length_replicate, List.length_nil] at h3
      exact absurd h3 (by omega))
    (by
      intro n m h
      have h2 : List.replicate (n + 1) 'x' = List.replicate (m + 1) 'x' :=
        congrArg String.data h
      have h3 := congrArg List.length h2
      rw [List.length_replicate, List.length_replicate] at h3
      omega)
    (by
      intro n hmem
      have hhead : (c6Gen n).data.head? = some 'x' := by
        show (List.replicate (n + 1) 'x').head? = some 'x'
        rw [List.replicate_succ]
        rfl
      have hmem' : c6Gen n ∈ (["A", "B"] : List String) := hmem
      rcases List.mem_cons.mp hmem' with h | h
      · rw [h] at hhead
        exact absurd hhead (by decide)
      · rw [List.mem_singleton] at h
        rw [h] at hhead
        exact absurd hhead (by decide))
    (by decide)
    (fun _ => "y") 7

/-! ### Layout engine: `CalculateTree` on the default configuration
(claims C8, C9) -/

/-- `data.find(d0 => (d0.id !== p1.id) && (d0.id === d.rels.mother || d0.id === d.rels.father))`. -/
def otherParent (d p1 : Person) (data : List Person) : Option Person :=
  data.find? (fun d0 => decide (d0.id ≠ p1.id) &&
    (decide (some d0.id = d.rels.mother) || decide (some d0.id = d.rels.father)))

/-- `Array.prototype.indexOf` on an optional key: `-1` for a missing key or
an absent entry. -/
def jsIndexOf (l : List String) (s : Option String) : Int :=
  match s with
  | none => -1
  | some v =>
    match l.findIdx? (fun x => x = v) with
    | some i => (i : Int)
    | none => -1

/-- The sort key of `sortChildrenWithSpouses`: the index of the child's
other parent among the parent's spouses. -/
def spouseOrderKey (datum : Person) (data : List Person) (a : Person) : Int :=
  jsIndexOf datum.rels.spouses ((otherParent a datum data).map Person.id)

/-- Stable insertion of an element behind every earlier element whose key is
not larger (the building block of a stable ascending sort). -/
def insertAsc (key : Person → Int) (a : Person) : List Person → List Person
  | [] => [a]
  | b :: rest => if key a < key b then a :: b :: rest else b :: insertAsc key a rest

/-- Stable ascending sort by an integer key — exactly what JS
`Array.prototype.sort` (stable since ES2019) produces for the numeric
comparator `(a, b) => key a - key b`. -/
def sortByKeyAsc (key : Person → Int) (l : List Person) : List Person :=
  l.foldl (fun acc a => insertAsc key a acc) []

/-- `sortChildrenWithSpouses(children, datum, data)`: stable sort of the
children by the spouse order of their other parent, ascending for male
parents and descending for female ones. -/
def sortChildrenWithSpouses (children : List Person) (datum : Person)
    (data : List Person) : List Person :=
  if datum.rels.children = [] then children
  else if datum.data.gender = some "M" then
    sortByKeyAsc (fun a => spouseOrderKey datum data a) children
  else
    sortByKeyAsc (fun a => -spouseOrderKey datum data a) children

/-- Resolve a list of ids against the stash; an unresolvable id is a crash
(the JS leaves `undefined` in the array, which throws in the subsequent
sorts or layout passes). -/
def resolveAll (stash : List Person) : List String → Option (List Person)
  | [] => some []
  | id :: rest =>
    match findPerson stash id, resolveAll stash rest with
    | some p, some l => some (p :: l)
    | _, _ => none

/-- `hierarchyGetterChildren` on the default configuration (no
`sortChildrenFunction`, no `sortSpousesFunction`; `sortAddNewChildren` is the
identity here because the transient `_new_rel_data` marker of the editing UI
never occurs in stored data, making its comparator constantly zero). -/
def hierarchyGetterChildren (stash : List Person) (d : Person) :
    Option (List Person) :=
  match resolveAll stash d.rels.children with
  | none => none
  | some children => some (sortChildrenWithSpouses children d stash)

/-- `hierarchyGetterParents`: `[father, mother]`, truthy ones only. -/
def hierarchyGetterParents (stash : List Person) (d : Person) :
    Option (List Person) :=
  resolveAll stash (([d.rels.father, d.rels.mother].filterMap id).filter (fun s => s ≠ ""))

/-- A `d3.hierarchy` node: the person and the child subtrees. -/
structure HTree where
  person : Person
  children : List HTree
deriving Repr

/-- `d3.hierarchy(datum, getter)`: unfold the getter; `fuel` bounds the
recursion depth (the JS stack overflows on a relation cycle). -/
def buildH (getter : Person → Option (List Person)) : Nat → Person → Option HTree
  | 0, _ => none
  | fuel + 1, p =>
    match getter p with
    | none => none
    | some kids =>
      match kids.foldr (fun k acc =>
          match acc, buildH getter fuel k with
          | some l, some t => some (t :: l)
          | _, _ => none) (some []) with
      | none => none
      | some ts => some ⟨p, ts⟩

/-- A positioned hierarchy node (one entry of `root.descendants()`, in
preorder): person, coordinates, depth, and the preorder index of the parent
node. -/
structure LNode where
  person : Person
  x : ℚ
  y : ℚ
  depth : Nat
  parentIdx : Option Nat
deriving Repr, DecidableEq

/-- Sequential layout of a sibling list (helper of `layoutGo`). -/
def layoutList (f : HTree → Nat → Option Nat → Nat → Option (SepNode × ℚ) →
      Option (List LNode × ℚ × Nat × Option (SepNode × ℚ))) :
    List HTree → Nat → Option Nat → Nat → Option (SepNode × ℚ) →
      Option (List LNode × List ℚ × Nat × Option (SepNode × ℚ))
  | [], _, _, nextId, prev => some ([], [], nextId, prev)
  | t :: rest, depth, parentId, nextId, prev =>
    match f t depth parentId nextId prev with
    | none => none
    | some (ns1, x1, nid1, prev1) =>
      match layoutList f rest depth parentId nid1 prev1 with
      | none => none
      | some (ns2, xs2, nid2, prev2) => some (ns1 ++ ns2, x1 :: xs2, nid2, prev2)

/-- Modelled from the spec: the tidy tree layout
(`d3.tree().nodeSize([node_separation, level_separation]).separation(...)`,
external to this bundle) gives every node `y = depth · level_separation`,
places adjacent leaves `separation(a,b) · node_separation` apart, centers
each parent over its first and last child, and positions the root at
`x = 0`.  Nodes are listed in preorder as `root.descendants()` does. -/
def layoutGo (ns ls : ℚ) (isAnc olr : Bool) :
    Nat → HTree → Nat → Option Nat → Nat → Option (SepNode × ℚ) →
      Option (List LNode × ℚ × Nat × Option (SepNode × ℚ))
  | 0, _, _, _, _, _ => none
  | fuel + 1, t, depth, parentId, nextId, prev =>
    match t.children with
    | [] =>
      let me : SepNode := { parentRef := parentId, rels := t.person.rels }
      let x : ℚ :=
        match prev with
        | none => 0
        | some (pv, pvx) => pvx + separation isAnc olr pv me * ns
      some ([{ person := t.person, x := x, y := ls * (depth : ℚ), depth := depth, parentIdx := parentId }], x, nextId + 1, some (me, x))
    | _ :: _ =>
      match layoutList (layoutGo ns ls isAnc olr fuel) t.children (depth + 1)
          (some nextId) (nextId + 1) prev with
      | none => none
      | some (lns, xs, nid, prev2) =>
        let myX := ((xs.headD 0) + (xs.getLast?.getD 0)) / 2
        some ({ person := t.person, x := myX, y := ls * (depth : ℚ), depth := depth, parentIdx := parentId } :: lns, myX, nid, prev2)

/-- Run the layout and shift every node so the root sits at `x = 0`. -/
def layoutTree (ns ls : ℚ) (isAnc olr : Bool) (fuel : Nat) (t : HTree) :
    Option (List LNode) :=
  match layoutGo ns ls isAnc olr fuel t 0 none 0 none with
  | none => none
  | some (lns, rootX, _, _) => some (lns.map (fun d => { d with x := d.x - rootX }))

/-- A merged layout node: the underlying person, coordinates, side flags and
(for the spouse pass) the `(sx, sy)` attach point and the tree-parent index
within the merged list. -/
structure MNode where
  person : Person
  x : ℚ
  y : ℚ
  sx : Option ℚ := none
  sy : Option ℚ := none
  depth : Nat
  parentIdx : Option Nat := none
  is_ancestry : Bool := false
  added : Bool := false
deriving Repr, DecidableEq

/-- `levelOutEachSide(parents, children)`: shift both rows by half the gap
between the two roots (both sides always contain their root). -/
def levelOutEachSide (parents children : List LNode) : List LNode × List LNode :=
  match parents, children with
  | p0 :: _, c0 :: _ =>
    let mid := (p0.x - c0.x) / 2
    (parents.map (fun d => { d with x := d.x - mid }),
     children.map (fun d => { d with x := d.x + mid }))
  | _, _ => (parents, children)

/-- `mergeSides(parents, children)`: mark the ancestry row, re-point the
depth-1 ancestors at the descendant root, and concatenate the descendants
with the non-root ancestors (parent indices are re-based accordingly). -/
def mergeSides (parents children : List LNode) : List MNode :=
  let nc := children.length
  children.map (fun d =>
    ({ person := d.person, x := d.x, y := d.y, depth := d.depth,
       parentIdx := d.parentIdx, is_ancestry := false } : MNode)) ++
  (parents.drop 1).map (fun d =>
    ({ person := d.person, x := d.x, y := d.y, depth := d.depth,
       parentIdx := match d.parentIdx with
                    | some 0 => some 0
                    | some p => some (nc + p - 1)
                    | none => none,
       is_ancestry := true } : MNode))

/-- `setupChildrenAndParents` restricted to what the spouse pass reads: the
`parents` collection of the node at `idx` — the ancestry nodes whose
tree-parent is that node, in list order. -/
def nodeParents (tree : List MNode) (idx : Nat) : List Nat :=
  (List.range tree.length).filter (fun j =>
    match tree[j]? with
    | some q => q.is_ancestry && q.parentIdx = some idx
    | none => false)

/-- One iteration of the reverse `setupSpouses` loop at index `k`: insert
the spouse cards of a non-ancestry node (shifting the node sideways), then
tighten a two-parent pair around its midpoint.  An unresolvable spouse id is
modelled as a crash (the JS keeps an `undefined` reference that throws in
the later passes that read it). -/
def setupSpousesStep (stash : List Person) (ns : ℚ) (olr : Bool) (k : Nat)
    (tree : List MNode) : Option (List MNode) :=
  match tree[k]? with
  | none => none
  | some d =>
    let spousePart : Option (List MNode) :=
      if !d.is_ancestry && d.person.rels.spouses ≠ [] then
        if olr && 0 < d.depth then some tree
        else
          let side : ℚ := if d.person.data.gender = some "M" then -1 else 1
          let dx := d.x + ((d.person.rels.spouses.length : ℚ) / 2) * ns * side
          let tree1 := tree.set k { d with x := dx }
          (List.range d.person.rels.spouses.length).foldl
            (fun acc i =>
              match acc with
              | none => none
              | some t =>
                match d.person.rels.spouses[i]? with
                | none => none
                | some sp_id =>
                  match findPerson stash sp_id with
                  | none => none
                  | some spp =>
                    let sx0 := dx - ns * ((i + 1 : Nat) : ℚ) * side
                    let spn : MNode := { person := spp, x := sx0, y := d.y, sx := some (if 0 < i then sx0 else sx0 + (ns / 2) * side), sy := some (if 0 < i then d.y else d.y + (ns / 2) * side), depth := d.depth, added := true }
                    some (t ++ [spn]))
            (some tree1)
      else some tree
    match spousePart with
    | none => none
    | some tree2 =>
      match nodeParents tree2 k with
      | [i1, i2] =>
        match tree2[i1]?, tree2[i2]? with
        | some p1, some p2 =>
          let midd := p1.x - (p1.x - p2.x) / 2
          let p2x := midd + (ns / 2) * (if p1.x < p2.x then 1 else -1)
          let tree3 := tree2.set i2 { p2 with x := p2x }
          let p1x := midd + (ns / 2) * (if p2x < p1.x then 1 else -1)
          some (tree3.set i1 { p1 with x := p1x })
        | _, _ => none
      | _ => some tree2

/-- The whole reverse loop `for (let i = tree.length; i--;)` of
`setupSpouses`; spouses pushed during the loop sit past the cached length
and are not themselves visited. -/
def setupSpousesGo (stash : List Person) (ns : ℚ) (olr : Bool) :
    Nat → List MNode → Option (List MNode)
  | 0, tree => some tree
  | k + 1, tree =>
    match setupSpousesStep stash ns olr k tree with
    | none => none
    | some tree2 => setupSpousesGo stash ns olr k tree2

/-- `nodePositioning` on the default (vertical) orientation: flip the y sign
of the ancestry row. -/
def nodePositioning (tree : List MNode) : List MNode :=
  tree.map (fun d => if d.is_ancestry then { d with y := -d.y } else d)

/-- `d3.extent` over a non-empty projection (min, max). -/
def treeExtent (f : MNode → ℚ) : List MNode → ℚ × ℚ
  | [] => (0, 0)
  | t0 :: rest => rest.foldl (fun mm d => (min mm.1 (f d), max mm.2 (f d))) (f t0, f t0)

/-- What `CalculateTree` returns (the fields the claims speak about). -/
structure CTResult where
  data : List MNode
  data_stash : List Person
  dim_width : ℚ
  dim_height : ℚ
  main_id : Option String
deriving Repr, DecidableEq

/-- `CalculateTree({data, main_id})` on the default configuration
(`node_separation = 250`, `level_separation = 150`,
`single_parent_empty_card = true`, everything else off/unset, so the trim,
sibling, privacy and duplicate-toggle passes are identity).  Fresh ids for
the augmentor come from `gen`/`c`; `none` models a crash on an
unresolvable id or a relation cycle. -/
def CalculateTreeDefault (gen : Nat → String) (c : Nat) (data : List Person)
    (main_id : Option String) : Option CTResult :=
  if data.isEmpty then
    some { data := [], data_stash := [], dim_width := 0, dim_height := 0,
           main_id := none }
  else
    match createRelsToAdd gen c data with
    | none => none
    | some (stash0, _) =>
      let mainIdx : Nat :=
        match main_id with
        | none => 0
        | some mid => (findPersonIdx stash0 mid).getD 0
      let stash := (List.range stash0.length).zip stash0 |>.map
        (fun p => { p.2 with main := p.1 = mainIdx })
      match stash[mainIdx]? with
      | none => none
      | some main =>
        let fuel := stash.length + 1
        match buildH (hierarchyGetterChildren stash) fuel main,
            buildH (hierarchyGetterParents stash) fuel main with
        | some hc, some hp =>
          match layoutTree 250 150 false false fuel hc,
              layoutTree 250 150 true false fuel hp with
          | some lc, some lp =>
            let lo := levelOutEachSide lp lc
            let tree0 := mergeSides lo.1 lo.2
            match setupSpousesGo stash 250 false tree0.length tree0 with
            | none => none
            | some tree1 =>
              let tree := nodePositioning tree1
              let wext := treeExtent (fun d => d.x) tree
              let hext := treeExtent (fun d => d.y) tree
              some { data := tree, data_stash := stash,
                     dim_width := wext.2 - wext.1 + 250,
                     dim_height := hext.2 - hext.1 + 150,
                     main_id := some main.id }
          | _, _ => none
        | _, _ => none

/-- C8 graph: `A(M)`, `B(F)`, `C(M, father = A, mother = B)` with
`A.spouses = [B]`, `A.children = [C]`, `B.children = [C]`. -/
def c8A : Person :=
  { id := "A", data := { gender := some "M" },
    rels := { spouses := ["B"], children := ["C"] } }

def c8B : Person :=
  { id := "B", data := { gender := some "F" }, rels := { children := ["C"] } }

def c8C : Person :=
  { id := "C", data := { gender := some "M" },
    rels := { father := some "A", mother := some "B" } }

set_option maxHeartbeats 8000000 in
/-- C8: on the three-person graph with focus `C` and the default
configuration (`node_separation = 250`, `level_separation = 150`),
`CalculateTree` yields exactly three layout nodes: `C` at `(0, 0)` and the
parents at `x = ∓node_separation/2 = ∓125`, `y = -level_separation = -150`
(`A` left, `B` right). -/
theorem c8_calculateTree :
    (CalculateTreeDefault (fun n => "G" ++ toString n) 0 [c8A, c8B, c8C]
        (some "C")).map
      (fun res => (res.data.length, res.data.map (fun d => (d.person.id, d.x, d.y)))) =
      some (3, [("C", (0 : ℚ), (0 : ℚ)),
                ("A", (-125 : ℚ), (-150 : ℚ)),
                ("B", (125 : ℚ), (-150 : ℚ))]) := by
  norm_num +decide [CalculateTreeDefault, createRelsToAdd, parentLoop, childrenLoop,
    processChild, findIdxIn, findPersonIdx, findPerson, findToAdd, truthy,
    getPSlot, setPSlot, genderFlip, modifyPerson, hierarchyGetterChildren,
    hierarchyGetterParents, resolveAll, sortChildrenWithSpouses, sortByKeyAsc,
    insertAsc, spouseOrderKey, otherParent, jsIndexOf, buildH, layoutTree,
    layoutGo, layoutList, separation, sameParent, sameBothParents, hasSpouses,
    someSpouses, offsetOnPartners, levelOutEachSide, mergeSides, nodeParents,
    setupSpousesStep, setupSpousesGo, nodePositioning, treeExtent,
    c8A, c8B, c8C, List.range, List.range.loop, relIds, truthyIds]

/-- C9: with an empty data array, `CalculateTree` returns the empty layout
`{data: [], data_stash: [], dim: {width: 0, height: 0}, main_id: null}`
without crashing and without inserting a blank person — its `main_id` is
`null` (here `none`) even though the store-level focus is never null. -/
theorem c9_emptyData (gen : Nat → String) (c : Nat) (main_id : Option String) :
    CalculateTreeDefault gen c [] main_id =
      some { data := [], data_stash := [], dim_width := 0, dim_height := 0,
             main_id := none } := rfl

end FamilyChart
